import Mathlib

/-!
# Word-frequency indexer (`asgmt3-performance/wordst_good.cpp`)

A shallow embedding of the word-statistics program: the buffered reader and its
tokenizer (`FileReader`), the buffered writer (`FileWriter`), the arena trie
(`Trie`) and the ranking and formatting done by `printStatis`.

Conventions of the embedding.

* A `char` is an `Int` in `[-128, 127]` (the program is only functional where
  `char` is signed: with an unsigned `char` the test `ch == EOF` can never
  succeed and `get_word` would loop forever at end of file).  A byte of the
  file is a `Nat` below 256, and `toChar` is the conversion done by storing
  it in the `char` buffer.
* A `std::string` is the list of its `char`s.
* `size_t` counters (`line`, `count`, node indices) are `Nat`: they only move
  by one per byte read or per call, so they cannot reach `2 ^ 64`.  Where the
  wrap of unsigned arithmetic is what the code relies on (`ch - 'a'`, the
  descending bucket loop) it is written out with `% 2 ^ 64`.
* Loops whose termination depends on the data take a fuel argument and return
  `none` when it runs out; totality lemmas show that the fuel supplied by the
  entry points of the program is always enough.
* `std::sort` is a parameter of `reportOrder`.  The general theorems take it
  with the contract of the C++ standard (`StdSort`); what the program does with
  entries that the contract leaves in any order is evaluated with the
  `std::sort` of libstdc++ (namespace `Libstdcxx`, `std_sort`).

The three small programs of `asgmt1-style` (`fifo_queue.c`,
`serialize_json.cpp`, `split_str.cpp`) are embedded after the indexer, each in
a namespace of its own (`FifoQueue`, `SerializeJson`, `SplitStr`).
-/

namespace WordStat

/-! ## Characters -/

/-- The macro `EOF` of `<cstdio>`. -/
def EOF : Int := -1

/-- The value a byte of the file has once stored in a (signed) `char`. -/
def toChar (b : Nat) : Int :=
  if b % 256 < 128 then ((b % 256 : Nat) : Int) else ((b % 256 : Nat) : Int) - 256

/-- The function `std::isalpha` in the default "C" locale: the 52 ASCII letters. -/
def isalpha (ch : Int) : Bool :=
  (65 ≤ ch && ch ≤ 90) || (97 ≤ ch && ch ≤ 122)

/-- The function `std::tolower` in the default "C" locale. -/
def tolower (ch : Int) : Int :=
  if 65 ≤ ch ∧ ch ≤ 90 then ch + 32 else ch

/-! ## FileReader -/

/-- The state of a `FileReader`.  `file` lists the results of the calls of
`fread` still to come (once the list is used up `fread` returns zero bytes),
`buf` is the part `[p1, p2)` of the buffer, `line` the line counter. -/
structure FileReader where
  file : List (List Nat)
  buf : List Nat
  line : Nat
deriving DecidableEq

namespace FileReader

/-- The constructor: nothing buffered, `line = 1`. -/
def new (file : List (List Nat)) : FileReader :=
  { file := file, buf := [], line := 1 }

/-- The method `get_char`: serve the next buffered `char`; on an empty buffer refill it by
one `fread`, and return `EOF` when that read yields no byte. -/
def get_char (r : FileReader) : Int × FileReader :=
  match r.buf with
  | b :: bs => (toChar b, { r with buf := bs })
  | [] =>
    match r.file with
    | [] => (EOF, r)
    | [] :: rest => (EOF, { r with file := rest })
    | (b :: bs) :: rest => (toChar b, { r with file := rest, buf := bs })

/-- A bound on the number of `get_char` calls that can still return data. -/
def pending (r : FileReader) : Nat :=
  r.buf.length + (r.file.map (fun c => c.length + 1)).sum

/-- The first loop of `get_word`: skip the non-letters, counting newlines.
`some (none, r)` is the early `return ""` at `EOF`, `some (some ch, r)` leaves
the loop with the letter `ch`. -/
def skipLoop : Nat → Int → FileReader → Option (Option Int × FileReader)
  | 0, _, _ => none
  | fuel + 1, ch, r =>
    if isalpha ch then some (some ch, r)
    else if ch = EOF then some (none, r)
    else
      let r1 := if ch = 10 then { r with line := r.line + 1 } else r
      skipLoop fuel r1.get_char.1 r1.get_char.2

/-- The second loop of `get_word`: collect letters; returns the collected
string, the terminating `char` and the reader. -/
def accLoop : Nat → Int → List Int → FileReader → Option (List Int × Int × FileReader)
  | 0, _, _, _ => none
  | fuel + 1, ch, result, r =>
    if isalpha ch then accLoop fuel r.get_char.1 (result ++ [ch]) r.get_char.2
    else some (result, ch, r)

/-- The method `get_word`: the next word in lower case (empty at `EOF`) and the reader
after the call. -/
def get_word (r : FileReader) : Option (List Int × FileReader) :=
  match skipLoop (r.pending + 2) r.get_char.1 r.get_char.2 with
  | none => none
  | some (none, r1) => some ([], r1)
  | some (some ch, r1) =>
    match accLoop (r.pending + 2) ch [] r1 with
    | none => none
    | some (result, ch2, r2) =>
      let r3 := if ch2 = 10 then { r2 with line := r2.line + 1 } else r2
      some (result.map tolower, r3)

/-- Successive `get_word` calls up to the terminating empty word. -/
def wordsLoop : Nat → FileReader → Option (List (List Int))
  | 0, _ => none
  | fuel + 1, r =>
    match r.get_word with
    | none => none
    | some (word, r1) =>
      if word.length = 0 then some []
      else (wordsLoop fuel r1).map (fun ws => word :: ws)

/-- The words returned by successive `get_word` calls, up to the terminating
empty word. -/
def words (r : FileReader) : Option (List (List Int)) :=
  wordsLoop (r.pending + 1) r

end FileReader

/-- The loop `while (word = file_reader.get_word(), word.length())` of `main`,
recording the argument pair `(word, file_reader.line)` of each `trie.insert`. -/
def insertCallsLoop : Nat → FileReader → Option (List (List Int × Nat))
  | 0, _ => none
  | fuel + 1, r =>
    match r.get_word with
    | none => none
    | some (word, r1) =>
      if word.length = 0 then some []
      else (insertCallsLoop fuel r1).map (fun cs => (word, r1.line) :: cs)

/-- The argument pairs `(word, file_reader.line)` of the `trie.insert` calls
made by the loop of `main`, in call order. -/
def insertCalls (r : FileReader) : Option (List (List Int × Nat)) :=
  insertCallsLoop (r.pending + 1) r

/-- Text as a list of `char`s. -/
def str (s : String) : List Int := s.toList.map (fun c => (c.toNat : Int))

/-- Text as a list of bytes. -/
def bytes (s : String) : List Nat := s.toList.map (fun c => c.toNat)

/-! ## FileWriter -/

/-- The constant `buffer_size`. -/
def buffer_size : Nat := 2 ^ 20

/-- The state of a `FileWriter`.  `file` is what `fwrite` has written so far,
`buffer` the buffer memory (its length is `end - buffer`) and `ptr` the offset
`ptr - buffer`. -/
structure FileWriter where
  file : List Int
  buffer : List Int
  ptr : Nat
deriving DecidableEq

namespace FileWriter

/-- The constructor: an empty buffer of `capacity` chars. -/
def new (capacity : Nat) : FileWriter :=
  { file := [], buffer := List.replicate capacity 0, ptr := 0 }

/-- The memory after `std::memcpy(buffer + dst, src, n)`. -/
def memcpy (buffer : List Int) (dst : Nat) (src : List Int) (n : Nat) : List Int :=
  buffer.take dst ++ src.take n ++ buffer.drop (dst + n)

/-- The method `flush`: write `[buffer, ptr)` and reset `ptr`. -/
def flush (w : FileWriter) : FileWriter :=
  { w with file := w.file ++ w.buffer.take w.ptr, ptr := 0 }

/-- The method `put_char`: flush a full buffer, then store the `char`. -/
def put_char (ch : Int) (w : FileWriter) : FileWriter :=
  let w1 := if w.ptr = w.buffer.length then w.flush else w
  { w1 with buffer := w1.buffer.set w1.ptr ch, ptr := w1.ptr + 1 }

/-- The `for` loop of `put_string`, from index `i`. -/
def put_string_loop (s : List Int) : Nat → Nat → FileWriter → Option FileWriter
  | 0, _, _ => none
  | fuel + 1, i, w =>
    if i < s.length then
      if w.buffer.length - w.ptr ≤ s.length - i then
        let w1 := { w with buffer := memcpy w.buffer w.ptr (s.drop i) (w.buffer.length - w.ptr) }
        let w2 := w1.flush
        put_string_loop s fuel (i + (w2.buffer.length - w2.ptr)) w2
      else
        let w1 := { w with
          buffer := memcpy w.buffer w.ptr (s.drop i) (s.length - i),
          ptr := w.ptr + (s.length - i) }
        put_string_loop s fuel s.length w1
    else some w

/-- The method `put_string`. -/
def put_string (s : List Int) (w : FileWriter) : Option FileWriter :=
  put_string_loop s (s.length + 1) 0 w

end FileWriter

/-! ## Trie -/

/-- The constant `limit`. -/
def limit : Nat := 20

/-- The struct `WordInfo`: the occurrence count and the array of `limit` line numbers. -/
structure WordInfo where
  count : Nat
  lines : List Nat
deriving DecidableEq

/-- The struct `Trie::unit_t`: the 26 child indices (0 for no child) and the optional
`WordInfo`. -/
structure unit_t where
  ch : List Nat
  info : Option WordInfo
deriving DecidableEq

/-- A value-initialised node, as made by `units.resize(1)` and
`units.emplace_back()`. -/
def unit_t.empty : unit_t := { ch := List.replicate 26 0, info := none }

/-- The class `Trie`: the root index and the arena of nodes. -/
structure Trie where
  root : Nat
  units : List unit_t
deriving DecidableEq

/-- The node `units[p]`. -/
def unitAt (units : List unit_t) (p : Nat) : unit_t := units.getD p unit_t.empty

/-- The child slot `units[p].ch[c]`. -/
def child (units : List unit_t) (p c : Nat) : Nat := (unitAt units p).ch.getD c 0

/-- The index `size_t c = ch - 'a'`: the difference is an `int`, converted to `size_t`. -/
def childIndex (ch : Int) : Nat := ((ch - 97) % 2 ^ 64).toNat

namespace Trie

/-- The constructor: a single root node at index 0. -/
def new : Trie := { root := 0, units := [unit_t.empty] }

/-- One iteration of the loop of `insert`: create the child of `p` for `ch`
when it is absent, and move to it. -/
def step (units : List unit_t) (p : Nat) (ch : Int) : List unit_t × Nat :=
  let c := childIndex ch
  let units1 :=
    if child units p c = 0 then
      let grown := units ++ [unit_t.empty]
      grown.set p ({ unitAt grown p with ch := (unitAt grown p).ch.set c (grown.length - 1) } : unit_t)
    else units
  (units1, child units1 p c)

/-- The loop `for (char ch : word)` of `insert`. -/
def walk : List Int → List unit_t → Nat → List unit_t × Nat
  | [], units, p => (units, p)
  | ch :: rest, units, p => walk rest (step units p ch).1 (step units p ch).2

/-- The update of the terminal node's `WordInfo` in `insert`. -/
def bump (old : Option WordInfo) (line : Nat) : WordInfo :=
  let info : WordInfo := match old with
    | none => { count := 0, lines := List.replicate limit 0 }
    | some i => i
  let count := info.count + 1
  { count := count,
    lines := if count ≤ limit then info.lines.set (count - 1) line else info.lines }

/-- The method `insert`. -/
def insert (t : Trie) (word : List Int) (line : Nat) : Trie :=
  let units := (walk word t.units t.root).1
  let p := (walk word t.units t.root).2
  { t with units := units.set p ({ unitAt units p with info := some (bump (unitAt units p).info line) } : unit_t) }

/-- The recursive lambda `search` of `get_all`; the result lists what the call
appends to `result`, and `current` is passed by value (the code pushes a letter
before the recursive call and pops it after). -/
def search (units : List unit_t) : Nat → Nat → List Int → Option (List (List Int × WordInfo))
  | 0, _, _ => none
  | fuel + 1, p, current =>
    (List.range 26).foldl
      (fun acc i =>
        if child units p i = 0 then acc
        else acc.bind (fun done =>
          (search units fuel (child units p i) (current ++ [(i : Int) + 97])).map
            (fun sub => done ++ sub)))
      (some (match (unitAt units p).info with
        | some info => [(current, info)]
        | none => []))

/-- The method `get_all`; the depth of the recursion is below the number of nodes. -/
def get_all (t : Trie) : Option (List (List Int × WordInfo)) :=
  search t.units t.units.length t.root []

/-- The trie after a sequence of `insert` calls on a fresh trie. -/
def build (calls : List (List Int × Nat)) : Trie :=
  calls.foldl (fun t c => t.insert c.1 c.2) new

end Trie

/-- The body of `main` up to the call of `printStatis`: its argument. -/
def pipeline (r : FileReader) : Option (List (List Int × WordInfo)) :=
  (insertCalls r).bind (fun calls => (Trie.build calls).get_all)

/-! ## printStatis -/

/-- The constant `buckets_size`. -/
def buckets_size : Nat := 1000

/-- The count `wordsVector[i].second.count`. -/
def countAt (wordsVector : List (List Int × WordInfo)) (i : Nat) : Nat :=
  match wordsVector.get? i with
  | some e => e.2.count
  | none => 0

/-- The comparator of a `std::sort` call is required to be a strict weak
ordering. -/
structure StrictWeakOrder (comp : Nat → Nat → Bool) : Prop where
  irrefl : ∀ a, comp a a = false
  trans : ∀ a b c, comp a b = true → comp b c = true → comp a c = true
  incomp : ∀ a b c, comp a b = false → comp b a = false → comp b c = false →
    comp c b = false → comp a c = false ∧ comp c a = false

/-- What the C++ standard promises of `std::sort(first, last, comp)`: the
range is rearranged (a permutation) so that no element is ordered by `comp`
before an element in front of it.  The order of equivalent elements is not
specified. -/
def StdSort (sort : (Nat → Nat → Bool) → List Nat → List Nat) : Prop :=
  ∀ comp l, StrictWeakOrder comp →
    (sort comp l).Perm l ∧ (sort comp l).Pairwise (fun a b => comp b a = false)

/-- The loop that deals the indices into `buckets` and `residual`. -/
def distribute (wordsVector : List (List Int × WordInfo)) (index : List Nat) :
    List (List Nat) × List Nat :=
  index.foldl
    (fun st i =>
      if countAt wordsVector i < buckets_size then
        (st.1.set (countAt wordsVector i) (st.1.getD (countAt wordsVector i) [] ++ [i]), st.2)
      else (st.1, st.2 ++ [i]))
    (List.replicate buckets_size [], [])

/-- The loop `for (size_t i = buckets_size - 1; i < buckets_size; --i)`; the
decrement of `i = 0` wraps to `2 ^ 64 - 1`, which ends the loop. -/
def collect (buckets : List (List Nat)) : Nat → Nat → List Nat → Option (List Nat)
  | 0, _, _ => none
  | fuel + 1, i, result =>
    if i < buckets_size then
      collect buckets fuel ((i + 2 ^ 64 - 1) % 2 ^ 64) (result ++ buckets.getD i [])
    else some result

/-- The index vector `result` of `printStatis`: the order in which the entries
are reported.  `sort` stands for `std::sort`.  The function asserts first that
`wordsVector` is not empty. -/
def reportOrder (sort : (Nat → Nat → Bool) → List Nat → List Nat)
    (wordsVector : List (List Int × WordInfo)) : Option (List Nat) :=
  let index := List.range wordsVector.length
  let dealt := distribute wordsVector index
  let residual := sort (fun a b => decide (countAt wordsVector a > countAt wordsVector b)) dealt.2
  collect dealt.1 (buckets_size + 1) (buckets_size - 1) residual

/-- The text of `std::format("{}", n)` for an unsigned `n`. -/
def decimal (n : Nat) : List Int := str (toString n)

/-- The text of a `{:<width}` field: padded with spaces on the right, and left
as it is when it is longer. -/
def padRight (width : Nat) (s : List Int) : List Int :=
  s ++ List.replicate (width - s.length) 32

/-- The C string at `word.data()`: the `char`s in front of the first NUL. -/
def c_str (word : List Int) : List Int := word.takeWhile (fun c => decide (c ≠ 0))

/-- The text that the body of the reporting loop of `printStatis` passes to
the writer for one entry, in call order: the two fields (the word is passed as
`word.data()`), the first line number, `,` and a line number for each `j` from
1 below `min(info.lines.size(), info.count)`, and the newline. -/
def entryText (word : List Int) (info : WordInfo) : List Int :=
  (padRight 20 (c_str word) ++ [32] ++ padRight 5 (decimal info.count) ++ [32])
    ++ decimal (info.lines.getD 0 0)
    ++ ((List.range' 1 (min info.lines.length info.count - 1)).map
          (fun j => [44] ++ decimal (info.lines.getD j 0))).flatten
    ++ [10]

/-! ## main -/

/-- The uses that `main` makes of the handle `fp` returned by `fopen`. -/
inductive HandleUse where
  | construct
  | fread
  | fclose
deriving DecidableEq

/-- How a run of `main` ends: it returns a status (with or without a
diagnostic on `std::cerr`), it is stopped by the failed assertion of
`printStatis`, or it runs into undefined behaviour. -/
inductive Outcome where
  | exit (status : Nat) (diagnostic : Bool)
  | assertFailed
  | undefined
deriving DecidableEq

/-- The function `main`, for `argc` and for the result `fp` of
`fopen(argv[1], "r")` (`none` is the null pointer, `some file` an open file that
will deliver `file`): the uses made of `fp`, in the order of their first
occurrence, and the outcome.  After the test of `argc` the pointer is handed
to the `FileReader` unchecked, and the first `get_word` calls `get_char` on the
empty buffer, that is `fread(buffer, 1, buffer_size, fp)`; with a null `fp` this
call is undefined. -/
def main (argc : Nat) (fp : Option (List (List Nat))) : List HandleUse × Outcome :=
  if argc ≠ 2 then ([], Outcome.exit 1 true)
  else
    match fp with
    | none => ([HandleUse.construct, HandleUse.fread], Outcome.undefined)
    | some file =>
      match pipeline (FileReader.new file) with
      | none => ([HandleUse.construct, HandleUse.fread], Outcome.undefined)
      | some entries =>
        if entries = [] then
          ([HandleUse.construct, HandleUse.fread, HandleUse.fclose], Outcome.assertFailed)
        else ([HandleUse.construct, HandleUse.fread, HandleUse.fclose], Outcome.exit 0 false)

/-! ## Definitions used to state the properties -/

/-- The report line of an entry as the specification words it: the word in a
20-column field, a space, the count in a 5-column field, a space, the first
`min(count, 20)` recorded lines separated by commas, and a newline. -/
def entryTextSpec (word : List Int) (count : Nat) (lines : List Nat) : List Int :=
  padRight 20 word ++ [32] ++ padRight 5 (decimal count) ++ [32]
    ++ List.intercalate [44] ((lines.take (min count 20)).map decimal) ++ [10]

/-- The field `units[p].info`. -/
def infoAt (units : List unit_t) (p : Nat) : Option WordInfo := (unitAt units p).info

/-- The arena is a tree rooted at index 0. -/
structure Trie.WF (units : List unit_t) : Prop where
  nonempty : 0 < units.length
  width : ∀ p, (unitAt units p).ch.length = 26
  link : ∀ p c, child units p c ≠ 0 → p < child units p c ∧ child units p c < units.length
  inj : ∀ p c p' c', child units p c ≠ 0 → child units p c = child units p' c' → p = p' ∧ c = c'

/-- The node reached from `p` along `word`, when the whole path exists. -/
def Trie.find (units : List unit_t) : Nat → List Int → Option Nat
  | p, [] => some p
  | p, ch :: rest =>
    if child units p (childIndex ch) = 0 then none
    else Trie.find units (child units p (childIndex ch)) rest

/-- The `WordInfo` stored for the path `word` below node `p`. -/
def Trie.lookupFrom (units : List unit_t) (p : Nat) (word : List Int) : Option WordInfo :=
  (Trie.find units p word).bind (infoAt units)

/-- The `WordInfo` stored for `word`: that of the node its letters lead to from
the root. -/
def Trie.lookup (t : Trie) (word : List Int) : Option WordInfo :=
  Trie.lookupFrom t.units t.root word

/-- A word of letters `a` to `z`. -/
def Lowercase (word : List Int) : Prop := ∀ ch ∈ word, 97 ≤ ch ∧ ch ≤ 122

instance : DecidablePred Lowercase := fun word =>
  inferInstanceAs (Decidable (∀ ch ∈ word, 97 ≤ ch ∧ ch ≤ 122))

/-- A trie as the constructor and `insert` make them. -/
def Trie.Inv (t : Trie) : Prop := t.root = 0 ∧ Trie.WF t.units

/-- The arena with the `info` field of node `q` replaced. -/
def setInfo (units : List unit_t) (q : Nat) (v : Option WordInfo) : List unit_t :=
  units.set q ({ unitAt units q with info := v } : unit_t)

/-- The `WordInfo` that a word has after being inserted with the given lines,
in order; `none` when it was never inserted. -/
def record (lines : List Nat) : Option WordInfo :=
  lines.foldl (fun acc line => some (Trie.bump acc line)) none

/-- The lines passed with `word` in a sequence of `insert` calls, in order. -/
def linesOf (word : List Int) (calls : List (List Int × Nat)) : List Nat :=
  (calls.filter (fun c => decide (c.1 = word))).map (fun c => c.2)

/-- The `WordInfo` of a word inserted with the lines `ls`: the count is their
number, the array holds the first `limit` of them and zeros after. -/
def recordInfo (ls : List Nat) : WordInfo :=
  { count := ls.length, lines := ls.take limit ++ List.replicate (limit - ls.length) 0 }

/-- The order of `std::string` on words: a proper initial part comes first,
otherwise the first differing `char` decides. -/
def wordLt : List Int → List Int → Prop
  | _, [] => False
  | [], _ :: _ => True
  | a :: as, b :: bs => a < b ∨ (a = b ∧ wordLt as bs)

/-- What `search` appends for the subtree of `p`. -/
def SearchSpec (units : List unit_t) (p : Nat) (cur : List Int)
    (res : List (List Int × WordInfo)) : Prop :=
  (∀ x info, (x, info) ∈ res ↔
      ∃ w, Lowercase w ∧ x = cur ++ w ∧ Trie.lookupFrom units p w = some info)
    ∧ res.Pairwise (fun a b => wordLt a.1 b.1)

/-- A `std::sort` that keeps equivalent elements in the order they had: an
insertion sort. -/
def stableSort (comp : Nat → Nat → Bool) (l : List Nat) : List Nat :=
  List.insertionSort (fun a b => comp b a = false) l

/-- The number of nodes of the arena that carry a `WordInfo`. -/
def terminalCount (units : List unit_t) : Nat :=
  units.countP (fun u => u.info.isSome)

/-- ASCII letters among the bytes of a stream. -/
def isLetterByte (b : Nat) : Bool :=
  (65 ≤ b && b ≤ 90) || (97 ≤ b && b ≤ 122)

/-- The lower-case `char` of a letter byte. -/
def lowerByte (b : Nat) : Int :=
  if 65 ≤ b ∧ b ≤ 90 then (b : Int) + 32 else (b : Int)

/-- The maximal runs of letters of a stream, in lower case; `cur` is the run
being read. -/
def letterRunsFrom : List Nat → List Int → List (List Int)
  | [], cur => if cur = [] then [] else [cur]
  | b :: bs, cur =>
    if isLetterByte b then letterRunsFrom bs (cur ++ [lowerByte b])
    else (if cur = [] then [] else [cur]) ++ letterRunsFrom bs []

/-- The words of a byte stream as the specification defines them: its maximal
runs of ASCII letters, in stream order, each in lower case. -/
def letterRunsSpec (stream : List Nat) : List (List Int) :=
  letterRunsFrom stream []

/-- The 17 one-letter words `a` to `q`. -/
def tieWords : List (List Int) := (List.range 17).map (fun (k : Nat) => [97 + (k : Int)])

/-- The `insert` calls for a file of one line that holds a thousand occurrences
of `a`, then a thousand of `b`, and so on to `q`. -/
def tieCalls : List (List Int × Nat) :=
  tieWords.flatMap (fun w => List.replicate 1000 (w, 1))

/-- The entries of the words `a` to `q`, each with count 1000. -/
def tieEntries : List (List Int × WordInfo) :=
  tieWords.map (fun w => (w, { count := 1000, lines := List.replicate 20 1 }))

/-- The bytes that the reader has still to deliver. -/
def FileReader.stream (r : FileReader) : List Nat := r.buf ++ r.file.flatten

/-- No `fread` to come returns zero bytes in front of data. -/
def WellChunked (file : List (List Nat)) : Prop := ∀ c ∈ file, c ≠ []

/-- Whether the array accesses of the loop of `insert` and of the access to
`units[p].info` after it stay in range: every node index below `units.size()`
and every child index below 26. -/
def Trie.walkInRange : List Int → List unit_t → Nat → Bool
  | [], units, p => decide (p < units.length)
  | ch :: rest, units, p =>
    decide (p < units.length) && decide (childIndex ch < 26)
      && Trie.walkInRange rest (Trie.step units p ch).1 (Trie.step units p ch).2

/-- Whether all array accesses of a sequence of `insert` calls, made one after
the other from the trie `t`, stay in range. -/
def Trie.insertsInRange : Trie → List (List Int × Nat) → Bool
  | _, [] => true
  | t, c :: cs => Trie.walkInRange c.1 t.units t.root && Trie.insertsInRange (t.insert c.1 c.2) cs

end WordStat

/-!
# `std::sort` of libstdc++ (`bits/stl_algo.h`, `bits/stl_heap.h`)

The C++ standard leaves the order of equivalent elements after `std::sort`
open; what the program reports for entries of equal count in `residual` is
decided by the library.  This is the algorithm of the GNU library, on a vector
of `size_t`: an introsort (median-of-three quicksort down to ranges of 16
elements, heap sort when the recursion gets too deep) followed by an insertion
sort.

The vector is a list and an iterator an index into it.  A function returns
`none` where the C++ code reads or writes outside the vector, which is
undefined, or when a loop runs out of its fuel; the library functions are
evaluated on given vectors here, where they return a vector.  The names are
those of the library without the leading underscores.
-/

namespace Libstdcxx

/-- The constant `_S_threshold`. -/
def S_threshold : Nat := 16

/-- The read `*i`. -/
def load (v : List Nat) (i : Nat) : Option Nat := v.get? i

/-- The write `*i = x`. -/
def store (v : List Nat) (i : Nat) (x : Nat) : Option (List Nat) :=
  if i < v.length then some (v.set i x) else none

/-- The function `std::iter_swap`. -/
def iter_swap (v : List Nat) (a b : Nat) : Option (List Nat) := do
  let x ← load v a
  let y ← load v b
  let v1 ← store v a y
  store v1 b x

/-- The function `__move_median_to_first`. -/
def move_median_to_first (comp : Nat → Nat → Bool) (v : List Nat) (result a b c : Nat) :
    Option (List Nat) := do
  let xa ← load v a
  let xb ← load v b
  if comp xa xb then
    let xc ← load v c
    if comp xb xc then iter_swap v result b
    else if comp xa xc then iter_swap v result c
    else iter_swap v result a
  else
    let xc ← load v c
    if comp xa xc then iter_swap v result a
    else if comp xb xc then iter_swap v result c
    else iter_swap v result b

/-- The loop of `__unguarded_linear_insert`, at the iterator `last` with
`next = last - 1`; at `last = 0` the iterator `next` has left the vector. -/
def unguarded_linear_insert_loop (comp : Nat → Nat → Bool) (val : Nat) :
    Nat → List Nat → Option (List Nat)
  | 0, _ => none
  | next + 1, v => do
    let x ← load v next
    if comp val x then
      let v1 ← store v (next + 1) x
      unguarded_linear_insert_loop comp val next v1
    else store v (next + 1) val

/-- The function `__unguarded_linear_insert`. -/
def unguarded_linear_insert (comp : Nat → Nat → Bool) (v : List Nat) (last : Nat) :
    Option (List Nat) := do
  let val ← load v last
  unguarded_linear_insert_loop comp val last v

/-- The function `std::move_backward`, for a destination that does not end
inside the source range: the elements of `[first, last)` are moved to the range
that ends at `d_last`. -/
def move_backward (v : List Nat) (first last d_last : Nat) : Option (List Nat) :=
  if first ≤ last ∧ last ≤ v.length ∧ last - first ≤ d_last ∧ d_last ≤ v.length then
    some (v.take (d_last - (last - first)) ++ (v.drop first).take (last - first) ++ v.drop d_last)
  else none

/-- The loop of `__insertion_sort` from the iterator `i`, with `n` iterators
left in front of `last`. -/
def insertion_sort_loop (comp : Nat → Nat → Bool) (first : Nat) :
    Nat → List Nat → Nat → Option (List Nat)
  | 0, v, _ => some v
  | n + 1, v, i => do
    let xi ← load v i
    let xf ← load v first
    let v1 ←
      if comp xi xf then do
        let v2 ← move_backward v first i (i + 1)
        store v2 first xi
      else unguarded_linear_insert comp v i
    insertion_sort_loop comp first n v1 (i + 1)

/-- The function `__insertion_sort`; `none` for a range with `last` in front
of `first`, where the loop never meets `last`. -/
def insertion_sort (comp : Nat → Nat → Bool) (v : List Nat) (first last : Nat) :
    Option (List Nat) :=
  if first = last then some v
  else if last < first then none
  else insertion_sort_loop comp first (last - (first + 1)) v (first + 1)

/-- The loop of `__unguarded_insertion_sort` from the iterator `i`, with `n`
iterators left in front of `last`. -/
def unguarded_insertion_sort_loop (comp : Nat → Nat → Bool) :
    Nat → List Nat → Nat → Option (List Nat)
  | 0, v, _ => some v
  | n + 1, v, i => do
    let v1 ← unguarded_linear_insert comp v i
    unguarded_insertion_sort_loop comp n v1 (i + 1)

/-- The function `__unguarded_insertion_sort`. -/
def unguarded_insertion_sort (comp : Nat → Nat → Bool) (v : List Nat) (first last : Nat) :
    Option (List Nat) :=
  if last < first then none
  else unguarded_insertion_sort_loop comp (last - first) v first

/-- The function `__final_insertion_sort`. -/
def final_insertion_sort (comp : Nat → Nat → Bool) (v : List Nat) (first last : Nat) :
    Option (List Nat) :=
  if last - first > S_threshold then do
    let v1 ← insertion_sort comp v first (first + S_threshold)
    unguarded_insertion_sort comp v1 (first + S_threshold) last
  else insertion_sort comp v first last

/-- The loop `while (__comp(__first, __pivot)) ++__first` of
`__unguarded_partition`: the iterator it stops at. -/
def scan_up (comp : Nat → Nat → Bool) (v : List Nat) (pivot : Nat) : Nat → Nat → Option Nat
  | 0, _ => none
  | fuel + 1, first => do
    let x ← load v first
    let p ← load v pivot
    if comp x p then scan_up comp v pivot fuel (first + 1) else some first

/-- The lines `--__last; while (__comp(__pivot, __last)) --__last` of
`__unguarded_partition`, from the iterator `last`: the iterator they stop at. -/
def scan_down (comp : Nat → Nat → Bool) (v : List Nat) (pivot : Nat) : Nat → Option Nat
  | 0 => none
  | last + 1 => do
    let p ← load v pivot
    let x ← load v last
    if comp p x then scan_down comp v pivot last else some last

/-- The function `__unguarded_partition`: the vector and the iterator
returned. -/
def unguarded_partition (comp : Nat → Nat → Bool) :
    Nat → List Nat → Nat → Nat → Nat → Option (List Nat × Nat)
  | 0, _, _, _, _ => none
  | fuel + 1, v, first, last, pivot => do
    let first1 ← scan_up comp v pivot (v.length + 1) first
    let last1 ← scan_down comp v pivot last
    if first1 < last1 then
      let v1 ← iter_swap v first1 last1
      unguarded_partition comp fuel v1 (first1 + 1) last1 pivot
    else some (v, first1)

/-- The function `__unguarded_partition_pivot`. -/
def unguarded_partition_pivot (comp : Nat → Nat → Bool) (v : List Nat) (first last : Nat) :
    Option (List Nat × Nat) := do
  let mid := first + (last - first) / 2
  let v1 ← move_median_to_first comp v first (first + 1) mid (last - 1)
  unguarded_partition comp (v.length + 1) v1 (first + 1) last first

/-- The function `__push_heap`, from the hole `holeIndex`.  For `holeIndex = 0`
the quotient `(holeIndex - 1) / 2` of the signed type is 0, as here. -/
def push_heap (comp : Nat → Nat → Bool) (first topIndex value : Nat) :
    Nat → List Nat → Nat → Option (List Nat)
  | 0, _, _ => none
  | fuel + 1, v, holeIndex =>
    let parent := (holeIndex - 1) / 2
    if holeIndex > topIndex then do
      let xp ← load v (first + parent)
      if comp xp value then
        let v1 ← store v (first + holeIndex) xp
        push_heap comp first topIndex value fuel v1 parent
      else store v (first + holeIndex) value
    else store v (first + holeIndex) value

/-- The first loop of `__adjust_heap`: the vector, `holeIndex` and
`secondChild` after it.  For `len = 0` the quotient `(len - 1) / 2` of the
signed type is 0, as here. -/
def adjust_heap_loop (comp : Nat → Nat → Bool) (first len : Nat) :
    Nat → List Nat → Nat → Nat → Option (List Nat × Nat × Nat)
  | 0, _, _, _ => none
  | fuel + 1, v, holeIndex, secondChild =>
    if secondChild < (len - 1) / 2 then do
      let sc := 2 * (secondChild + 1)
      let x ← load v (first + sc)
      let y ← load v (first + (sc - 1))
      let sc1 := if comp x y then sc - 1 else sc
      let z ← load v (first + sc1)
      let v1 ← store v (first + holeIndex) z
      adjust_heap_loop comp first len fuel v1 sc1 sc1
    else some (v, holeIndex, secondChild)

/-- The function `__adjust_heap`.  The quotient `(len - 2) / 2` is taken in the
signed type, where it is -1 for `len = 0`. -/
def adjust_heap (comp : Nat → Nat → Bool) (v : List Nat) (first holeIndex len value : Nat) :
    Option (List Nat) := do
  let topIndex := holeIndex
  let (v1, hole1, sc1) ← adjust_heap_loop comp first len (len + 1) v holeIndex holeIndex
  if len % 2 = 0 ∧ (sc1 : Int) = Int.tdiv ((len : Int) - 2) 2 then
    let sc2 := 2 * (sc1 + 1)
    let x ← load v1 (first + (sc2 - 1))
    let v2 ← store v1 (first + hole1) x
    push_heap comp first topIndex value (sc2 - 1 + 1) v2 (sc2 - 1)
  else push_heap comp first topIndex value (hole1 + 1) v1 hole1

/-- The function `__pop_heap`. -/
def pop_heap (comp : Nat → Nat → Bool) (v : List Nat) (first last result : Nat) :
    Option (List Nat) := do
  let value ← load v result
  let x ← load v first
  let v1 ← store v result x
  adjust_heap comp v1 first 0 (last - first) value

/-- The loop of `__make_heap`, from `parent` down to 0. -/
def make_heap_loop (comp : Nat → Nat → Bool) (first len : Nat) :
    Nat → List Nat → Option (List Nat)
  | 0, v => do
    let value ← load v first
    adjust_heap comp v first 0 len value
  | parent + 1, v => do
    let value ← load v (first + (parent + 1))
    let v1 ← adjust_heap comp v first (parent + 1) len value
    make_heap_loop comp first len parent v1

/-- The function `__make_heap`. -/
def make_heap (comp : Nat → Nat → Bool) (v : List Nat) (first last : Nat) : Option (List Nat) :=
  if last - first < 2 then some v
  else make_heap_loop comp first (last - first) ((last - first - 2) / 2) v

/-- The function `__sort_heap`. -/
def sort_heap (comp : Nat → Nat → Bool) (first : Nat) : Nat → List Nat → Nat → Option (List Nat)
  | 0, _, _ => none
  | fuel + 1, v, last =>
    if last - first > 1 then do
      let v1 ← pop_heap comp v first (last - 1) (last - 1)
      sort_heap comp first fuel v1 (last - 1)
    else some v

/-- The loop of `__heap_select` from the iterator `i`, with `n` iterators left
in front of `last`. -/
def heap_select_loop (comp : Nat → Nat → Bool) (first middle : Nat) :
    Nat → List Nat → Nat → Option (List Nat)
  | 0, v, _ => some v
  | n + 1, v, i => do
    let xi ← load v i
    let xf ← load v first
    let v1 ← if comp xi xf then pop_heap comp v first middle i else some v
    heap_select_loop comp first middle n v1 (i + 1)

/-- The function `__heap_select`. -/
def heap_select (comp : Nat → Nat → Bool) (v : List Nat) (first middle last : Nat) :
    Option (List Nat) := do
  let v1 ← make_heap comp v first middle
  heap_select_loop comp first middle (last - middle) v1 middle

/-- The function `__partial_sort`. -/
def partial_sort (comp : Nat → Nat → Bool) (v : List Nat) (first middle last : Nat) :
    Option (List Nat) := do
  let v1 ← heap_select comp v first middle last
  sort_heap comp first (v.length + 1) v1 middle

/-- The function `__introsort_loop`.  Every pass of its loop, and so every
recursive call, lowers `depth_limit`. -/
def introsort_loop (comp : Nat → Nat → Bool) : Nat → List Nat → Nat → Nat → Option (List Nat)
  | 0, v, first, last =>
    if last - first > S_threshold then partial_sort comp v first last last
    else some v
  | depth_limit + 1, v, first, last =>
    if last - first > S_threshold then do
      let (v1, cut) ← unguarded_partition_pivot comp v first last
      let v2 ← introsort_loop comp depth_limit v1 cut last
      introsort_loop comp depth_limit v2 first cut
    else some v

/-- The loop that counts the bits behind the highest one: the position of the
highest bit of `n`. -/
def lg_loop : Nat → Nat → Nat
  | 0, _ => 0
  | fuel + 1, n => if n < 2 then 0 else lg_loop fuel (n / 2) + 1

/-- The function `std::__lg` for a positive argument. -/
def lg (n : Nat) : Nat := lg_loop n n

/-- The function `std::sort` on a whole vector, `__sort(v.begin(), v.end(),
comp)`. -/
def sort (comp : Nat → Nat → Bool) (v : List Nat) : Option (List Nat) :=
  if v.length = 0 then some v
  else do
    let v1 ← introsort_loop comp (lg v.length * 2) v 0 v.length
    final_insertion_sort comp v1 0 v.length

end Libstdcxx

namespace WordStat

/-- The call `std::sort(residual.begin(), residual.end(), comp)` of
`printStatis` with the library of GCC.  Where the library function is undefined
the vector is taken as it is. -/
def std_sort (comp : Nat → Nat → Bool) (residual : List Nat) : List Nat :=
  (Libstdcxx.sort comp residual).getD residual

end WordStat

/-!
# FIFO queue (`asgmt1-style/fifo_queue.c`)

The queue items live in a heap that maps addresses to items; a pointer is an
`Option Nat`, `none` being `NULL`.  The result of `malloc` is an argument of
`queue_push`.  An operation that dereferences a pointer to no live item is
undefined and returns `none`.
-/

namespace FifoQueue

/-- The struct `queue_item`. -/
structure queue_item where
  value : Int
  next : Option Nat
deriving DecidableEq

/-- The live items, by address, and the fields of `struct queue`. -/
structure State where
  heap : List (Nat × queue_item)
  head : Option Nat
  tail : Option Nat
deriving DecidableEq

/-- The item at address `a`, if one is live there. -/
def load (heap : List (Nat × queue_item)) (a : Nat) : Option queue_item :=
  match heap with
  | [] => none
  | (b, item) :: rest => if b = a then some item else load rest a

/-- The heap with the item at address `a` removed: `free`. -/
def release (heap : List (Nat × queue_item)) (a : Nat) : List (Nat × queue_item) :=
  heap.filter (fun e => decide (e.1 ≠ a))

/-- The heap after writing `item` at address `a`. -/
def store (heap : List (Nat × queue_item)) (a : Nat) (item : queue_item) :
    List (Nat × queue_item) :=
  (a, item) :: release heap a

/-- The queue of `main` before the first push: `{.head = NULL, .tail = NULL}`. -/
def empty : State := { heap := [], head := none, tail := none }

/-- The function `queue_push`; `item` is the result of `malloc`.  Returns the
new state and the return value. -/
def queue_push (q : State) (value : Int) (item : Option Nat) : Option (State × Int) :=
  match item with
  | none => some (q, 0)
  | some a =>
    let heap1 := store q.heap a { value := value, next := none }
    match q.head with
    | none => some ({ heap := heap1, head := some a, tail := some a }, 1)
    | some _ =>
      match q.tail with
      | none => none
      | some t =>
        match load heap1 t with
        | none => none
        | some last =>
          some ({ heap := store heap1 t { last with next := some a },
                  head := q.head, tail := some a }, 1)

/-- The function `queue_pop`; `result` is the value of `*result` before the
call.  Returns the new state, the value of `*result` after the call and the
return value. -/
def queue_pop (q : State) (result : Int) : Option (State × Int × Int) :=
  match q.head with
  | none => some (q, result, 0)
  | some h =>
    match load q.heap h with
    | none => none
    | some item =>
      let q1 : State :=
        if item.next = none then { q with head := none, tail := none }
        else { q with head := item.next }
      some ({ q1 with heap := release q.heap h }, item.value, 1)

/-- A sequence of `queue_push` calls, each with its value and its `malloc`
result; returns the final state and the return values. -/
def pushAll : State → List (Int × Option Nat) → Option (State × List Int)
  | q, [] => some (q, [])
  | q, (v, a) :: rest =>
    match queue_push q v a with
    | none => none
    | some (q1, ret) => (pushAll q1 rest).map (fun r => (r.1, ret :: r.2))

/-- Calling `queue_pop` `n` times, each time into a variable that holds
`result` before the call; returns the final state and, for each call, the
return value and the value stored. -/
def popAll : Nat → State → Int → Option (State × List (Int × Int))
  | 0, q, _ => some (q, [])
  | n + 1, q, result =>
    match queue_pop q result with
    | none => none
    | some (q1, stored, ret) => (popAll n q1 result).map (fun r => (r.1, (ret, stored) :: r.2))

/-- The next pointer of an item followed by the items at `rest`, the last of
which points to `e`. -/
def nextOf (rest : List Nat) (e : Option Nat) : Option Nat :=
  match rest with
  | [] => e
  | b :: _ => some b

/-- The items at the addresses `addrs` hold the values `values` and are linked
in this order, the last one pointing to `e`. -/
def Seg (heap : List (Nat × queue_item)) : List Nat → List Int → Option Nat → Prop
  | [], [], _ => True
  | a :: rest, v :: vs, e =>
    load heap a = some { value := v, next := nextOf rest e } ∧ Seg heap rest vs e
  | _, _, _ => False

/-- The queue holds the values `values`, front first: `head` points to a list
of distinct items that ends with the item `tail` points to and with `NULL`. -/
def Holds (q : State) (values : List Int) : Prop :=
  ∃ addrs : List Nat, addrs.Nodup ∧ Seg q.heap addrs values none
    ∧ q.head = addrs.head? ∧ q.tail = addrs.getLast?

/-- The states that `queue_push` and `queue_pop` lead to from the empty queue;
`malloc` returns `NULL` or the address of no live item. -/
inductive Reachable : State → Prop
  | init : Reachable empty
  | push (q q1 : State) (value : Int) (item : Option Nat) (ret : Int) :
      Reachable q → (∀ a, item = some a → load q.heap a = none) →
      queue_push q value item = some (q1, ret) → Reachable q1
  | pop (q q1 : State) (result stored ret : Int) :
      Reachable q → queue_pop q result = some (q1, stored, ret) → Reachable q1

end FifoQueue

/-!
# JSON escaping (`asgmt1-style/serialize_json.cpp`)

A `char` is an `Int` in `[-128, 127]` and a string the list of its `char`s, as
for the word-frequency indexer.
-/

namespace SerializeJson

/-- The function `std::isprint` in the default "C" locale: the codes 32 to
126. -/
def isprint (c : Int) : Bool := 32 ≤ c && c ≤ 126

/-- The conversion `static_cast<unsigned>(c)` of a `char`: the value modulo
`2 ^ 32`, so that a negative `char` is sign-extended. -/
def toUnsigned (c : Int) : Nat := (c % 2 ^ 32).toNat

/-- The text of an `unsigned` written with `std::hex`, `std::setw(4)` and
`std::setfill('0')`: its hexadecimal digits in lower case, padded with `0` on
the left to four characters, and not shortened when there are more. -/
def hex4 (n : Nat) : List Int :=
  List.replicate (4 - (Nat.toDigits 16 n).length) 48
    ++ (Nat.toDigits 16 n).map (fun d => (d.toNat : Int))

/-- The text that one pass of the loop of `escape_to_json` writes for the
`char` `c`. -/
def escapeChar (c : Int) : List Int :=
  if c = 34 then [92, 34]
  else if c = 92 then [92, 92]
  else if c = 8 then [92, 98]
  else if c = 12 then [92, 102]
  else if c = 10 then [92, 110]
  else if c = 13 then [92, 114]
  else if c = 9 then [92, 116]
  else if isprint c then [c]
  else [92, 117] ++ hex4 (toUnsigned c)

/-- The function `escape_to_json`. -/
def escape_to_json (s : List Int) : List Int :=
  (s.map escapeChar).flatten

/-- Text as a list of `char`s. -/
def str (s : String) : List Int := s.toList.map (fun c => (c.toNat : Int))

/-- The value of a hexadecimal digit. -/
def hexVal (c : Int) : Option Nat :=
  if 48 ≤ c ∧ c ≤ 57 then some (c - 48).toNat
  else if 97 ≤ c ∧ c ≤ 102 then some (c - 87).toNat
  else if 65 ≤ c ∧ c ≤ 70 then some (c - 55).toNat
  else none

/-- The character that a two-character escape of JSON stands for. -/
def escapeLetter (e : Int) : Option Int :=
  if e = 34 then some 34
  else if e = 92 then some 92
  else if e = 47 then some 47
  else if e = 98 then some 8
  else if e = 102 then some 12
  else if e = 110 then some 10
  else if e = 114 then some 13
  else if e = 116 then some 9
  else none

/-- The string-unescape rules of JSON: a backslash starts a two-character
escape or `u` and exactly four hexadecimal digits; a quote or a control
character may not stand unescaped.  `none` for a body that is not well
formed. -/
def unescape : List Int → Option (List Int)
  | [] => some []
  | c :: rest =>
    if c = 92 then
      match rest with
      | [] => none
      | e :: rest1 =>
        if e = 117 then
          match rest1 with
          | a :: b :: c1 :: d :: rest2 =>
            match hexVal a, hexVal b, hexVal c1, hexVal d with
            | some x, some y, some z, some w =>
              (unescape rest2).map
                (fun t => ((x * 4096 + y * 256 + z * 16 + w : Nat) : Int) :: t)
            | _, _, _, _ => none
          | _ => none
        else
          match escapeLetter e with
          | some v => (unescape rest1).map (fun t => v :: t)
          | none => none
    else if c = 34 ∨ (0 ≤ c ∧ c < 32) then none
    else (unescape rest).map (fun t => c :: t)

end SerializeJson

/-!
# Argument splitting (`asgmt1-style/split_str.cpp`)

The string `buffer` is the list of its `char`s in front of the terminating NUL;
a pointer into it is the list of the `char`s from the pointer on.  The array
`argv` is a list of buffers, each a list of `char`s.
-/

namespace SplitStr

/-- The macro `MAX_ARGC`. -/
def MAX_ARGC : Nat := 30

/-- The macro `MAX_ARG_LEN`. -/
def MAX_ARG_LEN : Nat := 32

/-- The function `std::isblank` in the default "C" locale: space and
horizontal tab. -/
def isblank (c : Int) : Bool := c = 32 || c = 9

/-- The `char` at the pointer: `*p`, NUL at the end of the string. -/
def deref (p : List Int) : Int := p.headD 0

/-- The two messages that `split_str` prints on `stderr`. -/
inductive Error where
  | moreThanMaxArguments
  | argumentLongerThanMax
deriving DecidableEq

/-- What `split_str` leaves: the return value, the buffers of `argv` and the
message printed, if any. -/
structure Result where
  ret : Nat
  argv : List (List Int)
  error : Option Error
deriving DecidableEq

/-- The assignment `argv[k][i] = c`; `none` when it falls outside the array or
the buffer, where it is undefined. -/
def write (argv : List (List Int)) (k i : Nat) (c : Int) : Option (List (List Int)) :=
  if k < argv.length ∧ i < (argv.getD k []).length then
    some (argv.set k ((argv.getD k []).set i c))
  else none

/-- The loop `while (std::isblank(*p)) ++p`. -/
def skipBlank : List Int → List Int
  | [] => []
  | c :: rest => if isblank c then skipBlank rest else c :: rest

/-- How the loop that copies one argument ends: at the end of the argument
(with the buffers, the pointer and the length `i`), with the error return for
an argument found too long, or in a write out of range. -/
inductive Copied where
  | done (argv : List (List Int)) (p : List Int) (i : Nat)
  | tooLong (argv : List (List Int))
  | outOfRange
deriving DecidableEq

/-- The loop `while (*p && !std::isblank(*p))` that copies one argument into
`argv[argc]`, from the length `i`. -/
def copyArg (argc : Nat) : List (List Int) → List Int → Nat → Copied
  | argv, [], i => Copied.done argv [] i
  | argv, c :: rest, i =>
    if c ≠ 0 ∧ isblank c = false then
      match write argv argc i c with
      | none => Copied.outOfRange
      | some argv1 =>
        if i + 1 + 1 ≥ MAX_ARG_LEN then Copied.tooLong argv1
        else copyArg argc argv1 rest (i + 1)
    else Copied.done argv (c :: rest) i

/-- The loop `while (*p)` of `split_str`; `none` when the fuel runs out or a
write falls out of range. -/
def splitLoop : Nat → List (List Int) → Nat → List Int → Option Result
  | 0, _, _, _ => none
  | fuel + 1, argv, argc, p =>
    if deref p = 0 then some { ret := argc, argv := argv, error := none }
    else if deref (skipBlank p) = 0 then some { ret := argc, argv := argv, error := none }
    else if argc = MAX_ARGC - 1 then
      some { ret := 0, argv := argv, error := some Error.moreThanMaxArguments }
    else
      match copyArg argc argv (skipBlank p) 0 with
      | Copied.outOfRange => none
      | Copied.tooLong argv1 =>
        some { ret := 0, argv := argv1, error := some Error.argumentLongerThanMax }
      | Copied.done argv1 p1 i =>
        match write argv1 argc i 0 with
        | none => none
        | some argv2 => splitLoop fuel argv2 (argc + 1) p1

/-- The function `split_str`. -/
def split_str (argv : List (List Int)) (buffer : List Int) : Option Result :=
  splitLoop (buffer.length + 1) argv 0 buffer

/-- The array that `main` passes: `MAX_ARGC` buffers of `MAX_ARG_LEN` chars
(here all NUL before the call). -/
def freshArgv : List (List Int) :=
  List.replicate MAX_ARGC (List.replicate MAX_ARG_LEN 0)

/-- The C string in a buffer: the `char`s in front of the first NUL. -/
def c_str (buf : List Int) : List Int := buf.takeWhile (fun c => decide (c ≠ 0))

/-- Text as a list of `char`s. -/
def str (s : String) : List Int := s.toList.map (fun c => (c.toNat : Int))

/-- The maximal runs of `char`s that are not separators, in order; `cur` is the
run being read. -/
def runsFrom (sep : Int → Bool) : List Int → List Int → List (List Int)
  | [], cur => if cur = [] then [] else [cur]
  | c :: rest, cur =>
    if sep c then (if cur = [] then [] else [cur]) ++ runsFrom sep rest []
    else runsFrom sep rest (cur ++ [c])

/-- The maximal runs of non-blank `char`s of a string. -/
def blankRuns (buffer : List Int) : List (List Int) := runsFrom isblank buffer []

/-- White space as `std::isspace` defines it: space and the codes 9 to 13. -/
def isspace (c : Int) : Bool := c = 32 || (9 ≤ c && c ≤ 13)

/-- The maximal runs of non-whitespace `char`s of a string. -/
def whitespaceRuns (buffer : List Int) : List (List Int) := runsFrom isspace buffer []

/-- The array has `MAX_ARGC` buffers of `MAX_ARG_LEN` chars each, as `main`
allocates it. -/
def WellFormed (argv : List (List Int)) : Prop :=
  argv.length = MAX_ARGC ∧ ∀ k, k < MAX_ARGC → (argv.getD k []).length = MAX_ARG_LEN

end SplitStr

namespace WordStat

/-! ## The tokenizer terminates and yields lower-case words -/

theorem pending_get_char (r : FileReader) : r.get_char.2.pending ≤ r.pending := by
  obtain ⟨file, buf, line⟩ := r
  cases buf with
  | cons b bs => simp [FileReader.get_char, FileReader.pending]
  | nil =>
    cases file with
    | nil => simp [FileReader.get_char, FileReader.pending]
    | cons c rest =>
      cases c with
      | nil => simp [FileReader.get_char, FileReader.pending]
      | cons b bs => simp [FileReader.get_char, FileReader.pending]; omega

theorem pending_get_char_lt (r : FileReader) (h : r.get_char.1 ≠ EOF) :
    r.get_char.2.pending < r.pending := by
  obtain ⟨file, buf, line⟩ := r
  cases buf with
  | cons b bs => simp [FileReader.get_char, FileReader.pending]
  | nil =>
    cases file with
    | nil => simp [FileReader.get_char] at h
    | cons c rest =>
      cases c with
      | nil => simp [FileReader.get_char] at h
      | cons b bs => simp [FileReader.get_char, FileReader.pending]; omega

theorem isalpha_EOF : isalpha EOF = false := by decide

/-- The first loop of `get_word` ends within the fuel it is given, and does not
add to what is left to read. -/
theorem skipLoop_total (fuel : Nat) (ch : Int) (r : FileReader)
    (h : (isalpha ch = true ∨ ch = EOF) ∧ 0 < fuel ∨ r.pending + 1 < fuel) :
    ∃ res, FileReader.skipLoop fuel ch r = some res ∧ res.2.pending ≤ r.pending := by
  induction fuel generalizing ch r with
  | zero => omega
  | succ fuel ih =>
    rw [FileReader.skipLoop]
    by_cases ha : isalpha ch = true
    · rw [if_pos ha]; exact ⟨_, rfl, le_refl _⟩
    · rw [if_neg ha]
      by_cases he : ch = EOF
      · rw [if_pos he]; exact ⟨_, rfl, le_refl _⟩
      · rw [if_neg he]
        have hfuel : r.pending + 1 < fuel + 1 := by
          rcases h with ⟨h1 | h1, _⟩ | h
          · exact absurd h1 ha
          · exact absurd h1 he
          · exact h
        generalize hr1 : (if ch = 10 then ({ r with line := r.line + 1 } : FileReader) else r) = r1
        have hpend : r1.pending = r.pending := by
          rw [← hr1]; split <;> rfl
        have hle := pending_get_char r1
        have hres : (isalpha r1.get_char.1 = true ∨ r1.get_char.1 = EOF) ∧ 0 < fuel
            ∨ r1.get_char.2.pending + 1 < fuel := by
          by_cases he2 : r1.get_char.1 = EOF
          · left; exact ⟨Or.inr he2, by omega⟩
          · right
            have := pending_get_char_lt r1 he2
            omega
        obtain ⟨res, hres1, hres2⟩ := ih _ _ hres
        exact ⟨res, hres1, by omega⟩

/-- The second loop of `get_word` ends within the fuel it is given. -/
theorem accLoop_total (fuel : Nat) (ch : Int) (result : List Int) (r : FileReader)
    (h : isalpha ch = false ∧ 0 < fuel ∨ r.pending + 1 < fuel) :
    ∃ res, FileReader.accLoop fuel ch result r = some res ∧ res.2.2.pending ≤ r.pending := by
  induction fuel generalizing ch result r with
  | zero => omega
  | succ fuel ih =>
    rw [FileReader.accLoop]
    by_cases ha : isalpha ch = true
    · rw [if_pos ha]
      have hfuel : r.pending + 1 < fuel + 1 := by
        rcases h with ⟨h1, _⟩ | h
        · rw [ha] at h1; exact absurd h1 (by simp)
        · exact h
      have hle := pending_get_char r
      have hres : isalpha r.get_char.1 = false ∧ 0 < fuel ∨ r.get_char.2.pending + 1 < fuel := by
        by_cases he2 : r.get_char.1 = EOF
        · left; exact ⟨by rw [he2]; exact isalpha_EOF, by omega⟩
        · right
          have := pending_get_char_lt r he2
          omega
      obtain ⟨res, hres1, hres2⟩ := ih _ _ _ hres
      exact ⟨res, hres1, by omega⟩
    · rw [if_neg ha]; exact ⟨_, rfl, le_refl _⟩

theorem skipLoop_EOF (fuel : Nat) (r : FileReader) (h : 0 < fuel) :
    FileReader.skipLoop fuel EOF r = some (none, r) := by
  cases fuel with
  | zero => omega
  | succ n => rfl

/-- The call `get_word` always returns; it does not add to what is left to read, and a
call that returns a non-empty word has consumed something. -/
theorem get_word_total (r : FileReader) :
    ∃ word r1, r.get_word = some (word, r1) ∧ r1.pending ≤ r.pending
      ∧ (word ≠ [] → r1.pending < r.pending) := by
  have h0 := pending_get_char r
  obtain ⟨⟨ch1, r1⟩, hs, hs2⟩ := skipLoop_total (r.pending + 2) r.get_char.1 r.get_char.2
    (Or.inr (by omega))
  have hlt : ch1 ≠ none → r1.pending < r.pending := by
    intro hne
    by_cases he : r.get_char.1 = EOF
    · rw [he, skipLoop_EOF _ _ (by omega)] at hs
      simp only [Option.some.injEq, Prod.mk.injEq] at hs
      exact absurd hs.1.symm hne
    · have := pending_get_char_lt r he
      simp only at hs2
      omega
  simp only at hs2
  rw [FileReader.get_word, hs]
  cases ch1 with
  | none => exact ⟨[], r1, rfl, by omega, fun h => absurd rfl h⟩
  | some ch =>
    have hlt' := hlt (by simp)
    obtain ⟨⟨result, ch2, r2⟩, ha, ha2⟩ := accLoop_total (r.pending + 2) ch [] r1
      (Or.inr (by omega))
    simp only at ha2
    simp only [ha]
    refine ⟨_, _, rfl, ?_, fun _ => ?_⟩
    · have : (if ch2 = 10 then ({ r2 with line := r2.line + 1 } : FileReader) else r2).pending
          = r2.pending := by split <;> rfl
      omega
    · have : (if ch2 = 10 then ({ r2 with line := r2.line + 1 } : FileReader) else r2).pending
          = r2.pending := by split <;> rfl
      omega

/-- The loop of `main` ends within its fuel: every input yields a sequence of
`insert` calls. -/
theorem insertCallsLoop_total (fuel : Nat) (r : FileReader) (h : r.pending < fuel) :
    ∃ calls, insertCallsLoop fuel r = some calls := by
  induction fuel generalizing r with
  | zero => omega
  | succ fuel ih =>
    obtain ⟨word, r1, hw, h1, h2⟩ := get_word_total r
    rw [insertCallsLoop, hw]
    by_cases hl : word.length = 0
    · exact ⟨[], by simp [hl]⟩
    · have hne : word ≠ [] := fun h => hl (by rw [h]; rfl)
      obtain ⟨cs, hcs⟩ := ih r1 (by have := h2 hne; omega)
      exact ⟨(word, r1.line) :: cs, by simp [hl, hcs]⟩

theorem insertCalls_total (r : FileReader) : ∃ calls, insertCalls r = some calls :=
  insertCallsLoop_total _ r (Nat.lt_succ_self _)

theorem accLoop_alpha (fuel : Nat) (ch : Int) (result : List Int) (r : FileReader)
    (res : List Int × Int × FileReader) (h : FileReader.accLoop fuel ch result r = some res)
    (hr : ∀ c ∈ result, isalpha c = true) : ∀ c ∈ res.1, isalpha c = true := by
  induction fuel generalizing ch result r with
  | zero => simp [FileReader.accLoop] at h
  | succ fuel ih =>
    rw [FileReader.accLoop] at h
    by_cases ha : isalpha ch = true
    · rw [if_pos ha] at h
      refine ih _ _ _ h ?_
      intro c hc
      rcases List.mem_append.mp hc with hc | hc
      · exact hr c hc
      · rw [List.mem_singleton.mp hc]; exact ha
    · rw [if_neg ha] at h
      simp only [Option.some.injEq] at h
      rw [← h]; exact hr

theorem tolower_alpha (c : Int) (h : isalpha c = true) : 97 ≤ tolower c ∧ tolower c ≤ 122 := by
  simp only [isalpha, Bool.or_eq_true, Bool.and_eq_true, decide_eq_true_eq] at h
  unfold tolower
  split <;> omega

/-- Every word returned by `get_word` is made of the letters `a` to `z`. -/
theorem get_word_lowercase (r r1 : FileReader) (word : List Int)
    (h : r.get_word = some (word, r1)) : Lowercase word := by
  rw [FileReader.get_word] at h
  split at h
  · simp at h
  · simp only [Option.some.injEq, Prod.mk.injEq] at h
    rw [← h.1]; intro c hc; simp at hc
  · rename_i ch r0 _
    split at h
    · simp at h
    · rename_i result ch2 r2 hacc
      simp only [Option.some.injEq, Prod.mk.injEq] at h
      rw [← h.1]
      intro c hc
      obtain ⟨d, hd, rfl⟩ := List.mem_map.mp hc
      exact tolower_alpha d (accLoop_alpha _ _ _ _ _ hacc (by simp) d hd)

theorem insertCallsLoop_lowercase (fuel : Nat) (r : FileReader) (calls : List (List Int × Nat))
    (h : insertCallsLoop fuel r = some calls) : ∀ c ∈ calls, Lowercase c.1 := by
  induction fuel generalizing r calls with
  | zero => simp [insertCallsLoop] at h
  | succ fuel ih =>
    rw [insertCallsLoop] at h
    split at h
    · simp at h
    · rename_i word r1 hw
      by_cases hl : word.length = 0
      · rw [if_pos hl] at h
        simp only [Option.some.injEq] at h
        rw [← h]; simp
      · rw [if_neg hl] at h
        cases hcs : insertCallsLoop fuel r1 with
        | none => rw [hcs] at h; simp at h
        | some cs =>
          rw [hcs] at h
          simp only [Option.map_some', Option.some.injEq] at h
          rw [← h]
          intro c hc
          rcases List.mem_cons.mp hc with rfl | hc
          · exact get_word_lowercase r r1 word hw
          · exact ih r1 cs hcs c hc

theorem insertCalls_lowercase (r : FileReader) (calls : List (List Int × Nat))
    (h : insertCalls r = some calls) : ∀ c ∈ calls, Lowercase c.1 :=
  insertCallsLoop_lowercase _ r calls h

/-! ## The words of a stream without the byte 255 -/

theorem get_char_of_stream_nil (r : FileReader) (hc : WellChunked r.file)
    (hs : r.stream = []) : r.get_char = (EOF, r) := by
  obtain ⟨file, buf, line⟩ := r
  simp only [FileReader.stream, List.append_eq_nil] at hs
  obtain ⟨hb, hf⟩ := hs
  subst hb
  cases file with
  | nil => rfl
  | cons c rest =>
    exfalso
    have hcn := hc c (List.mem_cons_self _ _)
    rw [List.flatten_cons, List.append_eq_nil] at hf
    exact hcn hf.1

theorem get_char_of_stream_cons (r : FileReader) (hc : WellChunked r.file) (b : Nat)
    (bs : List Nat) (hs : r.stream = b :: bs) :
    r.get_char.1 = toChar b ∧ r.get_char.2.stream = bs ∧ WellChunked r.get_char.2.file
      ∧ r.get_char.2.line = r.line := by
  obtain ⟨file, buf, line⟩ := r
  cases buf with
  | cons x xs =>
    simp only [FileReader.stream, List.cons_append, List.cons.injEq] at hs
    obtain ⟨rfl, rfl⟩ := hs
    exact ⟨rfl, rfl, hc, rfl⟩
  | nil =>
    cases file with
    | nil => simp [FileReader.stream] at hs
    | cons c rest =>
      cases c with
      | nil => exact absurd rfl (hc [] (List.mem_cons_self _ _))
      | cons x xs =>
        simp only [FileReader.stream, List.nil_append, List.flatten_cons, List.cons_append,
          List.cons.injEq] at hs
        obtain ⟨rfl, rfl⟩ := hs
        exact ⟨rfl, rfl, fun d hd => hc d (List.mem_cons_of_mem _ hd), rfl⟩

theorem toChar_ne_EOF (b : Nat) (h : b < 255) : toChar b ≠ EOF := by
  unfold toChar EOF
  split <;> omega

theorem toChar_eq (b : Nat) (h : b < 256) :
    (b < 128 ∧ toChar b = (b : Int)) ∨ (128 ≤ b ∧ toChar b = (b : Int) - 256) := by
  have h1 : b % 256 = b := Nat.mod_eq_of_lt h
  unfold toChar
  rw [h1]
  by_cases hb : b < 128
  · left; rw [if_pos hb]; exact ⟨hb, rfl⟩
  · right; rw [if_neg hb]; exact ⟨by omega, rfl⟩

theorem isalpha_toChar (b : Nat) (h : b < 255) : isalpha (toChar b) = isLetterByte b := by
  rw [Bool.eq_iff_iff]
  simp only [isalpha, isLetterByte, Bool.or_eq_true, Bool.and_eq_true, decide_eq_true_eq]
  rcases toChar_eq b (by omega) with ⟨h1, h2⟩ | ⟨h1, h2⟩ <;> rw [h2] <;> omega

theorem tolower_toChar (b : Nat) (h : isLetterByte b = true) : tolower (toChar b) = lowerByte b := by
  simp only [isLetterByte, Bool.or_eq_true, Bool.and_eq_true, decide_eq_true_eq] at h
  rcases toChar_eq b (by omega) with ⟨h1, h2⟩ | ⟨h1, h2⟩
  · rw [h2]
    unfold tolower lowerByte
    by_cases hu : 65 ≤ b ∧ b ≤ 90
    · rw [if_pos (by omega), if_pos hu]
    · rw [if_neg (by omega), if_neg hu]
  · omega

theorem stream_length_le_pending (r : FileReader) : r.stream.length ≤ r.pending := by
  obtain ⟨file, buf, line⟩ := r
  simp only [FileReader.stream, FileReader.pending, List.length_append]
  have : file.flatten.length ≤ (file.map (fun c => c.length + 1)).sum := by
    induction file with
    | nil => simp
    | cons c rest ih => simp only [List.flatten_cons, List.length_append, List.map_cons,
        List.sum_cons]; omega
  omega

/-- The first loop of `get_word` on the bytes still to come: it stops at the
first letter. -/
theorem skipLoop_stream (fuel : Nat) (r : FileReader) (b : Nat) (hc : WellChunked r.file)
    (hb : ∀ x ∈ b :: r.stream, x < 255) (hf : r.stream.length + 1 < fuel) :
    ∃ r1, FileReader.skipLoop fuel (toChar b) r
        = some (((b :: r.stream).dropWhile (fun x => !isLetterByte x)).head?.map toChar, r1)
      ∧ r1.stream = ((b :: r.stream).dropWhile (fun x => !isLetterByte x)).tail
      ∧ WellChunked r1.file := by
  induction fuel generalizing r b with
  | zero => omega
  | succ fuel ih =>
    have hb255 : b < 255 := hb b (List.mem_cons_self _ _)
    rw [FileReader.skipLoop, isalpha_toChar b hb255]
    by_cases hl : isLetterByte b = true
    · rw [if_pos hl]
      refine ⟨r, ?_, ?_, hc⟩
      · simp [List.dropWhile_cons, hl]
      · simp [List.dropWhile_cons, hl]
    · rw [if_neg hl, if_neg (toChar_ne_EOF b hb255)]
      have hl' : isLetterByte b = false := by simpa using hl
      dsimp only
      generalize hr1 : (if toChar b = 10 then ({ r with line := r.line + 1 } : FileReader) else r) = r1
      have hs1 : r1.stream = r.stream := by rw [← hr1]; split <;> rfl
      have hc1 : WellChunked r1.file := by rw [← hr1]; split <;> exact hc
      have hdrop : (b :: r.stream).dropWhile (fun x => !isLetterByte x)
          = r.stream.dropWhile (fun x => !isLetterByte x) := by
        simp [List.dropWhile_cons, hl']
      rw [hdrop]
      cases hs : r.stream with
      | nil =>
        rw [get_char_of_stream_nil r1 hc1 (hs1.trans hs)]
        refine ⟨r1, ?_, by rw [hs1, hs]; rfl, hc1⟩
        cases fuel with
        | zero => rw [hs] at hf; simp at hf
        | succ n => rfl
      | cons b2 s2 =>
        obtain ⟨h1, h2, h3, _⟩ := get_char_of_stream_cons r1 hc1 b2 s2 (hs1.trans hs)
        rw [h1]
        have hb2 : ∀ x ∈ b2 :: r1.get_char.2.stream, x < 255 := by
          intro x hx
          rw [h2] at hx
          exact hb x (by rw [hs]; exact List.mem_cons_of_mem _ hx)
        obtain ⟨r2, hr2, hs2, hc2⟩ := ih r1.get_char.2 b2 h3 hb2
          (by rw [h2]; rw [hs] at hf; simp at hf; omega)
        rw [h2] at hr2 hs2
        exact ⟨r2, hr2, hs2, hc2⟩

/-- The second loop of `get_word` on the bytes still to come: it collects the
letters up to the first other byte, which it consumes. -/
theorem accLoop_stream (fuel : Nat) (r : FileReader) (b : Nat) (result : List Int)
    (hc : WellChunked r.file) (hb : ∀ x ∈ b :: r.stream, x < 255)
    (hf : r.stream.length + 1 < fuel) :
    ∃ ch2 r1, FileReader.accLoop fuel (toChar b) result r
        = some (result ++ ((b :: r.stream).takeWhile isLetterByte).map toChar, ch2, r1)
      ∧ r1.stream = ((b :: r.stream).dropWhile isLetterByte).tail
      ∧ WellChunked r1.file := by
  induction fuel generalizing r b result with
  | zero => omega
  | succ fuel ih =>
    have hb255 : b < 255 := hb b (List.mem_cons_self _ _)
    rw [FileReader.accLoop, isalpha_toChar b hb255]
    by_cases hl : isLetterByte b = true
    · rw [if_pos hl]
      have htake : (b :: r.stream).takeWhile isLetterByte
          = b :: r.stream.takeWhile isLetterByte := by simp [List.takeWhile_cons, hl]
      have hdrop : (b :: r.stream).dropWhile isLetterByte
          = r.stream.dropWhile isLetterByte := by simp [List.dropWhile_cons, hl]
      rw [htake, hdrop]
      cases hs : r.stream with
      | nil =>
        rw [get_char_of_stream_nil r hc hs]
        refine ⟨EOF, r, ?_, by rw [hs]; rfl, hc⟩
        cases fuel with
        | zero => rw [hs] at hf; simp at hf
        | succ n => simp [FileReader.accLoop, isalpha_EOF]
      | cons b2 s2 =>
        obtain ⟨h1, h2, h3, _⟩ := get_char_of_stream_cons r hc b2 s2 hs
        rw [h1]
        have hb2 : ∀ x ∈ b2 :: r.get_char.2.stream, x < 255 := by
          intro x hx
          rw [h2] at hx
          exact hb x (by rw [hs]; exact List.mem_cons_of_mem _ hx)
        obtain ⟨ch2, r2, hr2, hs2, hc2⟩ := ih r.get_char.2 b2 (result ++ [toChar b]) h3 hb2
          (by rw [h2]; rw [hs] at hf; simp at hf; omega)
        rw [h2] at hr2 hs2
        refine ⟨ch2, r2, ?_, hs2, hc2⟩
        rw [hr2]
        simp
    · rw [if_neg hl]
      have hl' : isLetterByte b = false := by simpa using hl
      refine ⟨toChar b, r, ?_, ?_, hc⟩
      · simp [List.takeWhile_cons, hl']
      · simp [List.dropWhile_cons, hl']

/-- On a stream without the byte 255, `get_word` skips to the first letter,
returns the run of letters that starts there in lower case, and consumes the
byte that ends the run. -/
theorem get_word_stream (r : FileReader) (hc : WellChunked r.file)
    (hb : ∀ x ∈ r.stream, x < 255) :
    ∃ r1, r.get_word
        = some ((((r.stream.dropWhile (fun x => !isLetterByte x)).takeWhile isLetterByte).map
            lowerByte), r1)
      ∧ r1.stream
          = ((r.stream.dropWhile (fun x => !isLetterByte x)).dropWhile isLetterByte).tail
      ∧ WellChunked r1.file := by
  cases hs : r.stream with
  | nil =>
    refine ⟨r, ?_, by rw [hs]; rfl, hc⟩
    rw [FileReader.get_word, get_char_of_stream_nil r hc hs]
    rfl
  | cons b s1 =>
    have hlen := stream_length_le_pending r
    rw [hs] at hlen hb
    simp only [List.length_cons] at hlen
    obtain ⟨h1, h2, h3, _⟩ := get_char_of_stream_cons r hc b s1 hs
    obtain ⟨r1, hr1, hs1, hc1⟩ := skipLoop_stream (r.pending + 2) r.get_char.2 b h3
      (by rw [h2]; exact hb) (by rw [h2]; omega)
    rw [h2] at hr1 hs1
    rw [FileReader.get_word, h1, hr1]
    cases ht : (b :: s1).dropWhile (fun x => !isLetterByte x) with
    | nil =>
      rw [ht] at hs1
      exact ⟨r1, rfl, hs1, hc1⟩
    | cons b' t' =>
      rw [ht] at hs1
      have hsub : (b' :: t').Sublist (b :: s1) := by
        rw [← ht]; exact List.dropWhile_sublist _
      have hlt : (b' :: t').length ≤ (b :: s1).length := hsub.length_le
      simp only [List.length_cons] at hlt
      have hs1' : r1.stream = t' := hs1
      obtain ⟨ch2, r2, hr2, hs2, hc2⟩ := accLoop_stream (r.pending + 2) r1 b' [] hc1
        (by rw [hs1']; intro x hx; exact hb x (hsub.subset hx)) (by rw [hs1']; omega)
      rw [hs1'] at hr2 hs2
      simp only [List.head?_cons, Option.map_some', hr2, List.nil_append]
      have hmap : (((b' :: t').takeWhile isLetterByte).map toChar).map tolower
          = ((b' :: t').takeWhile isLetterByte).map lowerByte := by
        rw [List.map_map]
        apply List.map_congr_left
        intro x hx
        exact tolower_toChar x (List.mem_takeWhile_imp hx)
      refine ⟨(if ch2 = 10 then ({ r2 with line := r2.line + 1 } : FileReader) else r2),
        ?_, ?_, ?_⟩
      · rw [hmap]
      · rw [← hs2]; split <;> rfl
      · split <;> exact hc2

theorem letterRunsFrom_letters (t : List Nat) (cur : List Int) :
    letterRunsFrom t cur
      = (if cur ++ (t.takeWhile isLetterByte).map lowerByte = [] then []
          else [cur ++ (t.takeWhile isLetterByte).map lowerByte])
        ++ letterRunsFrom (t.dropWhile isLetterByte).tail [] := by
  induction t generalizing cur with
  | nil => simp [letterRunsFrom]
  | cons b t' ih =>
    by_cases hl : isLetterByte b = true
    · rw [letterRunsFrom, if_pos hl, ih]
      simp [List.takeWhile_cons, List.dropWhile_cons, hl]
    · have hl' : isLetterByte b = false := by simpa using hl
      rw [letterRunsFrom, if_neg hl]
      simp [List.takeWhile_cons, List.dropWhile_cons, hl']

theorem letterRunsFrom_skip (s : List Nat) :
    letterRunsFrom s [] = letterRunsFrom (s.dropWhile (fun x => !isLetterByte x)) [] := by
  induction s with
  | nil => rfl
  | cons b s' ih =>
    by_cases hl : isLetterByte b = true
    · simp [List.dropWhile_cons, hl]
    · have hl' : isLetterByte b = false := by simpa using hl
      rw [letterRunsFrom, if_neg hl, if_pos rfl, List.nil_append, ih]
      simp [List.dropWhile_cons, hl']

theorem wordsLoop_stream (fuel : Nat) (r : FileReader) (hc : WellChunked r.file)
    (hb : ∀ x ∈ r.stream, x < 255) (hf : r.pending < fuel) :
    FileReader.wordsLoop fuel r = some (letterRunsSpec r.stream) := by
  induction fuel generalizing r with
  | zero => omega
  | succ fuel ih =>
    obtain ⟨r1, hw, hs1, hc1⟩ := get_word_stream r hc hb
    obtain ⟨word, r1', hw', _, hlt⟩ := get_word_total r
    rw [hw] at hw'
    simp only [Option.some.injEq, Prod.mk.injEq] at hw'
    obtain ⟨hword, hr⟩ := hw'
    subst hr
    rw [FileReader.wordsLoop, hw]
    simp only
    rw [letterRunsSpec, letterRunsFrom_skip, letterRunsFrom_letters, List.nil_append]
    by_cases hnil : ((r.stream.dropWhile (fun x => !isLetterByte x)).takeWhile isLetterByte).map
        lowerByte = []
    · rw [if_pos (by rw [hnil]; rfl), if_pos hnil, List.nil_append]
      have ht : r.stream.dropWhile (fun x => !isLetterByte x) = [] := by
        cases ht : r.stream.dropWhile (fun x => !isLetterByte x) with
        | nil => rfl
        | cons b' t' =>
          exfalso
          have hhead := List.head_dropWhile_not (fun x => !isLetterByte x) r.stream
            (by rw [ht]; simp)
          simp only [ht, List.head_cons, Bool.not_eq_true', Bool.not_eq_false'] at hhead
          rw [ht] at hnil
          simp [List.takeWhile_cons, hhead] at hnil
      rw [ht]
      rfl
    · have hne : word ≠ [] := by rw [← hword]; exact hnil
      have hlen : ¬ (word.length = 0) := by
        intro h0; exact hne (List.length_eq_zero.mp h0)
      rw [hword] at hnil ⊢
      rw [if_neg hlen, if_neg hnil]
      have hb1 : ∀ x ∈ r1.stream, x < 255 := by
        intro x hx
        rw [hs1] at hx
        exact hb x ((List.dropWhile_sublist _).subset ((List.dropWhile_sublist _).subset
          (List.mem_of_mem_tail hx)))
      rw [ih r1 hc1 hb1 (by have := hlt hne; omega), letterRunsSpec, hs1]
      rfl

/-- On a stream without the byte 255, the words that successive `get_word`
calls return are its maximal runs of letters, in order and in lower case. -/
theorem words_eq_letterRuns (file : List (List Nat)) (hc : WellChunked file)
    (hb : ∀ c ∈ file, ∀ x ∈ c, x < 255) :
    FileReader.words (FileReader.new file) = some (letterRunsSpec file.flatten) := by
  have := wordsLoop_stream ((FileReader.new file).pending + 1) (FileReader.new file) hc
    (by
      intro x hx
      simp only [FileReader.stream, FileReader.new, List.nil_append, List.mem_flatten] at hx
      obtain ⟨c, hcm, hxc⟩ := hx
      exact hb c hcm x hxc)
    (Nat.lt_succ_self _)
  simpa [FileReader.words, FileReader.stream, FileReader.new] using this

/-! ## The writer -/

theorem FileWriter.length_memcpy (buffer : List Int) (dst : Nat) (src : List Int) (n : Nat)
    (h1 : n ≤ src.length) (h2 : dst + n ≤ buffer.length) :
    (FileWriter.memcpy buffer dst src n).length = buffer.length := by
  simp only [FileWriter.memcpy, List.length_append, List.length_take, List.length_drop]
  omega

theorem FileWriter.take_memcpy (buffer : List Int) (dst : Nat) (src : List Int) (n : Nat)
    (h2 : dst ≤ buffer.length) :
    (FileWriter.memcpy buffer dst src n).take dst = buffer.take dst := by
  unfold FileWriter.memcpy
  rw [List.append_assoc, List.take_left']
  simp only [List.length_take]
  omega

/-- A string at least as long as the space left in the buffer, and no longer
than the buffer, is lost whole: only what was buffered before reaches the file. -/
theorem FileWriter.put_string_lost (s : List Int) (w : FileWriter)
    (hs : 0 < s.length) (hp : w.ptr ≤ w.buffer.length)
    (h1 : w.buffer.length - w.ptr ≤ s.length) (h2 : s.length ≤ w.buffer.length) :
    (w.put_string s).map (fun v => v.flush.file) = some (w.file ++ w.buffer.take w.ptr) := by
  have hlen : (FileWriter.memcpy w.buffer w.ptr (List.drop 0 s) (w.buffer.length - w.ptr)).length
      = w.buffer.length := by
    apply FileWriter.length_memcpy
    · simpa using h1
    · omega
  obtain ⟨n, hn⟩ : ∃ n, s.length = n + 1 := ⟨s.length - 1, by omega⟩
  simp only [FileWriter.put_string, hn]
  rw [FileWriter.put_string_loop]
  simp only [hn, Nat.zero_lt_succ, if_true, Nat.sub_zero, FileWriter.flush, Nat.zero_add]
  rw [if_pos (by omega)]
  rw [FileWriter.put_string_loop]
  rw [hlen, if_neg (by omega)]
  simp [FileWriter.take_memcpy _ _ _ _ hp]

theorem FileWriter.put_string_lost_at (cap : Nat) (hcap : 2 ≤ cap) :
    (FileWriter.put_string (str "ab")
        { file := [], buffer := List.replicate (cap - 1) 120 ++ [0],
          ptr := cap - 1 }).map (fun v => v.flush.file)
      = some (List.replicate (cap - 1) 120) := by
  rw [FileWriter.put_string_lost]
  · simp only [List.nil_append]
    rw [List.take_left']
    simp
  · decide
  · simp
  · have : (str "ab").length = 2 := by decide
    simp only [List.length_append, List.length_replicate, List.length_singleton, this]
    omega
  · have : (str "ab").length = 2 := by decide
    simp only [List.length_append, List.length_replicate, List.length_singleton, this]
    omega

/-! ## The report line of an entry -/

theorem intercalate_cons_eq (sep x : List Int) (xs : List (List Int)) :
    List.intercalate sep (x :: xs) = x ++ (xs.map (fun y => sep ++ y)).flatten := by
  induction xs generalizing x with
  | nil => simp [List.intercalate]
  | cons y ys ih =>
    have h := ih y
    simp only [List.intercalate, List.intersperse, List.flatten, List.map] at h ⊢
    rw [h]
    simp

theorem map_range'_getD (f : Nat → List Int) (l : List Nat) (s m : Nat) (h : s + m ≤ l.length) :
    (List.range' s m).map (fun j => f (l.getD j 0)) = ((l.drop s).take m).map f := by
  induction m generalizing s with
  | zero => simp
  | succ m ih =>
    have hs : s < l.length := by omega
    rw [List.range'_succ, List.map_cons, ih (s + 1) (by omega)]
    rw [List.drop_eq_getElem_cons hs, List.take_succ_cons, List.map_cons]
    congr 2
    simp [List.getD_eq_getElem?_getD, List.getElem?_eq_getElem hs]

theorem c_str_eq (word : List Int) (hw : (0 : Int) ∉ word) : c_str word = word := by
  unfold c_str
  rw [List.takeWhile_eq_self_iff]
  intro c hc
  simp only [ne_eq, decide_not, Bool.not_eq_eq_eq_not, Bool.not_true, decide_eq_false_iff_not]
  intro h
  exact hw (h ▸ hc)

theorem entryText_eq_spec (word : List Int) (count : Nat) (lines : List Nat)
    (hw : (0 : Int) ∉ word) (hc : 1 ≤ count) (hl : lines.length = 20) :
    entryText word ⟨count, lines⟩ = entryTextSpec word count lines := by
  obtain ⟨l0, rest, rfl⟩ : ∃ l0 rest, lines = l0 :: rest := by
    cases lines with
    | nil => simp at hl
    | cons a b => exact ⟨a, b, rfl⟩
  obtain ⟨k, hk⟩ : ∃ k, min count 20 = k + 1 := ⟨min count 20 - 1, by omega⟩
  have hk2 : min (l0 :: rest).length count - 1 = k := by rw [hl]; omega
  simp only [entryText, entryTextSpec, hk, hk2, List.take_succ_cons, List.map_cons,
    intercalate_cons_eq, c_str_eq word hw]
  rw [map_range'_getD (fun x => [44] ++ decimal x) (l0 :: rest) 1 k (by rw [hl]; omega)]
  simp [Function.comp_def]

/-! ## The trie -/

theorem unitAt_of_le (units : List unit_t) (p : Nat) (h : units.length ≤ p) :
    unitAt units p = unit_t.empty := by
  simp [unitAt, List.getD_eq_getElem?_getD, List.getElem?_eq_none h]

theorem child_of_le (units : List unit_t) (p c : Nat) (h : units.length ≤ p) :
    child units p c = 0 := by
  rw [child, unitAt_of_le units p h]
  simp only [unit_t.empty, List.getD_eq_getElem?_getD, List.getElem?_replicate]
  split <;> rfl

theorem child_of_width (units : List unit_t) (p c : Nat) (hw : (unitAt units p).ch.length = 26)
    (h : 26 ≤ c) : child units p c = 0 := by
  simp [child, List.getD_eq_getElem?_getD, List.getElem?_eq_none (hw ▸ h)]

theorem infoAt_of_le (units : List unit_t) (p : Nat) (h : units.length ≤ p) :
    infoAt units p = none := by
  rw [infoAt, unitAt_of_le units p h]; rfl

theorem unitAt_set (units : List unit_t) (p q : Nat) (v : unit_t) (hp : p < units.length) :
    unitAt (units.set p v) q = if q = p then v else unitAt units q := by
  simp only [unitAt, List.getD_eq_getElem?_getD, List.getElem?_set]
  by_cases h : p = q
  · subst h; simp [hp]
  · simp [h, Ne.symm h]

theorem unitAt_grow (units : List unit_t) (q : Nat) :
    unitAt (units ++ [unit_t.empty]) q = unitAt units q := by
  simp only [unitAt, List.getD_eq_getElem?_getD]
  by_cases h : q < units.length
  · rw [List.getElem?_append_left h]
  · rw [List.getElem?_eq_none (Nat.le_of_not_lt h)]
    by_cases h2 : q = units.length
    · subst h2; simp
    · have h3 : (units ++ [unit_t.empty]).length ≤ q := by simp; omega
      rw [List.getElem?_eq_none h3]

/-- The node that `step` moves to. -/
theorem step_fst (units : List unit_t) (p : Nat) (ch : Int) :
    (Trie.step units p ch).2 = child (Trie.step units p ch).1 p (childIndex ch) := rfl

theorem step_of_ne (units : List unit_t) (p : Nat) (ch : Int)
    (h : child units p (childIndex ch) ≠ 0) : (Trie.step units p ch).1 = units := by
  simp [Trie.step, h]

theorem length_step (units : List unit_t) (p : Nat) (ch : Int) :
    (Trie.step units p ch).1.length
      = if child units p (childIndex ch) = 0 then units.length + 1 else units.length := by
  unfold Trie.step
  split <;> simp [*]

theorem infoAt_step (units : List unit_t) (p : Nat) (ch : Int) (hp : p < units.length) (q : Nat) :
    infoAt (Trie.step units p ch).1 q = infoAt units q := by
  unfold Trie.step
  by_cases h : child units p (childIndex ch) = 0
  · simp only [h, if_true, infoAt]
    rw [unitAt_set _ _ _ _ (by simp; omega)]
    by_cases hq : q = p
    · simp [hq, unitAt_grow]
    · simp [hq, unitAt_grow]
  · simp [h]

theorem child_step (units : List unit_t) (p : Nat) (ch : Int) (hp : p < units.length)
    (hw : (unitAt units p).ch.length = 26) (hc : childIndex ch < 26) (q c : Nat) :
    child (Trie.step units p ch).1 q c
      = if child units p (childIndex ch) = 0 ∧ q = p ∧ c = childIndex ch then units.length
        else child units q c := by
  by_cases h : child units p (childIndex ch) = 0
  · simp only [Trie.step, h, if_true, true_and]
    simp only [child]
    rw [unitAt_set _ _ _ _ (by simp; omega)]
    by_cases hq : q = p
    · subst hq
      simp only [if_true, unitAt_grow, List.getD_eq_getElem?_getD, List.getElem?_set, true_and]
      by_cases hcc : childIndex ch = c
      · subst hcc; simp [hw, hc]
      · simp [hcc, Ne.symm hcc]
    · simp [hq, unitAt_grow]
  · simp [Trie.step, h]

theorem width_step (units : List unit_t) (p : Nat) (ch : Int) (hp : p < units.length)
    (hw : ∀ q, (unitAt units q).ch.length = 26) (q : Nat) :
    (unitAt (Trie.step units p ch).1 q).ch.length = 26 := by
  unfold Trie.step
  by_cases h : child units p (childIndex ch) = 0
  · simp only [h, if_true]
    rw [unitAt_set _ _ _ _ (by simp; omega)]
    by_cases hq : q = p
    · simp [hq, unitAt_grow, hw]
    · simp [hq, unitAt_grow, hw]
  · simp [h, hw]

theorem WF_step (units : List unit_t) (p : Nat) (ch : Int) (hwf : Trie.WF units)
    (hp : p < units.length) (hc : childIndex ch < 26) : Trie.WF (Trie.step units p ch).1 := by
  have hlen := length_step units p ch
  have hch := child_step units p ch hp (hwf.width p) hc
  refine ⟨?_, width_step units p ch hp hwf.width, ?_, ?_⟩
  · have := hwf.nonempty
    rw [hlen]; split <;> omega
  · intro q c hne
    rw [hch] at hne ⊢
    by_cases hnew : child units p (childIndex ch) = 0 ∧ q = p ∧ c = childIndex ch
    · rw [if_pos hnew]
      rw [hlen, if_pos hnew.1, hnew.2.1]
      omega
    · rw [if_neg hnew] at hne ⊢
      have := hwf.link q c hne
      rw [hlen]; split <;> omega
  · intro q c q' c' hne heq
    rw [hch] at hne heq
    rw [hch] at heq
    by_cases hnew : child units p (childIndex ch) = 0 ∧ q = p ∧ c = childIndex ch
    · rw [if_pos hnew] at heq
      by_cases hnew' : child units p (childIndex ch) = 0 ∧ q' = p ∧ c' = childIndex ch
      · exact ⟨hnew.2.1.trans hnew'.2.1.symm, hnew.2.2.trans hnew'.2.2.symm⟩
      · rw [if_neg hnew'] at heq
        have := hwf.link q' c' (by have := hwf.nonempty; omega)
        omega
    · rw [if_neg hnew] at hne heq
      by_cases hnew' : child units p (childIndex ch) = 0 ∧ q' = p ∧ c' = childIndex ch
      · rw [if_pos hnew'] at heq
        have := hwf.link q c hne
        omega
      · rw [if_neg hnew'] at heq
        exact hwf.inj q c q' c' hne heq

theorem step_snd_spec (units : List unit_t) (p : Nat) (ch : Int) (hwf : Trie.WF units)
    (hp : p < units.length) (hc : childIndex ch < 26) :
    (Trie.step units p ch).2 ≠ 0 ∧ (Trie.step units p ch).2 < (Trie.step units p ch).1.length := by
  rw [step_fst, child_step units p ch hp (hwf.width p) hc, length_step]
  by_cases h : child units p (childIndex ch) = 0
  · have := hwf.nonempty
    simp only [h, true_and, if_true]
    omega
  · simp only [h, false_and, if_false]
    exact ⟨h, (hwf.link _ _ h).2⟩

/-- A child link, once set, is never changed by `step`. -/
theorem child_step_of_ne (units : List unit_t) (p : Nat) (ch : Int) (hwf : Trie.WF units)
    (hp : p < units.length) (hc : childIndex ch < 26) (q c : Nat) (h : child units q c ≠ 0) :
    child (Trie.step units p ch).1 q c = child units q c := by
  rw [child_step units p ch hp (hwf.width p) hc]
  by_cases hnew : child units p (childIndex ch) = 0 ∧ q = p ∧ c = childIndex ch
  · exfalso; rw [hnew.2.1, hnew.2.2] at h; exact h hnew.1
  · rw [if_neg hnew]

theorem childIndex_lt (ch : Int) (h : 97 ≤ ch ∧ ch ≤ 122) : childIndex ch < 26 := by
  unfold childIndex; omega

theorem childIndex_inj (a b : Int) (ha : 97 ≤ a ∧ a ≤ 122) (hb : 97 ≤ b ∧ b ≤ 122)
    (h : childIndex a = childIndex b) : a = b := by
  unfold childIndex at h; omega

theorem childIndex_letter (i : Nat) (h : i < 26) : childIndex ((i : Int) + 97) = i := by
  unfold childIndex; omega

theorem lookupFrom_nil (units : List unit_t) (p : Nat) :
    Trie.lookupFrom units p [] = infoAt units p := rfl

theorem lookupFrom_cons (units : List unit_t) (p : Nat) (ch : Int) (rest : List Int) :
    Trie.lookupFrom units p (ch :: rest)
      = if child units p (childIndex ch) = 0 then none
        else Trie.lookupFrom units (child units p (childIndex ch)) rest := by
  simp only [Trie.lookupFrom, Trie.find]
  split <;> rfl

theorem lookupFrom_of_le (units : List unit_t) (p : Nat) (word : List Int)
    (h : units.length ≤ p) : Trie.lookupFrom units p word = none := by
  cases word with
  | nil => exact infoAt_of_le units p h
  | cons ch rest => rw [lookupFrom_cons, child_of_le units p _ h]; rfl

/-- One `step` changes no stored `WordInfo`, along any path. -/
theorem lookupFrom_step (units : List unit_t) (p : Nat) (ch : Int) (hwf : Trie.WF units)
    (hp : p < units.length) (hc : childIndex ch < 26) (word : List Int) (q : Nat) :
    Trie.lookupFrom (Trie.step units p ch).1 q word = Trie.lookupFrom units q word := by
  induction word generalizing q with
  | nil => exact infoAt_step units p ch hp q
  | cons c rest ih =>
    rw [lookupFrom_cons, lookupFrom_cons, child_step units p ch hp (hwf.width p) hc]
    by_cases hnew : child units p (childIndex ch) = 0 ∧ q = p ∧ childIndex c = childIndex ch
    · rw [if_pos hnew]
      have h0 : child units q (childIndex c) = 0 := by rw [hnew.2.1, hnew.2.2]; exact hnew.1
      have := hwf.nonempty
      rw [if_neg (by omega), if_pos h0, ih, lookupFrom_of_le units _ _ (le_refl _)]
    · rw [if_neg hnew]
      split
      · rfl
      · exact ih _

theorem walk_spec (word : List Int) (units : List unit_t) (p : Nat) (hwf : Trie.WF units)
    (hp : p < units.length) (hw : Lowercase word) :
    Trie.WF (Trie.walk word units p).1
      ∧ units.length ≤ (Trie.walk word units p).1.length
      ∧ (Trie.walk word units p).2 < (Trie.walk word units p).1.length
      ∧ Trie.find (Trie.walk word units p).1 p word = some (Trie.walk word units p).2
      ∧ (∀ q w, Trie.lookupFrom (Trie.walk word units p).1 q w = Trie.lookupFrom units q w)
      ∧ (∀ q c, child units q c ≠ 0 → child (Trie.walk word units p).1 q c = child units q c) := by
  induction word generalizing units p with
  | nil => exact ⟨hwf, le_refl _, hp, rfl, fun _ _ => rfl, fun _ _ _ => rfl⟩
  | cons ch rest ih =>
    have hc : childIndex ch < 26 := childIndex_lt ch (hw ch (List.mem_cons_self _ _))
    have hrest : Lowercase rest := fun c hcm => hw c (List.mem_cons_of_mem _ hcm)
    have hwf1 := WF_step units p ch hwf hp hc
    have hq := step_snd_spec units p ch hwf hp hc
    obtain ⟨h1, h2, h3, h4, h5, h6⟩ := ih (Trie.step units p ch).1 (Trie.step units p ch).2
      hwf1 hq.2 hrest
    have hlen : units.length ≤ (Trie.step units p ch).1.length := by
      rw [length_step]; split <;> omega
    refine ⟨h1, le_trans hlen h2, h3, ?_, ?_, ?_⟩
    · have hkeep := h6 p (childIndex ch) (by rw [← step_fst]; exact hq.1)
      rw [← step_fst] at hkeep
      show Trie.find _ p (ch :: rest) = _
      rw [Trie.find]
      simp only [Trie.walk]
      rw [hkeep, if_neg hq.1]
      exact h4
    · intro q w
      simp only [Trie.walk]
      rw [h5, lookupFrom_step units p ch hwf hp hc]
    · intro q c hne
      simp only [Trie.walk]
      rw [h6 q c (by rw [child_step_of_ne units p ch hwf hp hc q c hne]; exact hne),
        child_step_of_ne units p ch hwf hp hc q c hne]

theorem find_le (units : List unit_t) (hwf : Trie.WF units) (word : List Int) (p q : Nat)
    (h : Trie.find units p word = some q) : p ≤ q := by
  induction word generalizing p with
  | nil => simp only [Trie.find, Option.some.injEq] at h; omega
  | cons ch rest ih =>
    rw [Trie.find] at h
    split at h
    · exact absurd h (by simp)
    · rename_i hne
      have := (hwf.link p _ hne).1
      have := ih _ h
      omega

theorem find_append (units : List unit_t) (p : Nat) (w v : List Int) :
    Trie.find units p (w ++ v) = (Trie.find units p w).bind (fun m => Trie.find units m v) := by
  induction w generalizing p with
  | nil => rfl
  | cons ch rest ih =>
    simp only [List.cons_append, Trie.find]
    split
    · rfl
    · exact ih _

theorem find_snoc (units : List unit_t) (p q : Nat) (w : List Int) (ch : Int)
    (h : Trie.find units p (w ++ [ch]) = some q) :
    ∃ m, Trie.find units p w = some m ∧ child units m (childIndex ch) = q ∧ q ≠ 0 := by
  rw [find_append] at h
  cases hm : Trie.find units p w with
  | none => rw [hm] at h; exact absurd h (by simp)
  | some m =>
    rw [hm] at h
    simp only [Option.some_bind, Trie.find] at h
    split at h
    · exact absurd h (by simp)
    · rename_i hne
      simp only [Option.some.injEq] at h
      exact ⟨m, rfl, h, h ▸ hne⟩

theorem lowercase_append {w v : List Int} : Lowercase (w ++ v) ↔ Lowercase w ∧ Lowercase v := by
  simp only [Lowercase, List.mem_append]
  constructor
  · intro h; exact ⟨fun c hc => h c (Or.inl hc), fun c hc => h c (Or.inr hc)⟩
  · rintro ⟨h1, h2⟩ c (hc | hc)
    · exact h1 c hc
    · exact h2 c hc

theorem nil_or_snoc (v : List Int) : v = [] ∨ ∃ v' c, v = v' ++ [c] := by
  rcases List.eq_nil_or_concat v with h | ⟨v', c, h⟩
  · exact Or.inl h
  · exact Or.inr ⟨v', c, by rw [h, List.concat_eq_append]⟩

/-- Two lower-case words that lead from `p` to the same node are equal. -/
theorem find_inj (units : List unit_t) (hwf : Trie.WF units) (p q : Nat) (w v : List Int)
    (hw : Lowercase w) (hv : Lowercase v)
    (h1 : Trie.find units p w = some q) (h2 : Trie.find units p v = some q) : w = v := by
  induction w using List.reverseRecOn generalizing v q with
  | nil =>
    simp only [Trie.find, Option.some.injEq] at h1
    subst h1
    rcases nil_or_snoc v with hv0 | ⟨v', c, rfl⟩
    · exact hv0.symm
    · obtain ⟨m, hm, hc, hne⟩ := find_snoc units p p v' c h2
      have := find_le units hwf v' p m hm
      have := (hwf.link m _ (hc ▸ hne)).1
      omega
  | append_singleton w' c ih =>
    obtain ⟨m, hm, hc, hne⟩ := find_snoc units p q w' c h1
    rcases nil_or_snoc v with hv0 | ⟨v', d, rfl⟩
    · subst hv0
      simp only [Trie.find, Option.some.injEq] at h2
      have := find_le units hwf w' p m hm
      have := (hwf.link m _ (hc ▸ hne)).1
      omega
    · obtain ⟨m', hm', hd, _⟩ := find_snoc units p q v' d h2
      have hcd := hwf.inj m (childIndex c) m' (childIndex d) (hc ▸ hne) (hc.trans hd.symm)
      rw [lowercase_append] at hw hv
      have hmm : Trie.find units p v' = some m := by rw [hm', hcd.1]
      rw [ih m v' hw.1 hv.1 hm hmm,
        childIndex_inj c d (hw.2 c (List.mem_singleton_self c))
          (hv.2 d (List.mem_singleton_self d)) hcd.2]

theorem insert_eq (t : Trie) (word : List Int) (line : Nat) :
    t.insert word line
      = Trie.mk t.root
          (setInfo (Trie.walk word t.units t.root).1 (Trie.walk word t.units t.root).2
            (some (Trie.bump (infoAt (Trie.walk word t.units t.root).1
              (Trie.walk word t.units t.root).2) line))) := rfl

theorem length_setInfo (units : List unit_t) (q : Nat) (v : Option WordInfo) :
    (setInfo units q v).length = units.length := by
  simp [setInfo]

theorem unitAt_setInfo_ch (units : List unit_t) (q : Nat) (v : Option WordInfo) (p : Nat) :
    (unitAt (setInfo units q v) p).ch = (unitAt units p).ch := by
  by_cases hq : q < units.length
  · rw [setInfo, unitAt_set _ _ _ _ hq]
    split
    · rename_i h; rw [h]
    · rfl
  · rw [setInfo, List.set_eq_of_length_le (Nat.le_of_not_lt hq)]

theorem child_setInfo (units : List unit_t) (q : Nat) (v : Option WordInfo) (p c : Nat) :
    child (setInfo units q v) p c = child units p c := by
  rw [child, child, unitAt_setInfo_ch]

theorem infoAt_setInfo (units : List unit_t) (q : Nat) (v : Option WordInfo) (p : Nat)
    (hq : q < units.length) :
    infoAt (setInfo units q v) p = if p = q then v else infoAt units p := by
  rw [infoAt, setInfo, unitAt_set _ _ _ _ hq]
  split <;> rfl

theorem find_setInfo (units : List unit_t) (q : Nat) (v : Option WordInfo) (p : Nat)
    (word : List Int) : Trie.find (setInfo units q v) p word = Trie.find units p word := by
  induction word generalizing p with
  | nil => rfl
  | cons ch rest ih => simp only [Trie.find, child_setInfo, ih]

theorem WF_setInfo (units : List unit_t) (q : Nat) (v : Option WordInfo) (hwf : Trie.WF units) :
    Trie.WF (setInfo units q v) := by
  refine ⟨?_, ?_, ?_, ?_⟩
  · rw [length_setInfo]; exact hwf.nonempty
  · intro p; rw [unitAt_setInfo_ch]; exact hwf.width p
  · intro p c; rw [child_setInfo, length_setInfo]; exact hwf.link p c
  · intro p c p' c'; rw [child_setInfo, child_setInfo]; exact hwf.inj p c p' c'

theorem WF_new : Trie.WF Trie.new.units := by
  have hu : ∀ p, unitAt [unit_t.empty] p = unit_t.empty := by
    intro p
    cases p with
    | zero => rfl
    | succ n => exact unitAt_of_le _ _ (by simp)
  have hc : ∀ p c, child [unit_t.empty] p c = 0 := by
    intro p c
    rw [child, hu]
    simp only [unit_t.empty, List.getD_eq_getElem?_getD, List.getElem?_replicate]
    split <;> rfl
  refine ⟨by simp [Trie.new], ?_, ?_, ?_⟩
  · intro p; show (unitAt [unit_t.empty] p).ch.length = 26; rw [hu]; rfl
  · intro p c h; exact absurd (hc p c) h
  · intro p c p' c' h; exact absurd (hc p c) h

theorem Inv_new : Trie.new.Inv := ⟨rfl, WF_new⟩

theorem Inv_insert (t : Trie) (word : List Int) (line : Nat) (ht : t.Inv) (hw : Lowercase word) :
    (t.insert word line).Inv := by
  obtain ⟨hroot, hwf⟩ := ht
  have hp : t.root < t.units.length := by rw [hroot]; exact hwf.nonempty
  rw [insert_eq]
  exact ⟨hroot, WF_setInfo _ _ _ (walk_spec word t.units t.root hwf hp hw).1⟩

/-- What `insert` does to the stored `WordInfo`s: that of `word` is bumped,
those of the other words are left alone. -/
theorem lookup_insert (t : Trie) (word : List Int) (line : Nat) (ht : t.Inv)
    (hw : Lowercase word) (other : List Int) (ho : Lowercase other) :
    (t.insert word line).lookup other
      = if other = word then some (Trie.bump (t.lookup word) line) else t.lookup other := by
  obtain ⟨hroot, hwf⟩ := ht
  have hp : t.root < t.units.length := by rw [hroot]; exact hwf.nonempty
  obtain ⟨h1, _, h3, h4, h5, _⟩ := walk_spec word t.units t.root hwf hp hw
  rw [insert_eq]
  simp only [Trie.lookup, Trie.lookupFrom]
  rw [find_setInfo]
  have hq : infoAt (Trie.walk word t.units t.root).1 (Trie.walk word t.units t.root).2
      = Trie.lookupFrom t.units t.root word := by
    rw [← h5, Trie.lookupFrom, h4]; rfl
  by_cases heq : other = word
  · subst heq
    rw [if_pos rfl, h4, Option.some_bind, infoAt_setInfo _ _ _ _ h3, if_pos rfl, hq]
    rfl
  · rw [if_neg heq]
    have h5' := h5 t.root other
    simp only [Trie.lookupFrom] at h5'
    rw [← h5']
    cases hf : Trie.find (Trie.walk word t.units t.root).1 t.root other with
    | none => rfl
    | some m =>
      have hm : m ≠ (Trie.walk word t.units t.root).2 := by
        intro hmq
        exact heq (find_inj _ h1 t.root _ other word ho hw hf (hmq ▸ h4))
      rw [Option.some_bind, Option.some_bind, infoAt_setInfo _ _ _ _ h3, if_neg hm]

theorem Inv_build (calls : List (List Int × Nat)) (h : ∀ c ∈ calls, Lowercase c.1) :
    (Trie.build calls).Inv := by
  induction calls using List.reverseRecOn with
  | nil => exact Inv_new
  | append_singleton cs c ih =>
    rw [Trie.build, List.foldl_append]
    exact Inv_insert _ _ _ (ih (fun d hd => h d (List.mem_append_left _ hd)))
      (h c (List.mem_append_right _ (List.mem_singleton_self c)))

theorem lookup_new (word : List Int) : Trie.new.lookup word = none := by
  cases word with
  | nil => rfl
  | cons ch rest =>
    rw [Trie.lookup, lookupFrom_cons]
    have : child Trie.new.units Trie.new.root (childIndex ch) = 0 := by
      by_contra hne
      have := (WF_new.link _ _ hne).2
      have := (WF_new.link _ _ hne).1
      simp [Trie.new] at *
      omega
    rw [if_pos this]

/-- The `WordInfo` stored for a word after a sequence of `insert` calls. -/
theorem lookup_build (calls : List (List Int × Nat)) (h : ∀ c ∈ calls, Lowercase c.1)
    (word : List Int) (hw : Lowercase word) :
    (Trie.build calls).lookup word = record (linesOf word calls) := by
  induction calls using List.reverseRecOn with
  | nil => exact lookup_new word
  | append_singleton cs c ih =>
    have hcs : ∀ d ∈ cs, Lowercase d.1 := fun d hd => h d (List.mem_append_left _ hd)
    have hc : Lowercase c.1 := h c (List.mem_append_right _ (List.mem_singleton_self c))
    have hb : Trie.build (cs ++ [c]) = (Trie.build cs).insert c.1 c.2 := by
      rw [Trie.build, List.foldl_append]; rfl
    rw [hb, lookup_insert _ _ _ (Inv_build cs hcs) hc word hw]
    simp only [linesOf, List.filter_append, List.map_append]
    by_cases heq : word = c.1
    · subst heq
      rw [if_pos rfl, ih hcs]
      simp [record, linesOf, List.foldl_append]
    · rw [if_neg heq, ih hcs]
      have : decide (c.1 = word) = false := by simpa using fun h => heq h.symm
      simp [linesOf, List.filter_cons, this]

theorem bump_recordInfo (ls : List Nat) (l : Nat) :
    Trie.bump (some (recordInfo ls)) l = recordInfo (ls ++ [l]) := by
  simp only [Trie.bump, recordInfo, List.length_append, List.length_singleton, Nat.add_sub_cancel]
  congr 1
  by_cases h : ls.length + 1 ≤ limit
  · rw [if_pos h, List.take_of_length_le (by omega), List.take_of_length_le (by simp; omega)]
    rw [List.set_append_right _ _ (le_refl _), Nat.sub_self]
    obtain ⟨k, hk⟩ : ∃ k, limit - ls.length = k + 1 := ⟨limit - ls.length - 1, by omega⟩
    have hk' : limit - (ls.length + 1) = k := by omega
    rw [hk, hk', List.replicate_succ, List.set_cons_zero, List.append_assoc]
    rfl
  · rw [if_neg h]
    have h1 : limit - ls.length = 0 := by omega
    have h2 : limit - (ls.length + 1) = 0 := by omega
    rw [h1, h2, List.take_append_of_le_length (by omega)]

theorem bump_none (l : Nat) : Trie.bump none l = recordInfo [l] := by
  rw [← List.nil_append [l], ← bump_recordInfo]
  rfl

theorem record_snoc (ls : List Nat) (l : Nat) :
    record (ls ++ [l]) = some (Trie.bump (record ls) l) := by
  simp [record, List.foldl_append]

theorem record_eq (ls : List Nat) :
    record ls = if ls = [] then none else some (recordInfo ls) := by
  induction ls using List.reverseRecOn with
  | nil => rfl
  | append_singleton ls l ih =>
    have hne : ls ++ [l] ≠ [] := by simp
    rw [record_snoc, if_neg hne]
    by_cases h : ls = []
    · subst h
      show some (Trie.bump none l) = _
      rw [bump_none]; rfl
    · rw [ih, if_neg h, bump_recordInfo]

theorem wordLt_append_left (cur a b : List Int) : wordLt (cur ++ a) (cur ++ b) ↔ wordLt a b := by
  induction cur with
  | nil => rfl
  | cons c cs ih => simp [wordLt, ih]

theorem wordLt_nil_cons (c : Int) (w : List Int) : wordLt [] (c :: w) := by
  simp [wordLt]

theorem wordLt_cons_of_lt (c d : Int) (w v : List Int) (h : c < d) : wordLt (c :: w) (d :: v) := by
  simp [wordLt, h]

theorem wordLt_irrefl (w : List Int) : ¬ wordLt w w := by
  induction w with
  | nil => simp [wordLt]
  | cons c cs ih => simp [wordLt, ih]

theorem wordLt_asymm (w v : List Int) : wordLt w v → ¬ wordLt v w := by
  induction w generalizing v with
  | nil => cases v <;> simp [wordLt]
  | cons c cs ih =>
    cases v with
    | nil => simp [wordLt]
    | cons d ds =>
      simp only [wordLt]
      rintro (h | ⟨h1, h2⟩) (h' | ⟨h1', h2'⟩)
      · omega
      · omega
      · omega
      · exact ih ds h2 h2'

theorem foldl_bind_some {E : Type} (g : Nat → Option (List E)) (S : Nat → List E)
    (is : List Nat) (init : List E) (h : ∀ i ∈ is, g i = some (S i)) :
    is.foldl (fun acc i => acc.bind (fun done => (g i).map (fun sub => done ++ sub))) (some init)
      = some (init ++ (is.map S).flatten) := by
  induction is generalizing init with
  | nil => simp
  | cons i rest ih =>
    rw [List.foldl_cons, h i (List.mem_cons_self _ _)]
    simp only [Option.some_bind, Option.map_some', List.map_cons, List.flatten_cons]
    rw [ih _ (fun j hj => h j (List.mem_cons_of_mem _ hj)), List.append_assoc]

theorem search_succ (units : List unit_t) (fuel p : Nat) (cur : List Int) :
    Trie.search units (fuel + 1) p cur
      = (List.range 26).foldl
          (fun acc i => acc.bind (fun done =>
            (if child units p i = 0 then some []
              else Trie.search units fuel (child units p i) (cur ++ [(i : Int) + 97])).map
              (fun sub => done ++ sub)))
          (some (match infoAt units p with
            | some info => [(cur, info)]
            | none => [])) := by
  rw [Trie.search]
  apply List.foldl_ext
  intro acc i _
  by_cases h : child units p i = 0
  · rw [if_pos h, if_pos h]
    cases acc <;> simp
  · rw [if_neg h, if_neg h]

theorem search_spec (units : List unit_t) (hwf : Trie.WF units) (fuel p : Nat) (cur : List Int)
    (hp : p < units.length) (hf : units.length ≤ fuel + p) :
    ∃ res, Trie.search units fuel p cur = some res ∧ SearchSpec units p cur res := by
  induction fuel generalizing p cur with
  | zero => omega
  | succ fuel ih =>
    -- the recursive calls
    have hsub : ∀ i, i < 26 → ∃ r,
        (if child units p i = 0 then some []
          else Trie.search units fuel (child units p i) (cur ++ [(i : Int) + 97])) = some r
        ∧ (∀ x info, (x, info) ∈ r ↔ ∃ w, Lowercase w ∧ x = cur ++ ((i : Int) + 97) :: w
              ∧ Trie.lookupFrom units p (((i : Int) + 97) :: w) = some info)
        ∧ r.Pairwise (fun a b => wordLt a.1 b.1) := by
      intro i hi
      by_cases h0 : child units p i = 0
      · refine ⟨[], by rw [if_pos h0], ?_, List.Pairwise.nil⟩
        intro x info
        simp only [List.not_mem_nil, false_iff, not_exists, not_and]
        intro w _ _
        rw [lookupFrom_cons, childIndex_letter i hi, if_pos h0]
        simp
      · have hl := hwf.link p i h0
        obtain ⟨r, hr, hmem, hpw⟩ := ih (child units p i) (cur ++ [(i : Int) + 97]) hl.2 (by omega)
        refine ⟨r, by rw [if_neg h0]; exact hr, ?_, hpw⟩
        intro x info
        rw [hmem]
        constructor
        · rintro ⟨w, hw, hx, hlook⟩
          refine ⟨w, hw, by rw [hx, List.append_assoc]; rfl, ?_⟩
          rw [lookupFrom_cons, childIndex_letter i hi, if_neg h0]
          exact hlook
        · rintro ⟨w, hw, hx, hlook⟩
          refine ⟨w, hw, by rw [hx, List.append_assoc]; rfl, ?_⟩
          rw [lookupFrom_cons, childIndex_letter i hi, if_neg h0] at hlook
          exact hlook
    choose S hS hSmem hSpw using hsub
    let S' : Nat → List (List Int × WordInfo) := fun i => if h : i < 26 then S i h else []
    have hS' : ∀ i ∈ List.range 26,
        (if child units p i = 0 then some []
          else Trie.search units fuel (child units p i) (cur ++ [(i : Int) + 97])) = some (S' i) := by
      intro i hi
      have hi' : i < 26 := List.mem_range.mp hi
      simp only [S', dif_pos hi']
      exact hS i hi'
    refine ⟨_, by rw [search_succ]; exact foldl_bind_some _ S' _ _ hS', ?_, ?_⟩
    · -- membership
      intro x info
      rw [List.mem_append, List.mem_flatten]
      constructor
      · rintro (hhere | ⟨l, hl, hxl⟩)
        · refine ⟨[], by simp [Lowercase], ?_⟩
          rw [lookupFrom_nil]
          cases hinfo : infoAt units p with
          | none => rw [hinfo] at hhere; simp at hhere
          | some i0 =>
            rw [hinfo] at hhere
            simp only [List.mem_singleton, Prod.mk.injEq] at hhere
            simp [hhere.1, hhere.2]
        · obtain ⟨i, hi, rfl⟩ := List.mem_map.mp hl
          have hi' : i < 26 := List.mem_range.mp hi
          simp only [S', dif_pos hi'] at hxl
          obtain ⟨w, hw, hx, hlook⟩ := (hSmem i hi' x info).mp hxl
          refine ⟨((i : Int) + 97) :: w, ?_, hx, hlook⟩
          intro c hc
          rcases List.mem_cons.mp hc with rfl | hc
          · omega
          · exact hw c hc
      · rintro ⟨w, hw, hx, hlook⟩
        cases w with
        | nil =>
          left
          rw [lookupFrom_nil] at hlook
          rw [hlook, hx]
          simp
        | cons c w' =>
          right
          have hc := hw c (List.mem_cons_self _ _)
          have hi : childIndex c < 26 := childIndex_lt c hc
          have hci : ((childIndex c : Nat) : Int) + 97 = c := by unfold childIndex; omega
          refine ⟨S' (childIndex c), List.mem_map.mpr ⟨_, List.mem_range.mpr hi, rfl⟩, ?_⟩
          simp only [S', dif_pos hi]
          rw [hSmem (childIndex c) hi x info]
          exact ⟨w', fun d hd => hw d (List.mem_cons_of_mem _ hd), by rw [hci]; exact hx,
            by rw [hci]; exact hlook⟩
    · -- order
      rw [List.pairwise_append]
      refine ⟨?_, ?_, ?_⟩
      · cases infoAt units p <;> simp
      · rw [List.pairwise_flatten]
        constructor
        · intro l hl
          obtain ⟨i, hi, rfl⟩ := List.mem_map.mp hl
          have hi' : i < 26 := List.mem_range.mp hi
          simp only [S', dif_pos hi']
          exact hSpw i hi'
        · rw [List.pairwise_map]
          refine (List.pairwise_lt_range 26).imp_of_mem ?_
          intro i j hi hj hij a ha b hb
          have hi' : i < 26 := List.mem_range.mp hi
          have hj' : j < 26 := List.mem_range.mp hj
          simp only [S', dif_pos hi'] at ha
          simp only [S', dif_pos hj'] at hb
          obtain ⟨w, _, hx, _⟩ := (hSmem i hi' a.1 a.2).mp ha
          obtain ⟨v, _, hy, _⟩ := (hSmem j hj' b.1 b.2).mp hb
          rw [hx, hy, wordLt_append_left]
          exact wordLt_cons_of_lt _ _ _ _ (by omega)
      · intro a ha b hb
        obtain ⟨l, hl, hbl⟩ := List.mem_flatten.mp hb
        obtain ⟨i, hi, rfl⟩ := List.mem_map.mp hl
        have hi' : i < 26 := List.mem_range.mp hi
        simp only [S', dif_pos hi'] at hbl
        obtain ⟨v, _, hy, _⟩ := (hSmem i hi' b.1 b.2).mp hbl
        have hax : a.1 = cur := by
          cases hinfo : infoAt units p with
          | none => rw [hinfo] at ha; simp at ha
          | some i0 =>
            rw [hinfo] at ha
            simp only [List.mem_singleton] at ha
            rw [ha]
        rw [hax, hy]
        have := (wordLt_append_left cur [] (((i : Int) + 97) :: v)).mpr (wordLt_nil_cons _ _)
        simpa using this

/-- The call `get_all` returns, in the order of `std::string`, one entry for each
lower-case word that has a `WordInfo` in the trie. -/
theorem get_all_spec (t : Trie) (ht : t.Inv) :
    ∃ res, t.get_all = some res
      ∧ (∀ x info, (x, info) ∈ res ↔ Lowercase x ∧ t.lookup x = some info)
      ∧ res.Pairwise (fun a b => wordLt a.1 b.1) := by
  obtain ⟨hroot, hwf⟩ := ht
  obtain ⟨res, hres, hmem, hpw⟩ := search_spec t.units hwf t.units.length t.root []
    (by rw [hroot]; exact hwf.nonempty) (by omega)
  refine ⟨res, hres, ?_, hpw⟩
  intro x info
  rw [hmem]
  constructor
  · rintro ⟨w, hw, hx, hlook⟩
    rw [List.nil_append] at hx
    subst hx
    exact ⟨hw, hlook⟩
  · rintro ⟨hw, hlook⟩
    exact ⟨x, hw, rfl, hlook⟩

/-! ## The order of the report -/

/-- The step of the dealing loop of `printStatis`. -/
theorem distribute_foldl (wv : List (List Int × WordInfo)) (l : List Nat)
    (st : List (List Nat) × List Nat) (hst : st.1.length = buckets_size) :
    let f := fun (st : List (List Nat) × List Nat) (i : Nat) =>
      if countAt wv i < buckets_size then
        (st.1.set (countAt wv i) (st.1.getD (countAt wv i) [] ++ [i]), st.2)
      else (st.1, st.2 ++ [i])
    (l.foldl f st).1.length = buckets_size
      ∧ (l.foldl f st).2 = st.2 ++ l.filter (fun i => decide (¬ countAt wv i < buckets_size))
      ∧ ∀ c, c < buckets_size →
          (l.foldl f st).1.getD c [] = st.1.getD c [] ++ l.filter (fun i => decide (countAt wv i = c)) := by
  intro f
  induction l generalizing st with
  | nil => exact ⟨hst, by simp, fun c _ => by simp⟩
  | cons i rest ih =>
    rw [List.foldl_cons]
    by_cases hi : countAt wv i < buckets_size
    · have hf : f st i = (st.1.set (countAt wv i) (st.1.getD (countAt wv i) [] ++ [i]), st.2) := by
        simp only [f, if_pos hi]
      obtain ⟨h1, h2, h3⟩ := ih (f st i) (by rw [hf]; simpa using hst)
      refine ⟨h1, ?_, ?_⟩
      · rw [h2, hf]; simp [List.filter_cons, hi]
      · intro c hc
        rw [h3 c hc, hf]
        simp only [List.getD_eq_getElem?_getD, List.getElem?_set, List.filter_cons]
        by_cases hcc : countAt wv i = c
        · subst hcc
          simp [hst, hi]
        · simp [hcc]
    · have hf : f st i = (st.1, st.2 ++ [i]) := by simp only [f, if_neg hi]
      obtain ⟨h1, h2, h3⟩ := ih (f st i) (by rw [hf]; exact hst)
      have hi' : buckets_size ≤ countAt wv i := Nat.le_of_not_lt hi
      refine ⟨h1, ?_, ?_⟩
      · rw [h2, hf]; simp [List.filter_cons, hi']
      · intro c hc
        rw [h3 c hc, hf]
        have : countAt wv i ≠ c := by omega
        simp [List.filter_cons, this]

theorem distribute_spec (wv : List (List Int × WordInfo)) (l : List Nat) :
    (distribute wv l).1.length = buckets_size
      ∧ (distribute wv l).2 = l.filter (fun i => decide (¬ countAt wv i < buckets_size))
      ∧ ∀ c, c < buckets_size →
          (distribute wv l).1.getD c [] = l.filter (fun i => decide (countAt wv i = c)) := by
  have h := distribute_foldl wv l (List.replicate buckets_size [], []) (by simp)
  obtain ⟨h1, h2, h3⟩ := h
  refine ⟨h1, ?_, ?_⟩
  · rw [List.nil_append] at h2; exact h2
  · intro c hc
    have h4 := h3 c hc
    have h5 : (List.replicate buckets_size ([] : List Nat)).getD c [] = [] := by
      simp only [List.getD_eq_getElem?_getD, List.getElem?_replicate]
      split <;> rfl
    rw [h5, List.nil_append] at h4
    exact h4

/-- The buckets `n`, `n - 1`, ..., `0` in this order. -/
theorem collect_spec (buckets : List (List Nat)) (n : Nat) (result : List Nat)
    (hn : n < buckets_size) :
    collect buckets (n + 2) n result
      = some (result ++ ((List.range (n + 1)).reverse.map (fun c => buckets.getD c [])).flatten) := by
  induction n generalizing result with
  | zero =>
    simp only [collect]
    have h1 : (0 : Nat) < buckets_size := by decide
    have h2 : ¬ ((0 + 2 ^ 64 - 1) % 2 ^ 64 < buckets_size) := by decide
    rw [if_pos h1, if_neg h2]
    simp [List.range_succ]
  | succ n ih =>
    rw [collect, if_pos hn]
    have h1 : (n + 1 + 2 ^ 64 - 1) % 2 ^ 64 = n := by
      have : n < 1000 := by unfold buckets_size at hn; omega
      omega
    rw [h1, ih _ (by omega)]
    rw [List.range_succ (n := n + 1)]
    simp [List.append_assoc]

theorem reportOrder_eq (sort : (Nat → Nat → Bool) → List Nat → List Nat)
    (wv : List (List Int × WordInfo)) :
    reportOrder sort wv
      = some (sort (fun a b => decide (countAt wv a > countAt wv b))
            ((List.range wv.length).filter (fun i => decide (¬ countAt wv i < buckets_size)))
          ++ ((List.range buckets_size).reverse.map
              (fun c => (List.range wv.length).filter (fun i => decide (countAt wv i = c)))).flatten) := by
  obtain ⟨_, h2, h3⟩ := distribute_spec wv (List.range wv.length)
  have hb : buckets_size + 1 = (buckets_size - 1) + 2 := by unfold buckets_size; omega
  have hb1 : buckets_size - 1 < buckets_size := by unfold buckets_size; omega
  have hb2 : buckets_size - 1 + 1 = buckets_size := by unfold buckets_size; omega
  unfold reportOrder
  have hm : (List.range buckets_size).reverse.map
        (fun c => (distribute wv (List.range wv.length)).1.getD c [])
      = (List.range buckets_size).reverse.map
        (fun c => (List.range wv.length).filter (fun i => decide (countAt wv i = c))) :=
    List.map_congr_left (fun c hc => h3 c (List.mem_range.mp (List.mem_reverse.mp hc)))
  rw [hb, collect_spec _ _ _ hb1, h2, hb2, hm]

theorem filter_append_filter_perm (p q : Nat → Bool) (l : List Nat)
    (h : ∀ x, ¬ (p x = true ∧ q x = true)) :
    (l.filter p ++ l.filter q).Perm (l.filter (fun x => p x || q x)) := by
  induction l with
  | nil => exact List.Perm.refl _
  | cons x rest ih =>
    cases hp : p x <;> cases hq : q x
    · simpa [List.filter_cons, hp, hq] using ih
    · simp only [List.filter_cons, hp, hq, Bool.or_true, if_true, Bool.false_eq_true, if_false]
      exact List.perm_middle.trans (ih.cons x)
    · simp only [List.filter_cons, hp, hq, Bool.or_false, if_true, Bool.false_eq_true, if_false,
        List.cons_append]
      exact ih.cons x
    · exact absurd ⟨hp, hq⟩ (h x)

theorem buckets_perm (key : Nat → Nat) (l : List Nat) (B : Nat) :
    (((List.range B).map (fun c => l.filter (fun i => decide (key i = c)))).flatten).Perm
      (l.filter (fun i => decide (key i < B))) := by
  induction B with
  | zero => simp
  | succ B ih =>
    rw [List.range_succ, List.map_append, List.flatten_append]
    simp only [List.map_cons, List.map_nil, List.flatten_cons, List.flatten_nil, List.append_nil]
    refine (ih.append (List.Perm.refl _)).trans ?_
    refine (filter_append_filter_perm _ _ l ?_).trans ?_
    · intro x
      simp only [decide_eq_true_eq]
      omega
    · apply List.Perm.of_eq
      apply List.filter_congr
      intro x _
      by_cases h1 : key x < B <;> by_cases h2 : key x = B <;> simp [h1, h2] <;> omega

theorem countComp_swo (key : Nat → Nat) :
    StrictWeakOrder (fun a b => decide (key a > key b)) := by
  refine ⟨?_, ?_, ?_⟩
  · intro a; simp
  · intro a b c; simp only [decide_eq_true_eq]; omega
  · intro a b c; simp only [decide_eq_false_iff_not]; omega

/-- The reported order is a rearrangement of the indices of the entries. -/
theorem reportOrder_perm (sort : (Nat → Nat → Bool) → List Nat → List Nat) (hs : StdSort sort)
    (wv : List (List Int × WordInfo)) :
    ∃ order, reportOrder sort wv = some order ∧ order.Perm (List.range wv.length) := by
  refine ⟨_, reportOrder_eq sort wv, ?_⟩
  have h1 := (hs (fun a b => decide (countAt wv a > countAt wv b))
    ((List.range wv.length).filter (fun i => decide (¬ countAt wv i < buckets_size)))
    (countComp_swo _)).1
  have h2 := buckets_perm (countAt wv) (List.range wv.length) buckets_size
  have h3 : (((List.range buckets_size).reverse.map
      (fun c => (List.range wv.length).filter (fun i => decide (countAt wv i = c)))).flatten).Perm
      ((List.range wv.length).filter (fun i => decide (countAt wv i < buckets_size))) :=
    (List.Perm.flatten ((List.reverse_perm _).map _)).trans h2
  refine (h1.append h3).trans ?_
  refine List.perm_append_comm.trans ?_
  have h4 := List.filter_append_perm (fun i => decide (countAt wv i < buckets_size))
    (List.range wv.length)
  refine List.Perm.trans ?_ h4
  apply List.Perm.append (List.Perm.refl _)
  apply List.Perm.of_eq
  apply List.filter_congr
  intro x _
  by_cases hx : countAt wv x < buckets_size
  · simp [hx]
  · simp [hx]

/-- The shape of the reported order: any relation that holds from a residual
entry to one of no greater count, between entries of one bucket in index order,
and from an entry to one of smaller count, holds between every entry and those
reported after it. -/
theorem reportOrder_pairwise (sort : (Nat → Nat → Bool) → List Nat → List Nat) (hs : StdSort sort)
    (wv : List (List Int × WordInfo)) (R : Nat → Nat → Prop)
    (hres : ∀ a b, ¬ countAt wv a < buckets_size → countAt wv b ≤ countAt wv a → R a b)
    (hsame : ∀ a b, countAt wv a = countAt wv b → countAt wv a < buckets_size → a < b → R a b)
    (hdiff : ∀ a b, countAt wv b < countAt wv a → R a b) :
    ∃ order, reportOrder sort wv = some order ∧ order.Pairwise R := by
  refine ⟨_, reportOrder_eq sort wv, ?_⟩
  obtain ⟨hperm, hsorted⟩ := hs (fun a b => decide (countAt wv a > countAt wv b))
    ((List.range wv.length).filter (fun i => decide (¬ countAt wv i < buckets_size)))
    (countComp_swo _)
  have hin : ∀ a, a ∈ sort (fun a b => decide (countAt wv a > countAt wv b))
      ((List.range wv.length).filter (fun i => decide (¬ countAt wv i < buckets_size)))
      → ¬ countAt wv a < buckets_size := by
    intro a ha
    have := (List.mem_filter.mp (hperm.mem_iff.mp ha)).2
    simpa using this
  rw [List.pairwise_append]
  refine ⟨?_, ?_, ?_⟩
  · refine hsorted.imp_of_mem ?_
    intro a b ha _ hab
    simp only [decide_eq_false_iff_not] at hab
    have := hin a ha
    exact hres a b (hin a ha) (by omega)
  · rw [List.pairwise_flatten]
    constructor
    · intro l hl
      obtain ⟨c, hc, rfl⟩ := List.mem_map.mp hl
      have hc' : c < buckets_size := List.mem_range.mp (List.mem_reverse.mp hc)
      refine ((List.pairwise_lt_range wv.length).filter _).imp_of_mem ?_
      intro a b ha hb hab
      have ha' := (List.mem_filter.mp ha).2
      have hb' := (List.mem_filter.mp hb).2
      simp only [decide_eq_true_eq] at ha' hb'
      exact hsame a b (by omega) (by omega) hab
    · rw [List.pairwise_map, List.pairwise_reverse]
      refine (List.pairwise_lt_range buckets_size).imp ?_
      intro c c' hcc a ha b hb
      have ha' := (List.mem_filter.mp ha).2
      have hb' := (List.mem_filter.mp hb).2
      simp only [decide_eq_true_eq] at ha' hb'
      exact hdiff a b (by omega)
  · intro a ha b hb
    obtain ⟨l, hl, hbl⟩ := List.mem_flatten.mp hb
    obtain ⟨c, hc, rfl⟩ := List.mem_map.mp hl
    have hc' : c < buckets_size := List.mem_range.mp (List.mem_reverse.mp hc)
    have hb' := (List.mem_filter.mp hbl).2
    simp only [decide_eq_true_eq] at hb'
    have := hin a ha
    exact hdiff a b (by omega)

theorem indexOf_lt_of_pairwise {α : Type} [DecidableEq α] (R : α → α → Prop) (l : List α)
    (hp : l.Pairwise R) (a b : α) (ha : a ∈ l) (hb : b ∈ l) (hab : a ≠ b) (hn : ¬ R b a) :
    l.indexOf a < l.indexOf b := by
  induction l with
  | nil => simp at ha
  | cons x rest ih =>
    rw [List.pairwise_cons] at hp
    by_cases hxa : x = a
    · subst hxa
      rw [List.indexOf_cons_self, List.indexOf_cons_ne _ hab]
      omega
    · have ha' : a ∈ rest := by
        rcases List.mem_cons.mp ha with h | h
        · exact absurd h.symm hxa
        · exact h
      by_cases hxb : x = b
      · subst hxb
        exact absurd (hp.1 a ha') hn
      · have hb' : b ∈ rest := by
          rcases List.mem_cons.mp hb with h | h
          · exact absurd h.symm hxb
          · exact h
        rw [List.indexOf_cons_ne _ hxa, List.indexOf_cons_ne _ hxb]
        have := ih hp.2 ha' hb'
        omega

/-! ## Two sorting functions that meet the contract of `std::sort` -/

theorem swo_total (comp : Nat → Nat → Bool) (h : StrictWeakOrder comp) (a b : Nat) :
    comp b a = false ∨ comp a b = false := by
  cases hba : comp b a
  · exact Or.inl rfl
  · cases hab : comp a b
    · exact Or.inr rfl
    · have := h.trans a b a hab hba
      rw [h.irrefl a] at this
      exact absurd this (by simp)

theorem swo_trans (comp : Nat → Nat → Bool) (h : StrictWeakOrder comp) (a b c : Nat)
    (hab : comp b a = false) (hbc : comp c b = false) : comp c a = false := by
  cases hca : comp c a
  · rfl
  · exfalso
    have h1 : comp a b = false := by
      cases h1 : comp a b
      · rfl
      · rw [h.trans c a b hca h1] at hbc; exact absurd hbc (by simp)
    have h2 : comp b c = false := by
      cases h2 : comp b c
      · rfl
      · rw [h.trans b c a h2 hca] at hab; exact absurd hab (by simp)
    have := (h.incomp a b c h1 hab h2 hbc).2
    rw [hca] at this
    exact absurd this (by simp)

theorem insertionSort_sorted (comp : Nat → Nat → Bool) (h : StrictWeakOrder comp) (l : List Nat) :
    (List.insertionSort (fun a b => comp b a = false) l).Pairwise (fun a b => comp b a = false) := by
  haveI : IsTotal Nat (fun a b => comp b a = false) := ⟨fun a b => swo_total comp h a b⟩
  haveI : IsTrans Nat (fun a b => comp b a = false) :=
    ⟨fun a b c hab hbc => swo_trans comp h a b c hab hbc⟩
  exact List.sorted_insertionSort (fun a b => comp b a = false) l

theorem stdSort_stableSort : StdSort stableSort := by
  intro comp l h
  exact ⟨List.perm_insertionSort _ l, insertionSort_sorted comp h l⟩

/-! ## Counting the terminal nodes -/

theorem getElem_eq_unitAt (units : List unit_t) (p : Nat) (hp : p < units.length) :
    units[p] = unitAt units p := by
  simp [unitAt, List.getD_eq_getElem?_getD, List.getElem?_eq_getElem hp]

theorem countP_pos_of_info (units : List unit_t) (q : Nat) (hq : q < units.length)
    (h : (unitAt units q).info.isSome = true) :
    0 < List.countP (fun u => u.info.isSome) units := by
  apply List.countP_pos_iff.mpr
  exact ⟨units[q], List.getElem_mem _, by rw [getElem_eq_unitAt _ _ hq]; exact h⟩

theorem terminalCount_step (units : List unit_t) (p : Nat) (ch : Int) (hp : p < units.length) :
    terminalCount (Trie.step units p ch).1 = terminalCount units := by
  unfold Trie.step
  by_cases h : child units p (childIndex ch) = 0
  · simp only [h, if_true, terminalCount]
    have hp' : p < (units ++ [unit_t.empty]).length := by simp; omega
    rw [List.countP_set _ _ _ _ hp', getElem_eq_unitAt _ _ hp']
    simp only [unitAt_grow, List.countP_append, List.countP_singleton]
    have : (unit_t.empty).info.isSome = false := rfl
    rw [this]
    cases hinfo : (unitAt units p).info.isSome
    · simp
    · have := countP_pos_of_info units p hp hinfo
      simp only [if_true, if_false, Bool.false_eq_true]
      omega
  · simp [h]

theorem terminalCount_walk (word : List Int) (units : List unit_t) (p : Nat)
    (hwf : Trie.WF units) (hp : p < units.length) (hw : Lowercase word) :
    terminalCount (Trie.walk word units p).1 = terminalCount units := by
  induction word generalizing units p with
  | nil => rfl
  | cons ch rest ih =>
    have hc : childIndex ch < 26 := childIndex_lt ch (hw ch (List.mem_cons_self _ _))
    have hrest : Lowercase rest := fun c hcm => hw c (List.mem_cons_of_mem _ hcm)
    simp only [Trie.walk]
    rw [ih _ _ (WF_step units p ch hwf hp hc) (step_snd_spec units p ch hwf hp hc).2 hrest,
      terminalCount_step units p ch hp]

theorem terminalCount_setInfo (units : List unit_t) (q : Nat) (v : WordInfo)
    (hq : q < units.length) :
    terminalCount (setInfo units q (some v))
      = terminalCount units + (if (infoAt units q).isSome then 0 else 1) := by
  unfold terminalCount setInfo
  rw [List.countP_set _ _ _ _ hq, getElem_eq_unitAt _ _ hq]
  cases hinfo : (unitAt units q).info.isSome
  · simp [infoAt, hinfo]
  · have := countP_pos_of_info units q hq hinfo
    simp [infoAt, hinfo]; omega

theorem terminalCount_insert (t : Trie) (word : List Int) (line : Nat) (ht : t.Inv)
    (hw : Lowercase word) :
    terminalCount (t.insert word line).units
      = terminalCount t.units + (if (t.lookup word).isSome then 0 else 1) := by
  obtain ⟨hroot, hwf⟩ := ht
  have hp : t.root < t.units.length := by rw [hroot]; exact hwf.nonempty
  obtain ⟨_, _, h3, h4, h5, _⟩ := walk_spec word t.units t.root hwf hp hw
  rw [insert_eq]
  simp only
  rw [terminalCount_setInfo _ _ _ h3, terminalCount_walk word t.units t.root hwf hp hw]
  have hq : infoAt (Trie.walk word t.units t.root).1 (Trie.walk word t.units t.root).2
      = t.lookup word := by
    rw [Trie.lookup, ← h5, Trie.lookupFrom, h4]; rfl
  rw [hq]

theorem linesOf_eq_nil_iff (word : List Int) (calls : List (List Int × Nat)) :
    linesOf word calls = [] ↔ word ∉ calls.map Prod.fst := by
  unfold linesOf
  rw [List.map_eq_nil_iff, List.filter_eq_nil_iff]
  simp only [decide_eq_true_eq, List.mem_map, not_exists, not_and]

theorem record_isSome (ls : List Nat) : (record ls).isSome = true ↔ ls ≠ [] := by
  rw [record_eq]
  by_cases h : ls = []
  · simp [h]
  · simp [h]

/-- The number of nodes with a `WordInfo` is the number of distinct words
inserted. -/
theorem terminalCount_build (calls : List (List Int × Nat)) (h : ∀ c ∈ calls, Lowercase c.1) :
    terminalCount (Trie.build calls).units = (calls.map Prod.fst).toFinset.card := by
  induction calls using List.reverseRecOn with
  | nil => rfl
  | append_singleton cs c ih =>
    have hcs : ∀ d ∈ cs, Lowercase d.1 := fun d hd => h d (List.mem_append_left _ hd)
    have hc : Lowercase c.1 := h c (List.mem_append_right _ (List.mem_singleton_self c))
    have hb : Trie.build (cs ++ [c]) = (Trie.build cs).insert c.1 c.2 := by
      rw [Trie.build, List.foldl_append]; rfl
    rw [hb, terminalCount_insert _ _ _ (Inv_build cs hcs) hc, ih hcs, lookup_build cs hcs c.1 hc]
    have hfin : (List.map Prod.fst (cs ++ [c])).toFinset = insert c.1 (cs.map Prod.fst).toFinset := by
      ext x; simp [or_comm]
    rw [hfin]
    by_cases hmem : c.1 ∈ cs.map Prod.fst
    · have h1 : (record (linesOf c.1 cs)).isSome = true :=
        (record_isSome _).mpr (fun h0 => (linesOf_eq_nil_iff _ _).mp h0 hmem)
      rw [h1, if_pos rfl, Finset.insert_eq_of_mem (List.mem_toFinset.mpr hmem)]
      rfl
    · have h1 : (record (linesOf c.1 cs)).isSome = false := by
        rw [(linesOf_eq_nil_iff _ _).mpr hmem]; rfl
      rw [h1, Finset.card_insert_of_not_mem (fun hx => hmem (List.mem_toFinset.mp hx))]
      simp

/-! ## The entries of a built trie -/

/-- The entries that `get_all` returns for the trie built by a sequence of
`insert` calls with lower-case words: one for each word inserted, holding the
record of its lines, in the order of `std::string`. -/
theorem build_entries (calls : List (List Int × Nat)) (h : ∀ c ∈ calls, Lowercase c.1) :
    ∃ entries, (Trie.build calls).get_all = some entries
      ∧ (∀ x info, (x, info) ∈ entries ↔
          linesOf x calls ≠ [] ∧ info = recordInfo (linesOf x calls))
      ∧ entries.Pairwise (fun a b => wordLt a.1 b.1) := by
  obtain ⟨entries, hget, hmem, hpw⟩ := get_all_spec (Trie.build calls) (Inv_build calls h)
  refine ⟨entries, hget, ?_, hpw⟩
  intro x info
  rw [hmem]
  constructor
  · rintro ⟨hx, hlook⟩
    rw [lookup_build calls h x hx, record_eq] at hlook
    by_cases hnil : linesOf x calls = []
    · rw [if_pos hnil] at hlook; exact absurd hlook (by simp)
    · rw [if_neg hnil] at hlook
      simp only [Option.some.injEq] at hlook
      exact ⟨hnil, hlook.symm⟩
  · rintro ⟨hnil, hinfo⟩
    have hx : Lowercase x := by
      have hm : x ∈ calls.map Prod.fst := by
        by_contra hm
        exact hnil ((linesOf_eq_nil_iff x calls).mpr hm)
      obtain ⟨c, hc, rfl⟩ := List.mem_map.mp hm
      exact h c hc
    refine ⟨hx, ?_⟩
    rw [lookup_build calls h x hx, record_eq, if_neg hnil, hinfo]

theorem nodup_of_pairwise_wordLt (entries : List (List Int × WordInfo))
    (h : entries.Pairwise (fun a b => wordLt a.1 b.1)) : (entries.map Prod.fst).Nodup := by
  rw [List.Nodup, List.pairwise_map]
  refine h.imp ?_
  intro a b hab heq
  rw [heq] at hab
  exact wordLt_irrefl _ hab

theorem mem_words_iff (entries : List (List Int × WordInfo)) (calls : List (List Int × Nat))
    (hmem : ∀ x info, (x, info) ∈ entries ↔
      linesOf x calls ≠ [] ∧ info = recordInfo (linesOf x calls)) (w : List Int) :
    w ∈ entries.map Prod.fst ↔ w ∈ calls.map Prod.fst := by
  constructor
  · intro hw
    obtain ⟨e, he, rfl⟩ := List.mem_map.mp hw
    have := ((hmem e.1 e.2).mp he).1
    by_contra hm
    exact this ((linesOf_eq_nil_iff e.1 calls).mpr hm)
  · intro hw
    have hnil : linesOf w calls ≠ [] := fun h0 => (linesOf_eq_nil_iff w calls).mp h0 hw
    exact List.mem_map.mpr ⟨(w, recordInfo (linesOf w calls)), (hmem _ _).mpr ⟨hnil, rfl⟩, rfl⟩

theorem recordInfo_lines_length (ls : List Nat) : (recordInfo ls).lines.length = limit := by
  simp only [recordInfo, List.length_append, List.length_take, List.length_replicate]
  omega

theorem recordInfo_take (ls : List Nat) :
    (recordInfo ls).lines.take (min ls.length limit) = ls.take limit := by
  simp only [recordInfo]
  rw [List.take_append_of_le_length (by simp [List.length_take])]
  rw [List.take_take]
  by_cases h : ls.length ≤ limit
  · rw [List.take_of_length_le (by omega), List.take_of_length_le h]
  · congr 1
    omega

/-! ## The tie example -/

/-- The lines of a word in calls that insert each word of a list `n` times on
line 1. -/
theorem linesOf_tie (n : Nat) (words : List (List Int)) (x : List Int) :
    linesOf x (words.flatMap (fun w => List.replicate n (w, 1)))
      = (words.filter (fun w => decide (w = x))).flatMap (fun _ => List.replicate n 1) := by
  induction words with
  | nil => rfl
  | cons w ws ih =>
    unfold linesOf at ih ⊢
    rw [List.flatMap_cons, List.filter_append, List.map_append, ih, List.filter_replicate]
    by_cases hw : w = x
    · simp [hw]
    · simp [hw]

/-- Two lists of entries in strictly increasing order of their words, with
the same elements, are equal. -/
theorem sorted_entries_unique (l1 l2 : List (List Int × WordInfo))
    (h1 : l1.Pairwise (fun a b => wordLt a.1 b.1)) (h2 : l2.Pairwise (fun a b => wordLt a.1 b.1))
    (hmem : ∀ e, e ∈ l1 ↔ e ∈ l2) : l1 = l2 := by
  have hn : ∀ l : List (List Int × WordInfo), l.Pairwise (fun a b => wordLt a.1 b.1) → l.Nodup := by
    intro l h
    refine List.Pairwise.imp ?_ h
    intro a b hab heq
    rw [heq] at hab
    exact wordLt_irrefl _ hab
  have hperm : l1.Perm l2 := (List.perm_ext_iff_of_nodup (hn l1 h1) (hn l2 h2)).mpr hmem
  haveI : IsAntisymm (List Int × WordInfo) (fun a b => wordLt a.1 b.1) :=
    ⟨fun a b hab hba => absurd hba (wordLt_asymm _ _ hab)⟩
  exact List.eq_of_perm_of_sorted hperm h1 h2

theorem filter_eq_of_nodup (l : List (List Int)) (x : List Int) (hn : l.Nodup) (hx : x ∈ l) :
    l.filter (fun w => decide (w = x)) = [x] := by
  induction l with
  | nil => simp at hx
  | cons w ws ih =>
    rw [List.nodup_cons] at hn
    by_cases hw : w = x
    · subst hw
      have hf : ws.filter (fun v => decide (v = w)) = [] := by
        rw [List.filter_eq_nil_iff]
        intro v hv
        simp only [decide_eq_true_eq]
        intro h
        exact hn.1 (h ▸ hv)
      rw [List.filter_cons_of_pos (by simp), hf]
    · have hx1 : x ∈ ws := by
        rcases List.mem_cons.mp hx with h | h
        · exact absurd h.symm hw
        · exact h
      rw [List.filter_cons_of_neg (by simp [hw]), ih hn.2 hx1]

theorem tieWords_nodup : tieWords.Nodup := by decide

theorem tieWords_lowercase : ∀ w ∈ tieWords, Lowercase w := by decide

theorem tieEntries_sorted : tieEntries.Pairwise (fun a b => wordLt a.1 b.1) := by
  unfold tieEntries tieWords
  rw [List.pairwise_map, List.pairwise_map]
  refine (List.pairwise_lt_range 17).imp ?_
  intro a b hab
  simp only [wordLt]
  left
  omega

theorem tie_get_all : (Trie.build tieCalls).get_all = some tieEntries := by
  have hlow : ∀ c ∈ tieCalls, Lowercase c.1 := by
    intro c hc
    unfold tieCalls at hc
    obtain ⟨w, hw, hcw⟩ := List.mem_flatMap.mp hc
    rw [(List.mem_replicate.mp hcw).2]
    exact tieWords_lowercase w hw
  obtain ⟨entries, hget, hmem, hpw⟩ := build_entries _ hlow
  rw [hget]
  refine congrArg some (sorted_entries_unique _ _ hpw tieEntries_sorted ?_)
  rintro ⟨x, info⟩
  have hr : recordInfo (List.replicate 1000 1) = { count := 1000, lines := List.replicate 20 1 } := by
    simp only [recordInfo, List.length_replicate, List.take_replicate, limit]
    rfl
  rw [hmem]
  unfold tieCalls
  rw [linesOf_tie]
  have hmemE : (x, info) ∈ tieEntries ↔
      x ∈ tieWords ∧ info = { count := 1000, lines := List.replicate 20 1 } := by
    unfold tieEntries
    rw [List.mem_map]
    constructor
    · rintro ⟨w, hw, he⟩
      simp only [Prod.mk.injEq] at he
      exact ⟨he.1 ▸ hw, he.2.symm⟩
    · rintro ⟨hx, hi⟩
      exact ⟨x, hx, by rw [hi]⟩
  rw [hmemE]
  have hne : List.replicate 1000 1 ≠ ([] : List Nat) := by
    intro h
    have := congrArg List.length h
    rw [List.length_replicate] at this
    exact absurd this (by decide)
  generalize List.replicate 1000 1 = L at hr hne ⊢
  by_cases hx : x ∈ tieWords
  · rw [filter_eq_of_nodup tieWords x tieWords_nodup hx]
    have h1 : [x].flatMap (fun _ => L) = L := by simp
    rw [h1, hr]
    exact ⟨fun h => ⟨hx, h.2⟩, fun h => ⟨hne, h.2⟩⟩
  · have hf : tieWords.filter (fun w => decide (w = x)) = [] := by
      rw [List.filter_eq_nil_iff]
      intro w hw
      simp only [decide_eq_true_eq]
      intro h
      exact hx (h ▸ hw)
    rw [hf]
    exact ⟨fun h => absurd rfl h.1, fun h => absurd h.1 hx⟩

/-- When no count is below `buckets_size`, all indices go to `residual` and the
report is the sorted `residual`. -/
theorem reportOrder_all_residual (sort : (Nat → Nat → Bool) → List Nat → List Nat)
    (wv : List (List Int × WordInfo)) (h : ∀ i, i < wv.length → ¬ countAt wv i < buckets_size) :
    reportOrder sort wv
      = some (sort (fun a b => decide (countAt wv a > countAt wv b)) (List.range wv.length)) := by
  rw [reportOrder_eq]
  have hres : (List.range wv.length).filter
      (fun i => decide (¬ countAt wv i < buckets_size)) = List.range wv.length := by
    rw [List.filter_eq_self]
    intro i hi
    simpa using h i (List.mem_range.mp hi)
  have hbuckets : ((List.range buckets_size).reverse.map
      (fun c => (List.range wv.length).filter
        (fun i => decide (countAt wv i = c)))).flatten = [] := by
    rw [List.flatten_eq_nil_iff]
    intro l hl
    obtain ⟨c, hc, rfl⟩ := List.mem_map.mp hl
    have hc1 : c < buckets_size := List.mem_range.mp (List.mem_reverse.mp hc)
    rw [List.filter_eq_nil_iff]
    intro i hi
    have := h i (List.mem_range.mp hi)
    simp only [decide_eq_true_eq]
    omega
  rw [hres, hbuckets, List.append_nil]

set_option maxRecDepth 100000 in
/-- Up to 16 elements `std::sort` of libstdc++ is an insertion sort, which
leaves equivalent elements in place: 16 indices of equal count stay in
order. -/
theorem sixteen_ties_stay_in_order :
    Libstdcxx.sort (fun a b => decide (countAt tieEntries a > countAt tieEntries b))
        (List.range 16)
      = some (List.range 16) := by
  decide

/-! ## The claims -/

/-- C1: the words read from a stream are not always its maximal runs of
letters.  In the stream `a`, space, byte 255, space, `b` the byte 255 becomes
the `char` -1, which `get_word` takes for `EOF`: the words end after `a` and the
run `b` is never returned. -/
theorem words_stop_at_byte_255 :
    FileReader.words (FileReader.new [[97, 32, 255, 32, 98]]) = some [str "a"]
      ∧ letterRunsSpec [97, 32, 255, 32, 98] = [str "a", str "b"] := by
  decide

/-- C2: the line passed to `insert` is the value of `line` after `get_word` has
returned, and `get_word` has then already counted a newline that ends the
word.  For the two lines `hello` and `world` the calls are `hello` with line 2
and `world` with line 3, where one plus the number of newlines in front of the
words gives 1 and 2. -/
theorem insert_line_counts_closing_newline :
    insertCalls (FileReader.new [bytes "hello\nworld\n"])
      = some [(str "hello", 2), (str "world", 3)] := by
  decide

/-- C3: after any sequence of `insert` calls with lower-case words in which `W`
occurs, `get_all` returns exactly one entry for `W`; its count is the number of
calls with `W`, its array has `limit = 20` slots, the first `min(n, 20)` of
which are the lines of the first calls with `W` in call order, so that from the
20th call on the array is the first 20 lines and later calls only change the
count. -/
theorem insert_count_and_lines (calls : List (List Int × Nat)) (W : List Int)
    (hcalls : ∀ c ∈ calls, Lowercase c.1) (hW : linesOf W calls ≠ []) :
    ∃ entries info, (Trie.build calls).get_all = some entries
      ∧ (W, info) ∈ entries
      ∧ (∀ other, (W, other) ∈ entries → other = info)
      ∧ (Trie.build calls).lookup W = some info
      ∧ info.count = (linesOf W calls).length
      ∧ info.lines.length = limit
      ∧ info.lines.take (min (linesOf W calls).length limit) = (linesOf W calls).take limit
      ∧ (limit ≤ (linesOf W calls).length → info.lines = (linesOf W calls).take limit) := by
  obtain ⟨entries, hget, hmem, _⟩ := build_entries calls hcalls
  have hWl : Lowercase W := by
    have hm : W ∈ calls.map Prod.fst := by
      by_contra hm
      exact hW ((linesOf_eq_nil_iff W calls).mpr hm)
    obtain ⟨c, hc, rfl⟩ := List.mem_map.mp hm
    exact hcalls c hc
  refine ⟨entries, recordInfo (linesOf W calls), hget, (hmem _ _).mpr ⟨hW, rfl⟩, ?_, ?_, rfl,
    recordInfo_lines_length _, recordInfo_take _, ?_⟩
  · intro other ho; exact ((hmem _ _).mp ho).2
  · rw [lookup_build calls hcalls W hWl, record_eq, if_neg hW]
  · intro hle
    have h1 := recordInfo_take (linesOf W calls)
    have h2 := recordInfo_lines_length (linesOf W calls)
    rw [Nat.min_eq_right hle, List.take_of_length_le (by omega)] at h1
    exact h1

theorem insert_count_and_lines_witness :
    (∀ c ∈ [(str "ab", 1), (str "a", 2), (str "ab", 3)], Lowercase c.1)
      ∧ linesOf (str "ab") [(str "ab", 1), (str "a", 2), (str "ab", 3)] ≠ []
      ∧ ∃ entries info,
        (Trie.build [(str "ab", 1), (str "a", 2), (str "ab", 3)]).get_all = some entries
        ∧ (str "ab", info) ∈ entries
        ∧ (∀ other, (str "ab", other) ∈ entries → other = info)
        ∧ (Trie.build [(str "ab", 1), (str "a", 2), (str "ab", 3)]).lookup (str "ab") = some info
        ∧ info.count = (linesOf (str "ab") [(str "ab", 1), (str "a", 2), (str "ab", 3)]).length
        ∧ info.lines.length = limit
        ∧ info.lines.take
            (min (linesOf (str "ab") [(str "ab", 1), (str "a", 2), (str "ab", 3)]).length limit)
          = (linesOf (str "ab") [(str "ab", 1), (str "a", 2), (str "ab", 3)]).take limit
        ∧ (limit ≤ (linesOf (str "ab") [(str "ab", 1), (str "a", 2), (str "ab", 3)]).length →
            info.lines = (linesOf (str "ab") [(str "ab", 1), (str "a", 2), (str "ab", 3)]).take limit) :=
  ⟨by decide, by decide,
    insert_count_and_lines [(str "ab", 1), (str "a", 2), (str "ab", 3)] (str "ab")
      (by decide) (by decide)⟩

/-- C4: for a non-empty entry list and a `std::sort` that meets its contract,
the reported order is a rearrangement of the indices of the entries in which an
entry of greater count always comes before one of smaller count, whether the
counts are below the bucket bound or not. -/
theorem report_descending_by_count (sort : (Nat → Nat → Bool) → List Nat → List Nat)
    (hs : StdSort sort) (wordsVector : List (List Int × WordInfo)) (_hne : wordsVector ≠ []) :
    ∃ order, reportOrder sort wordsVector = some order
      ∧ order.Perm (List.range wordsVector.length)
      ∧ ∀ a b A B, wordsVector.get? a = some A → wordsVector.get? b = some B →
          A.2.count > B.2.count → order.indexOf a < order.indexOf b := by
  obtain ⟨order, ho, hperm⟩ := reportOrder_perm sort hs wordsVector
  obtain ⟨order', ho', hpw⟩ := reportOrder_pairwise sort hs wordsVector
    (fun a b => countAt wordsVector b ≤ countAt wordsVector a)
    (fun a b _ h => h) (fun a b h _ _ => by omega) (fun a b h => by omega)
  rw [ho] at ho'
  simp only [Option.some.injEq] at ho'
  subst ho'
  refine ⟨order, ho, hperm, ?_⟩
  intro a b A B hA hB hlt
  have ha : a < wordsVector.length := by
    by_contra h
    rw [List.get?_eq_none.mpr (Nat.le_of_not_lt h)] at hA
    exact absurd hA (by simp)
  have hb : b < wordsVector.length := by
    by_contra h
    rw [List.get?_eq_none.mpr (Nat.le_of_not_lt h)] at hB
    exact absurd hB (by simp)
  have hca : countAt wordsVector a = A.2.count := by unfold countAt; rw [hA]
  have hcb : countAt wordsVector b = B.2.count := by unfold countAt; rw [hB]
  apply indexOf_lt_of_pairwise _ order hpw a b
    (hperm.mem_iff.mpr (List.mem_range.mpr ha)) (hperm.mem_iff.mpr (List.mem_range.mpr hb))
  · intro hab; subst hab; omega
  · omega

theorem report_descending_by_count_witness :
    StdSort stableSort
      ∧ [(str "a", WordInfo.mk 1 (List.replicate 20 1)),
          (str "b", WordInfo.mk 1500 (List.replicate 20 1))] ≠ []
      ∧ ∃ order,
        reportOrder stableSort [(str "a", WordInfo.mk 1 (List.replicate 20 1)),
          (str "b", WordInfo.mk 1500 (List.replicate 20 1))] = some order
        ∧ order.Perm (List.range [(str "a", WordInfo.mk 1 (List.replicate 20 1)),
            (str "b", WordInfo.mk 1500 (List.replicate 20 1))].length)
        ∧ ∀ a b A B,
            [(str "a", WordInfo.mk 1 (List.replicate 20 1)),
              (str "b", WordInfo.mk 1500 (List.replicate 20 1))].get? a = some A →
            [(str "a", WordInfo.mk 1 (List.replicate 20 1)),
              (str "b", WordInfo.mk 1500 (List.replicate 20 1))].get? b = some B →
            A.2.count > B.2.count → order.indexOf a < order.indexOf b :=
  ⟨stdSort_stableSort, by decide,
    report_descending_by_count stableSort stdSort_stableSort
      [(str "a", WordInfo.mk 1 (List.replicate 20 1)),
        (str "b", WordInfo.mk 1500 (List.replicate 20 1))] (by decide)⟩

set_option maxRecDepth 100000 in
/-- C5, as stated: with the `std::sort` of libstdc++ ties of count 1000 or more
are not reported in alphabetical order.  For a file that holds each of the 17
words `a` to `q` a thousand times, `get_all` returns the 17 entries in
alphabetical order, all of count 1000; the median-of-three partition of the
sort, which runs on more than 16 elements, moves the entry of `i` to the front,
and `i` is reported first, nine places in front of `a`. -/
theorem tie_order_not_kept_above_bound :
    (Trie.build tieCalls).get_all = some tieEntries
      ∧ tieEntries.get? 0 = some (str "a", { count := 1000, lines := List.replicate 20 1 })
      ∧ tieEntries.get? 8 = some (str "i", { count := 1000, lines := List.replicate 20 1 })
      ∧ wordLt (str "a") (str "i")
      ∧ Libstdcxx.sort (fun a b => decide (countAt tieEntries a > countAt tieEntries b))
          (List.range 17)
        = some [8, 16, 15, 14, 13, 12, 11, 10, 9, 0, 7, 6, 5, 4, 3, 2, 1]
      ∧ reportOrder std_sort tieEntries
        = some [8, 16, 15, 14, 13, 12, 11, 10, 9, 0, 7, 6, 5, 4, 3, 2, 1]
      ∧ List.indexOf 8 [8, 16, 15, 14, 13, 12, 11, 10, 9, 0, 7, 6, 5, 4, 3, 2, 1]
          < List.indexOf 0 [8, 16, 15, 14, 13, 12, 11, 10, 9, 0, 7, 6, 5, 4, 3, 2, 1] := by
  have hsort : Libstdcxx.sort (fun a b => decide (countAt tieEntries a > countAt tieEntries b))
      (List.range 17) = some [8, 16, 15, 14, 13, 12, 11, 10, 9, 0, 7, 6, 5, 4, 3, 2, 1] := by
    decide
  refine ⟨tie_get_all, rfl, rfl, ?_, hsort, ?_, by decide⟩
  · show wordLt [97] [105]
    simp [wordLt]
  · rw [reportOrder_all_residual std_sort tieEntries (by decide)]
    have hlen : tieEntries.length = 17 := rfl
    rw [hlen]
    unfold std_sort
    rw [hsort]
    rfl

/-- C5, amended: for the entries that `get_all` returns for a trie built with
lower-case words, and a `std::sort` that meets its contract, two entries of
equal count below the bucket bound 1000 are reported in the alphabetical order
of their words. -/
theorem ties_below_bound_alphabetical (sort : (Nat → Nat → Bool) → List Nat → List Nat)
    (hs : StdSort sort) (calls : List (List Int × Nat)) (hcalls : ∀ c ∈ calls, Lowercase c.1) :
    ∃ entries order, (Trie.build calls).get_all = some entries
      ∧ reportOrder sort entries = some order
      ∧ ∀ a b A B, entries.get? a = some A → entries.get? b = some B →
          A.2.count = B.2.count → A.2.count < buckets_size → wordLt A.1 B.1 →
          order.indexOf a < order.indexOf b := by
  obtain ⟨entries, hget, _, hsorted⟩ := build_entries calls hcalls
  obtain ⟨order, ho, hperm⟩ := reportOrder_perm sort hs entries
  obtain ⟨order', ho', hpw⟩ := reportOrder_pairwise sort hs entries
    (fun a b => countAt entries a = countAt entries b → countAt entries a < buckets_size → a < b)
    (fun a b h _ _ h' => absurd h' h) (fun a b _ _ h _ _ => h) (fun a b h h' _ => by omega)
  rw [ho] at ho'
  simp only [Option.some.injEq] at ho'
  subst ho'
  refine ⟨entries, order, hget, ho, ?_⟩
  intro a b A B hA hB heq hlt hword
  have ha : a < entries.length := by
    by_contra h
    rw [List.get?_eq_none.mpr (Nat.le_of_not_lt h)] at hA
    exact absurd hA (by simp)
  have hb : b < entries.length := by
    by_contra h
    rw [List.get?_eq_none.mpr (Nat.le_of_not_lt h)] at hB
    exact absurd hB (by simp)
  have hca : countAt entries a = A.2.count := by unfold countAt; rw [hA]
  have hcb : countAt entries b = B.2.count := by unfold countAt; rw [hB]
  have hA' : entries[a] = A := by
    rw [List.get?_eq_get ha] at hA
    simpa using hA
  have hB' : entries[b] = B := by
    rw [List.get?_eq_get hb] at hB
    simpa using hB
  have hab : a < b := by
    rw [List.pairwise_iff_getElem] at hsorted
    rcases Nat.lt_trichotomy a b with h | h | h
    · exact h
    · subst h
      rw [hA'] at hB'
      rw [hB'] at hword
      exact absurd hword (wordLt_irrefl _)
    · have := hsorted b a hb ha h
      rw [hA', hB'] at this
      exact absurd hword (wordLt_asymm _ _ this)
  apply indexOf_lt_of_pairwise _ order hpw a b
    (hperm.mem_iff.mpr (List.mem_range.mpr ha)) (hperm.mem_iff.mpr (List.mem_range.mpr hb))
  · omega
  · intro h
    have := h (by omega) (by omega)
    omega

theorem ties_below_bound_alphabetical_witness :
    StdSort stableSort
      ∧ (∀ c ∈ [(str "b", 1), (str "a", 2)], Lowercase c.1)
      ∧ ∃ entries order, (Trie.build [(str "b", 1), (str "a", 2)]).get_all = some entries
        ∧ reportOrder stableSort entries = some order
        ∧ ∀ a b A B, entries.get? a = some A → entries.get? b = some B →
            A.2.count = B.2.count → A.2.count < buckets_size → wordLt A.1 B.1 →
            order.indexOf a < order.indexOf b :=
  ⟨stdSort_stableSort, by decide,
    ties_below_bound_alphabetical stableSort stdSort_stableSort
      [(str "b", 1), (str "a", 2)] (by decide)⟩

/-- C6: `put_string` loses bytes when the string does not fit in the space
left.  With `buffer_size - 1` bytes buffered, `put_string("ab")` copies one byte
behind `ptr` without advancing it, writes only the bytes buffered before, and
skips a whole buffer length in the string: after the final `flush` the file
holds the earlier bytes and neither `a` nor `b`. -/
theorem put_string_drops_bytes :
    (FileWriter.put_string (str "ab")
        { file := [], buffer := List.replicate (buffer_size - 1) 120 ++ [0],
          ptr := buffer_size - 1 }).map (fun v => v.flush.file)
      = some (List.replicate (buffer_size - 1) 120) :=
  FileWriter.put_string_lost_at buffer_size (by decide)

set_option maxRecDepth 100000 in
theorem pipeline_scenario :
    (pipeline (FileReader.new [bytes "The cat sat on the mat.\nThe dog ran.\n"])).map
        (fun entries => entries.map (fun e => (e.1, e.2.count, e.2.lines.take e.2.count)))
      = some [(str "cat", 1, [1]), (str "dog", 1, [2]), (str "mat", 1, [1]), (str "on", 1, [1]),
          (str "ran", 1, [2]), (str "sat", 1, [1]), (str "the", 3, [1, 1, 2])] := by
  decide

/-- C7: for every input, the loop of `main` makes a sequence of `insert` calls
and `get_all` then returns one entry for each distinct word of these calls and
no other; the count of an entry is the number of calls with its word and its
first `min(count, 20)` lines are the lines of the first such calls, in order.
For the two-line example this gives `the` with count 3 and lines 1, 1, 2 and
count 1 for `cat`, `dog`, `mat`, `on`, `ran` and `sat`. -/
theorem pipeline_entries (file : List (List Nat)) :
    (∃ calls entries, insertCalls (FileReader.new file) = some calls
      ∧ pipeline (FileReader.new file) = some entries
      ∧ (entries.map Prod.fst).Nodup
      ∧ (∀ w, w ∈ entries.map Prod.fst ↔ w ∈ calls.map Prod.fst)
      ∧ ∀ w info, (w, info) ∈ entries →
          info.count = (linesOf w calls).length
          ∧ info.lines.take (min info.count limit) = (linesOf w calls).take limit)
    ∧ (pipeline (FileReader.new [bytes "The cat sat on the mat.\nThe dog ran.\n"])).map
        (fun entries => entries.map (fun e => (e.1, e.2.count, e.2.lines.take e.2.count)))
      = some [(str "cat", 1, [1]), (str "dog", 1, [2]), (str "mat", 1, [1]), (str "on", 1, [1]),
          (str "ran", 1, [2]), (str "sat", 1, [1]), (str "the", 3, [1, 1, 2])] := by
  refine ⟨?_, pipeline_scenario⟩
  obtain ⟨calls, hcalls⟩ := insertCalls_total (FileReader.new file)
  have hlow := insertCalls_lowercase _ calls hcalls
  obtain ⟨entries, hget, hmem, hsorted⟩ := build_entries calls hlow
  refine ⟨calls, entries, hcalls, ?_, nodup_of_pairwise_wordLt entries hsorted,
    mem_words_iff entries calls hmem, ?_⟩
  · rw [pipeline, hcalls]; exact hget
  · intro w info hw
    have := ((hmem w info).mp hw).2
    subst this
    exact ⟨rfl, recordInfo_take _⟩

/-- C8: after any sequence of `insert` calls with lower-case words on a fresh
trie, the number of nodes that carry a `WordInfo` is the number of distinct
words inserted, and `get_all` returns each inserted word once and no word that
was not inserted. -/
theorem terminal_nodes_are_the_words (calls : List (List Int × Nat))
    (hcalls : ∀ c ∈ calls, Lowercase c.1) :
    terminalCount (Trie.build calls).units = (calls.map Prod.fst).toFinset.card
      ∧ ∃ entries, (Trie.build calls).get_all = some entries
        ∧ (entries.map Prod.fst).Nodup
        ∧ ∀ w, w ∈ entries.map Prod.fst ↔ w ∈ calls.map Prod.fst := by
  obtain ⟨entries, hget, hmem, hsorted⟩ := build_entries calls hcalls
  exact ⟨terminalCount_build calls hcalls, entries, hget,
    nodup_of_pairwise_wordLt entries hsorted, mem_words_iff entries calls hmem⟩

theorem terminal_nodes_are_the_words_witness :
    (∀ c ∈ [(str "ab", 1), (str "a", 2), (str "ab", 3)], Lowercase c.1)
      ∧ terminalCount (Trie.build [(str "ab", 1), (str "a", 2), (str "ab", 3)]).units
          = ([(str "ab", 1), (str "a", 2), (str "ab", 3)].map Prod.fst).toFinset.card
      ∧ ∃ entries, (Trie.build [(str "ab", 1), (str "a", 2), (str "ab", 3)]).get_all = some entries
        ∧ (entries.map Prod.fst).Nodup
        ∧ ∀ w, w ∈ entries.map Prod.fst
            ↔ w ∈ [(str "ab", 1), (str "a", 2), (str "ab", 3)].map Prod.fst :=
  ⟨by decide,
    terminal_nodes_are_the_words [(str "ab", 1), (str "a", 2), (str "ab", 3)] (by decide)⟩

/-- C9: for a trie built by `insert` calls with lower-case words, the list that
`get_all` returns is strictly increasing in the order of `std::string`, and an
entry whose word is a proper initial part of the word of another entry stands
before it in the list. -/
theorem get_all_strictly_increasing (calls : List (List Int × Nat))
    (hcalls : ∀ c ∈ calls, Lowercase c.1) :
    ∃ entries, (Trie.build calls).get_all = some entries
      ∧ entries.Pairwise (fun a b => wordLt a.1 b.1)
      ∧ ∀ i j A B, entries.get? i = some A → entries.get? j = some B →
          (∃ rest, rest ≠ [] ∧ B.1 = A.1 ++ rest) → i < j := by
  obtain ⟨entries, hget, _, hsorted⟩ := build_entries calls hcalls
  refine ⟨entries, hget, hsorted, ?_⟩
  rintro i j A B hA hB ⟨rest, hrest, hba⟩
  have hlt : wordLt A.1 B.1 := by
    rw [hba]
    cases rest with
    | nil => exact absurd rfl hrest
    | cons c cs =>
      have := (wordLt_append_left A.1 [] (c :: cs)).mpr (wordLt_nil_cons c cs)
      simpa using this
  have hi : i < entries.length := by
    by_contra h
    rw [List.get?_eq_none.mpr (Nat.le_of_not_lt h)] at hA
    exact absurd hA (by simp)
  have hj : j < entries.length := by
    by_contra h
    rw [List.get?_eq_none.mpr (Nat.le_of_not_lt h)] at hB
    exact absurd hB (by simp)
  have hA' : entries[i] = A := by
    rw [List.get?_eq_get hi] at hA
    simpa using hA
  have hB' : entries[j] = B := by
    rw [List.get?_eq_get hj] at hB
    simpa using hB
  rw [List.pairwise_iff_getElem] at hsorted
  rcases Nat.lt_trichotomy i j with h | h | h
  · exact h
  · subst h
    rw [hA'] at hB'
    rw [hB'] at hlt
    exact absurd hlt (wordLt_irrefl _)
  · have := hsorted j i hj hi h
    rw [hA', hB'] at this
    exact absurd hlt (wordLt_asymm _ _ this)

theorem get_all_strictly_increasing_witness :
    (∀ c ∈ [(str "ab", 1), (str "a", 2), (str "ab", 3)], Lowercase c.1)
      ∧ ∃ entries, (Trie.build [(str "ab", 1), (str "a", 2), (str "ab", 3)]).get_all = some entries
        ∧ entries.Pairwise (fun a b => wordLt a.1 b.1)
        ∧ ∀ i j A B, entries.get? i = some A → entries.get? j = some B →
            (∃ rest, rest ≠ [] ∧ B.1 = A.1 ++ rest) → i < j :=
  ⟨by decide,
    get_all_strictly_increasing [(str "ab", 1), (str "a", 2), (str "ab", 3)] (by decide)⟩

/-- C10: for an entry with a word free of NUL, `count ≥ 1` and the 20-slot
array, the text written for it is the word padded to 20 columns, a space, the
decimal count padded to 5 columns, a space, the first `min(count, 20)` recorded
lines in decimal separated by single commas, and a newline; for `the` with
count 3 and lines 1, 1, 2 this is `the`, 18 spaces, `3`, 5 spaces and `1,1,2`. -/
theorem entry_text_format (word : List Int) (count : Nat) (lines : List Nat)
    (hw : (0 : Int) ∉ word) (hc : 1 ≤ count) (hl : lines.length = limit) :
    entryText word { count := count, lines := lines } = entryTextSpec word count lines
      ∧ entryText (str "the") { count := 3, lines := [1, 1, 2] ++ List.replicate 17 0 }
          = str "the" ++ List.replicate 18 32 ++ str "3" ++ List.replicate 5 32 ++ str "1,1,2\n" :=
  ⟨entryText_eq_spec word count lines hw hc hl, by decide⟩

theorem entry_text_format_witness :
    (0 : Int) ∉ str "word" ∧ 1 ≤ 21 ∧ (List.range 20).length = limit
      ∧ entryText (str "word") { count := 21, lines := List.range 20 }
          = entryTextSpec (str "word") 21 (List.range 20)
      ∧ entryText (str "the") { count := 3, lines := [1, 1, 2] ++ List.replicate 17 0 }
          = str "the" ++ List.replicate 18 32 ++ str "3" ++ List.replicate 5 32 ++ str "1,1,2\n" :=
  ⟨by decide, by decide, by decide,
    entry_text_format (str "word") 21 (List.range 20) (by decide) (by decide) (by decide)⟩

/-! ## The second group of claims on the word-frequency indexer -/

/-- On a stream without the byte 255, `get_char` returns `EOF` exactly when no
byte is left. -/
theorem get_char_EOF_iff (r : FileReader) (hc : WellChunked r.file)
    (hb : ∀ x ∈ r.stream, x < 255) : r.get_char.1 = EOF ↔ r.stream = [] := by
  constructor
  · intro h
    cases hs : r.stream with
    | nil => rfl
    | cons b bs =>
      exfalso
      have h1 := (get_char_of_stream_cons r hc b bs hs).1
      rw [h1] at h
      exact toChar_ne_EOF b (hb b (by rw [hs]; exact List.mem_cons_self _ _)) h
  · intro h
    rw [get_char_of_stream_nil r hc h]

theorem walkInRange_of_WF (word : List Int) (units : List unit_t) (p : Nat)
    (hwf : Trie.WF units) (hp : p < units.length) (hw : Lowercase word) :
    Trie.walkInRange word units p = true := by
  induction word generalizing units p with
  | nil => simpa [Trie.walkInRange] using hp
  | cons ch rest ih =>
    have hc : childIndex ch < 26 := childIndex_lt ch (hw ch (List.mem_cons_self _ _))
    have hrest : Lowercase rest := fun c hcm => hw c (List.mem_cons_of_mem _ hcm)
    rw [Trie.walkInRange, ih _ _ (WF_step units p ch hwf hp hc)
      (step_snd_spec units p ch hwf hp hc).2 hrest]
    simp [hp, hc]

theorem insertsInRange_of_Inv (calls : List (List Int × Nat)) (t : Trie) (ht : t.Inv)
    (h : ∀ c ∈ calls, Lowercase c.1) : Trie.insertsInRange t calls = true := by
  induction calls generalizing t with
  | nil => rfl
  | cons c cs ih =>
    have hc : Lowercase c.1 := h c (List.mem_cons_self _ _)
    rw [Trie.insertsInRange, ih _ (Inv_insert t c.1 c.2 ht hc)
      (fun d hd => h d (List.mem_cons_of_mem _ hd))]
    have hp : t.root < t.units.length := by rw [ht.1]; exact ht.2.nonempty
    rw [walkInRange_of_WF c.1 t.units t.root ht.2 hp hc]
    rfl

theorem insertCallsLoop_nonempty (fuel : Nat) (r : FileReader) (calls : List (List Int × Nat))
    (h : insertCallsLoop fuel r = some calls) : ∀ c ∈ calls, c.1 ≠ [] := by
  induction fuel generalizing r calls with
  | zero => simp [insertCallsLoop] at h
  | succ fuel ih =>
    rw [insertCallsLoop] at h
    split at h
    · simp at h
    · rename_i word r1 hw
      by_cases hl : word.length = 0
      · rw [if_pos hl] at h
        simp only [Option.some.injEq] at h
        rw [← h]; simp
      · rw [if_neg hl] at h
        cases hcs : insertCallsLoop fuel r1 with
        | none => rw [hcs] at h; simp at h
        | some cs =>
          rw [hcs] at h
          simp only [Option.map_some', Option.some.injEq] at h
          rw [← h]
          intro c hc
          rcases List.mem_cons.mp hc with rfl | hc
          · intro h0
            have h0' : word = [] := h0
            exact hl (by rw [h0']; rfl)
          · exact ih r1 cs hcs c hc

theorem wordsLoop_eq_map (fuel : Nat) (r : FileReader) :
    FileReader.wordsLoop fuel r = (insertCallsLoop fuel r).map (fun cs => cs.map Prod.fst) := by
  induction fuel generalizing r with
  | zero => rfl
  | succ fuel ih =>
    rw [FileReader.wordsLoop, insertCallsLoop]
    cases hw : r.get_word with
    | none => rfl
    | some wr =>
      obtain ⟨word, r1⟩ := wr
      simp only
      by_cases hl : word.length = 0
      · rw [if_pos hl, if_pos hl]; rfl
      · rw [if_neg hl, if_neg hl, ih r1]
        cases insertCallsLoop fuel r1 <;> rfl

/-- C11: a data byte can be reported as end of stream.  In the stream of the
bytes 255 and 98 the first `get_char` returns `EOF` (the byte 255 stored in a
`char` is -1), while the byte 98 is still to be read. -/
theorem get_char_reports_byte_255_as_EOF :
    (FileReader.new [[255, 98]]).get_char = (EOF, { file := [], buf := [98], line := 1 }) := by
  decide

/-- C12: with exactly one argument and a file that cannot be opened, `main`
does not fail explicitly: it constructs the `FileReader` on the null handle
and calls `fread` on it, which is undefined, and returns no status. -/
theorem main_uses_null_handle :
    main 2 none = ([HandleUse.construct, HandleUse.fread], Outcome.undefined) := by
  rfl

theorem find_of_child_kept (u v : List unit_t)
    (h : ∀ q c, child u q c ≠ 0 → child v q c = child u q c) (word : List Int) (p q : Nat)
    (hf : Trie.find u p word = some q) : Trie.find v p word = some q := by
  induction word generalizing p with
  | nil => exact hf
  | cons ch rest ih =>
    rw [Trie.find] at hf ⊢
    by_cases h0 : child u p (childIndex ch) = 0
    · rw [if_pos h0] at hf; exact absurd hf (by simp)
    · rw [if_neg h0] at hf
      rw [h _ _ h0, if_neg h0]
      exact ih _ hf

theorem find_lt (units : List unit_t) (hwf : Trie.WF units) (word : List Int) (p q : Nat)
    (hp : p < units.length) (hf : Trie.find units p word = some q) : q < units.length := by
  induction word generalizing p with
  | nil => simp only [Trie.find, Option.some.injEq] at hf; omega
  | cons ch rest ih =>
    rw [Trie.find] at hf
    by_cases h0 : child units p (childIndex ch) = 0
    · rw [if_pos h0] at hf; exact absurd hf (by simp)
    · rw [if_neg h0] at hf
      exact ih _ (hwf.link _ _ h0).2 hf

/-- An `insert` keeps the paths that exist and makes the path of its word. -/
theorem find_insert (t : Trie) (word : List Int) (line : Nat) (ht : t.Inv)
    (hw : Lowercase word) :
    (∃ q, Trie.find (t.insert word line).units 0 word = some q)
      ∧ ∀ other q, Trie.find t.units 0 other = some q →
          Trie.find (t.insert word line).units 0 other = some q := by
  obtain ⟨hroot, hwf⟩ := ht
  have hp : t.root < t.units.length := by rw [hroot]; exact hwf.nonempty
  obtain ⟨_, _, _, h4, _, h6⟩ := walk_spec word t.units t.root hwf hp hw
  rw [insert_eq]
  simp only
  constructor
  · rw [find_setInfo, ← hroot]
    exact ⟨_, h4⟩
  · intro other q hf
    rw [find_setInfo]
    exact find_of_child_kept t.units _ h6 other 0 q hf

theorem find_build (calls : List (List Int × Nat)) (h : ∀ c ∈ calls, Lowercase c.1) :
    ∀ c ∈ calls, ∃ q, Trie.find (Trie.build calls).units 0 c.1 = some q := by
  induction calls using List.reverseRecOn with
  | nil => intro c hc; simp at hc
  | append_singleton cs d ih =>
    have hcs : ∀ e ∈ cs, Lowercase e.1 := fun e he => h e (List.mem_append_left _ he)
    have hd : Lowercase d.1 := h d (List.mem_append_right _ (List.mem_singleton_self d))
    have hb : Trie.build (cs ++ [d]) = (Trie.build cs).insert d.1 d.2 := by
      rw [Trie.build, List.foldl_append]; rfl
    obtain ⟨hnew, hold⟩ := find_insert (Trie.build cs) d.1 d.2 (Inv_build cs hcs) hd
    intro c hc
    rw [hb]
    rcases List.mem_append.mp hc with hc | hc
    · obtain ⟨q, hq⟩ := ih hcs c hc
      exact ⟨q, hold c.1 q hq⟩
    · rw [List.mem_singleton.mp hc]
      exact hnew

/-- C19: after any sequence of `insert` calls with lower-case words on a fresh
trie, the root is index 0, the arena is not empty, every node has 26 child
slots, every non-zero child slot of a node `p` holds an index greater than `p`
(so never 0) and below `units.size()`, and no index is held by two child
slots. -/
theorem arena_is_a_tree (calls : List (List Int × Nat))
    (hcalls : ∀ c ∈ calls, Lowercase c.1) :
    (Trie.build calls).root = 0
      ∧ 0 < (Trie.build calls).units.length
      ∧ (∀ p c, child (Trie.build calls).units p c ≠ 0 →
          p < child (Trie.build calls).units p c
          ∧ child (Trie.build calls).units p c < (Trie.build calls).units.length)
      ∧ (∀ p c p' c', child (Trie.build calls).units p c ≠ 0 →
          child (Trie.build calls).units p c = child (Trie.build calls).units p' c' →
          p = p' ∧ c = c')
      ∧ (∀ c ∈ calls, ∃ q, Trie.find (Trie.build calls).units 0 c.1 = some q
          ∧ q < (Trie.build calls).units.length) := by
  obtain ⟨hroot, hwf⟩ := Inv_build calls hcalls
  refine ⟨hroot, hwf.nonempty, hwf.link, hwf.inj, ?_⟩
  intro c hc
  obtain ⟨q, hq⟩ := find_build calls hcalls c hc
  exact ⟨q, hq, find_lt _ hwf c.1 0 q hwf.nonempty hq⟩

theorem arena_is_a_tree_witness :
    (∀ c ∈ [(str "ab", 1), (str "a", 2), (str "ac", 3)], Lowercase c.1)
      ∧ (Trie.build [(str "ab", 1), (str "a", 2), (str "ac", 3)]).root = 0
      ∧ 0 < (Trie.build [(str "ab", 1), (str "a", 2), (str "ac", 3)]).units.length
      ∧ (∀ p c, child (Trie.build [(str "ab", 1), (str "a", 2), (str "ac", 3)]).units p c ≠ 0 →
          p < child (Trie.build [(str "ab", 1), (str "a", 2), (str "ac", 3)]).units p c
          ∧ child (Trie.build [(str "ab", 1), (str "a", 2), (str "ac", 3)]).units p c
              < (Trie.build [(str "ab", 1), (str "a", 2), (str "ac", 3)]).units.length)
      ∧ (∀ p c p' c',
          child (Trie.build [(str "ab", 1), (str "a", 2), (str "ac", 3)]).units p c ≠ 0 →
          child (Trie.build [(str "ab", 1), (str "a", 2), (str "ac", 3)]).units p c
            = child (Trie.build [(str "ab", 1), (str "a", 2), (str "ac", 3)]).units p' c' →
          p = p' ∧ c = c')
      ∧ (∀ c ∈ [(str "ab", 1), (str "a", 2), (str "ac", 3)], ∃ q,
          Trie.find (Trie.build [(str "ab", 1), (str "a", 2), (str "ac", 3)]).units 0 c.1 = some q
          ∧ q < (Trie.build [(str "ab", 1), (str "a", 2), (str "ac", 3)]).units.length) :=
  ⟨by decide, arena_is_a_tree [(str "ab", 1), (str "a", 2), (str "ac", 3)] (by decide)⟩

/-- C20: for every input, each word that `get_word` returns before the empty
one, and so each word that `main` passes to `insert`, is non-empty and made of
the letters `a` to `z`; every child index `ch - 'a'` is below 26, and all array
accesses of the `insert` calls of the pipeline stay in range. -/
theorem pipeline_words_in_range (file : List (List Nat)) :
    ∃ words calls, FileReader.words (FileReader.new file) = some words
      ∧ insertCalls (FileReader.new file) = some calls
      ∧ words = calls.map Prod.fst
      ∧ (∀ w ∈ words, w ≠ [] ∧ Lowercase w ∧ ∀ ch ∈ w, childIndex ch < 26)
      ∧ Trie.insertsInRange Trie.new calls = true := by
  obtain ⟨calls, hcalls⟩ := insertCalls_total (FileReader.new file)
  have hlow := insertCalls_lowercase _ calls hcalls
  have hne := insertCallsLoop_nonempty _ _ calls hcalls
  refine ⟨calls.map Prod.fst, calls, ?_, hcalls, rfl, ?_, insertsInRange_of_Inv calls _ Inv_new hlow⟩
  · rw [FileReader.words, wordsLoop_eq_map]
    have : insertCallsLoop ((FileReader.new file).pending + 1) (FileReader.new file) = some calls :=
      hcalls
    rw [this]; rfl
  · intro w hw
    obtain ⟨c, hc, rfl⟩ := List.mem_map.mp hw
    exact ⟨hne c hc, hlow c hc, fun ch hch => childIndex_lt ch (hlow c hc ch hch)⟩

end WordStat

namespace FifoQueue

/-! ## The FIFO queue -/

theorem load_release (heap : List (Nat × queue_item)) (a b : Nat) :
    load (release heap a) b = if b = a then none else load heap b := by
  induction heap with
  | nil => simp [release, load]
  | cons e rest ih =>
    obtain ⟨c, item⟩ := e
    unfold release at ih ⊢
    by_cases hca : c = a
    · subst hca
      rw [List.filter_cons, if_neg (by simp), ih]
      by_cases hb : b = c
      · rw [if_pos hb, if_pos hb]
      · rw [if_neg hb, if_neg hb, load, if_neg (fun h => hb h.symm)]
    · rw [List.filter_cons, if_pos (by simpa using hca), load, load, ih]
      by_cases hcb : c = b
      · rw [if_pos hcb, if_pos hcb, if_neg (fun h => hca (hcb.trans h))]
      · rw [if_neg hcb, if_neg hcb]

theorem load_store (heap : List (Nat × queue_item)) (a b : Nat) (item : queue_item) :
    load (store heap a item) b = if b = a then some item else load heap b := by
  rw [store, load, load_release]
  by_cases h : a = b
  · rw [if_pos h, if_pos h.symm]
  · have hba : ¬ b = a := fun h' => h h'.symm
    rw [if_neg h, if_neg hba, if_neg hba]

theorem seg_congr (h h' : List (Nat × queue_item)) (addrs : List Nat) (vs : List Int)
    (e : Option Nat) (hsame : ∀ b ∈ addrs, load h' b = load h b) (hs : Seg h addrs vs e) :
    Seg h' addrs vs e := by
  induction addrs generalizing vs with
  | nil =>
    cases vs with
    | nil => trivial
    | cons _ _ => simp [Seg] at hs
  | cons a rest ih =>
    cases vs with
    | nil => simp [Seg] at hs
    | cons v vs' =>
      simp only [Seg] at hs ⊢
      exact ⟨by rw [hsame a (List.mem_cons_self _ _)]; exact hs.1,
        ih vs' (fun b hb => hsame b (List.mem_cons_of_mem _ hb)) hs.2⟩

theorem seg_length (h : List (Nat × queue_item)) (addrs : List Nat) (vs : List Int)
    (e : Option Nat) (hs : Seg h addrs vs e) : addrs.length = vs.length := by
  induction addrs generalizing vs with
  | nil => cases vs <;> simp [Seg] at hs ⊢
  | cons a rest ih =>
    cases vs with
    | nil => simp [Seg] at hs
    | cons v vs' => simp only [Seg] at hs; simp [ih vs' hs.2]

theorem seg_live (h : List (Nat × queue_item)) (addrs : List Nat) (vs : List Int)
    (e : Option Nat) (hs : Seg h addrs vs e) : ∀ b ∈ addrs, load h b ≠ none := by
  induction addrs generalizing vs with
  | nil => intro b hb; simp at hb
  | cons a rest ih =>
    cases vs with
    | nil => simp [Seg] at hs
    | cons v vs' =>
      simp only [Seg] at hs
      intro b hb
      rcases List.mem_cons.mp hb with rfl | hb
      · rw [hs.1]; simp
      · exact ih vs' hs.2 b hb

/-- Appending an item to a segment that points to it. -/
theorem seg_snoc (h : List (Nat × queue_item)) (addrs : List Nat) (vs : List Int) (a : Nat)
    (v : Int) (e : Option Nat) (hs : Seg h addrs vs (some a))
    (ha : load h a = some { value := v, next := e }) :
    Seg h (addrs ++ [a]) (vs ++ [v]) e := by
  induction addrs generalizing vs with
  | nil =>
    cases vs with
    | nil => exact ⟨ha, trivial⟩
    | cons _ _ => simp [Seg] at hs
  | cons x rest ih =>
    cases vs with
    | nil => simp [Seg] at hs
    | cons v0 vs' =>
      simp only [Seg] at hs
      refine ⟨?_, ih vs' hs.2⟩
      rw [hs.1]
      cases rest <;> rfl

/-- Redirecting the last item of a segment that ends with `NULL`. -/
theorem seg_relink (h h' : List (Nat × queue_item)) (addrs : List Nat) (vs : List Int)
    (t a : Nat) (hs : Seg h addrs vs none) (hnd : addrs.Nodup) (ht : addrs.getLast? = some t)
    (hsame : ∀ b ∈ addrs, b ≠ t → load h' b = load h b)
    (hlast : ∀ item, load h t = some item → load h' t = some { item with next := some a }) :
    Seg h' addrs vs (some a) := by
  induction addrs generalizing vs with
  | nil => simp at ht
  | cons x rest ih =>
    cases vs with
    | nil => simp [Seg] at hs
    | cons v0 vs' =>
      simp only [Seg] at hs ⊢
      cases rest with
      | nil =>
        simp only [List.getLast?_singleton, Option.some.injEq] at ht
        subst ht
        refine ⟨?_, ?_⟩
        · rw [hlast _ hs.1]; rfl
        · cases vs' with
          | nil => trivial
          | cons _ _ => simp [Seg] at hs
      | cons y rest' =>
        have htl : (y :: rest').getLast? = some t := by
          rw [List.getLast?_cons_cons] at ht; exact ht
        have hxt : x ≠ t := by
          intro hxt
          have hmem : t ∈ y :: rest' := List.mem_of_getLast?_eq_some htl
          rw [← hxt] at hmem
          exact (List.nodup_cons.mp hnd).1 hmem
        refine ⟨?_, ih vs' hs.2 (List.nodup_cons.mp hnd).2 htl
          (fun b hb => hsame b (List.mem_cons_of_mem _ hb))⟩
        rw [hsame x (List.mem_cons_self _ _) hxt, hs.1]
        rfl

theorem holds_empty : Holds empty [] :=
  ⟨[], List.nodup_nil, trivial, rfl, rfl⟩

theorem holds_head (q : State) (vs : List Int) (h : Holds q vs) :
    q.head = none ↔ vs = [] := by
  obtain ⟨addrs, _, hseg, hhead, _⟩ := h
  have hlen := seg_length _ _ _ _ hseg
  rw [hhead]
  cases addrs with
  | nil => simp at hlen ⊢; exact List.length_eq_zero.mp hlen.symm
  | cons a rest =>
    cases vs with
    | nil => simp at hlen
    | cons v vs' => simp

/-- A successful `queue_push` with a fresh address appends the value. -/
theorem holds_push (q : State) (vs : List Int) (v : Int) (a : Nat) (h : Holds q vs)
    (hfresh : load q.heap a = none) :
    ∃ q1, queue_push q v (some a) = some (q1, 1) ∧ Holds q1 (vs ++ [v]) := by
  obtain ⟨addrs, hnd, hseg, hhead, htail⟩ := h
  have hlive := seg_live _ _ _ _ hseg
  have hnot : a ∉ addrs := fun hm => hlive a hm hfresh
  cases addrs with
  | nil =>
    have hvs : vs = [] := by
      have := seg_length _ _ _ _ hseg
      exact List.length_eq_zero.mp this.symm
    subst hvs
    simp only [List.head?_nil] at hhead
    refine ⟨State.mk (store q.heap a (queue_item.mk v none)) (some a) (some a),
      by simp only [queue_push, hhead], [a], by simp, ?_, rfl, rfl⟩
    exact ⟨by rw [load_store, if_pos rfl]; rfl, trivial⟩
  | cons x rest =>
    obtain ⟨t, ht⟩ : ∃ t, (x :: rest).getLast? = some t :=
      ⟨(x :: rest).getLast (by simp), List.getLast?_eq_getLast _ _⟩
    have htmem : t ∈ x :: rest := List.mem_of_getLast?_eq_some ht
    have hta : t ≠ a := fun h => hnot (h ▸ htmem)
    obtain ⟨last, hlast⟩ : ∃ last, load q.heap t = some last := by
      cases hl : load q.heap t with
      | none => exact absurd hl (hlive t htmem)
      | some last => exact ⟨last, rfl⟩
    have hload1 : load (store q.heap a { value := v, next := none }) t = some last := by
      rw [load_store, if_neg hta, hlast]
    simp only [List.head?_cons] at hhead
    rw [ht] at htail
    refine ⟨State.mk (store (store q.heap a (queue_item.mk v none)) t
        (queue_item.mk last.value (some a))) q.head (some a),
      by simp only [queue_push, hhead, htail, hload1], (x :: rest) ++ [a], ?_, ?_, ?_, ?_⟩
    · rw [List.nodup_append]
      refine ⟨hnd, by simp, ?_⟩
      intro b hb hb'
      rw [List.mem_singleton] at hb'
      exact hnot (hb' ▸ hb)
    · apply seg_snoc
      · apply seg_relink q.heap _ (x :: rest) vs t a hseg hnd ht
        · intro b hb hbt
          have hba : ¬ b = a := by
            intro h
            rw [h] at hb
            exact hnot hb
          rw [load_store, if_neg hbt, load_store, if_neg hba]
        · intro item hitem
          rw [hlast] at hitem
          simp only [Option.some.injEq] at hitem
          rw [load_store, if_pos rfl, hitem]
      · rw [load_store, if_neg (fun h => hta h.symm), load_store, if_pos rfl]
    · simp [hhead]
    · show some a = ((x :: rest) ++ [a]).getLast?
      rw [List.getLast?_append]
      rfl

/-- On a queue that holds values, `queue_pop` returns 1, stores the front
value and leaves the rest. -/
theorem holds_pop (q : State) (v : Int) (vs : List Int) (result : Int)
    (h : Holds q (v :: vs)) :
    ∃ q1, queue_pop q result = some (q1, v, 1) ∧ Holds q1 vs := by
  obtain ⟨addrs, hnd, hseg, hhead, htail⟩ := h
  cases addrs with
  | nil => simp [Seg] at hseg
  | cons a rest =>
    simp only [Seg] at hseg
    simp only [List.head?_cons] at hhead
    have hrest : Seg (release q.heap a) rest vs none := by
      apply seg_congr q.heap _ rest vs none _ hseg.2
      intro b hb
      have hba : ¬ b = a := by
        intro h
        rw [h] at hb
        exact (List.nodup_cons.mp hnd).1 hb
      rw [load_release, if_neg hba]
    cases rest with
    | nil =>
      refine ⟨State.mk (release q.heap a) none none,
        by simp only [queue_pop, hhead, hseg.1, nextOf, if_true], [],
        List.nodup_nil, hrest, rfl, rfl⟩
    | cons b rest' =>
      refine ⟨State.mk (release q.heap a) (some b) q.tail,
        by simp only [queue_pop, hhead, hseg.1, nextOf]; rfl, b :: rest',
        (List.nodup_cons.mp hnd).2, hrest, rfl, ?_⟩
      show q.tail = _
      rw [htail, List.getLast?_cons_cons]

/-- On a queue that holds nothing, `queue_pop` returns 0 and changes nothing. -/
theorem pop_of_holds_nil (q : State) (result : Int) (h : Holds q []) :
    queue_pop q result = some (q, result, 0) := by
  have := (holds_head q [] h).mpr rfl
  simp only [queue_pop, this]

theorem holds_of_reachable (q : State) (h : Reachable q) : ∃ vs, Holds q vs := by
  induction h with
  | init => exact ⟨[], holds_empty⟩
  | push q q1 value item ret _ hfresh hpush ih =>
    obtain ⟨vs, hvs⟩ := ih
    cases item with
    | none =>
      simp only [queue_push, Option.some.injEq, Prod.mk.injEq] at hpush
      rw [← hpush.1]; exact ⟨vs, hvs⟩
    | some a =>
      obtain ⟨q2, hq2, hholds⟩ := holds_push q vs value a hvs (hfresh a rfl)
      rw [hq2] at hpush
      simp only [Option.some.injEq, Prod.mk.injEq] at hpush
      rw [← hpush.1]; exact ⟨_, hholds⟩
  | pop q q1 result stored ret _ hpop ih =>
    obtain ⟨vs, hvs⟩ := ih
    cases vs with
    | nil =>
      rw [pop_of_holds_nil q result hvs] at hpop
      simp only [Option.some.injEq, Prod.mk.injEq] at hpop
      rw [← hpop.1]; exact ⟨[], hvs⟩
    | cons v vs' =>
      obtain ⟨q2, hq2, hholds⟩ := holds_pop q v vs' result hvs
      rw [hq2] at hpop
      simp only [Option.some.injEq, Prod.mk.injEq] at hpop
      rw [← hpop.1]; exact ⟨_, hholds⟩

/-- A `queue_push` makes no address live but the one `malloc` returned. -/
theorem push_keeps_fresh (q q1 : State) (v ret : Int) (a b : Nat)
    (hpush : queue_push q v (some a) = some (q1, ret)) (hb : load q.heap b = none)
    (hba : b ≠ a) : load q1.heap b = none := by
  cases hh : q.head with
  | none =>
    simp only [queue_push, hh, Option.some.injEq, Prod.mk.injEq] at hpush
    rw [← hpush.1]
    show load (store q.heap a _) b = none
    rw [load_store, if_neg hba, hb]
  | some x =>
    cases ht : q.tail with
    | none => simp [queue_push, hh, ht] at hpush
    | some t =>
      cases hl : load (store q.heap a (queue_item.mk v none)) t with
      | none => simp [queue_push, hh, ht, hl] at hpush
      | some last =>
        simp only [queue_push, hh, ht, hl, Option.some.injEq, Prod.mk.injEq] at hpush
        rw [← hpush.1]
        show load (store (store q.heap a _) t _) b = none
        have hbt : b ≠ t := by
          intro h
          rw [← h, load_store, if_neg hba, hb] at hl
          simp at hl
        rw [load_store, if_neg hbt, load_store, if_neg hba, hb]

theorem pushAll_holds (vs : List Int) (addrs : List Nat) (q : State) (ws : List Int)
    (h : Holds q ws) (hfresh : ∀ a ∈ addrs, load q.heap a = none) (hnd : addrs.Nodup)
    (hlen : addrs.length = vs.length) :
    ∃ q1, pushAll q (vs.zip (addrs.map some)) = some (q1, List.replicate vs.length 1)
      ∧ Holds q1 (ws ++ vs) := by
  induction vs generalizing addrs q ws with
  | nil => exact ⟨q, rfl, by simpa using h⟩
  | cons v rest ih =>
    cases addrs with
    | nil => simp at hlen
    | cons a as =>
      obtain ⟨q1, hq1, hholds⟩ := holds_push q ws v a h (hfresh a (List.mem_cons_self _ _))
      have hfresh1 : ∀ b ∈ as, load q1.heap b = none := by
        intro b hb
        apply push_keeps_fresh q q1 v 1 a b hq1 (hfresh b (List.mem_cons_of_mem _ hb))
        intro hba
        rw [hba] at hb
        exact (List.nodup_cons.mp hnd).1 hb
      obtain ⟨q2, hq2, hholds2⟩ := ih as q1 (ws ++ [v]) hholds hfresh1 (List.nodup_cons.mp hnd).2
        (by simpa using hlen)
      refine ⟨q2, ?_, by simpa using hholds2⟩
      show pushAll q ((v, some a) :: rest.zip (as.map some)) = _
      rw [pushAll]
      simp only [hq1, hq2, Option.map_some', List.length_cons, List.replicate_succ]

theorem popAll_holds (vs : List Int) (q : State) (result : Int) (h : Holds q vs) :
    ∃ q1, popAll vs.length q result = some (q1, vs.map (fun v => (1, v))) ∧ Holds q1 [] := by
  induction vs generalizing q with
  | nil => exact ⟨q, rfl, h⟩
  | cons v rest ih =>
    obtain ⟨q1, hq1, hholds⟩ := holds_pop q v rest result h
    obtain ⟨q2, hq2, hholds2⟩ := ih q1 hholds
    refine ⟨q2, ?_, hholds2⟩
    simp only [List.length_cons, popAll, hq1, hq2, Option.map_some', List.map_cons]

theorem holds_nil_null (q : State) (h : Holds q []) : q.head = none ∧ q.tail = none := by
  obtain ⟨addrs, _, hseg, hhead, htail⟩ := h
  have hlen := seg_length _ _ _ _ hseg
  have : addrs = [] := List.length_eq_zero.mp hlen
  subst this
  exact ⟨hhead, htail⟩

/-- C13: when the values `vs` are pushed onto the empty queue, every `malloc`
returning a new address, each push returns 1, the next `n` pops each return 1
and store the values in push order, and the queue is empty again with
`head == tail == NULL`. -/
theorem queue_first_in_first_out (vs : List Int) (addrs : List Nat) (result : Int)
    (hlen : addrs.length = vs.length) (hnd : addrs.Nodup) :
    ∃ q q1, pushAll empty (vs.zip (addrs.map some)) = some (q, List.replicate vs.length 1)
      ∧ popAll vs.length q result = some (q1, vs.map (fun v => (1, v)))
      ∧ q1.head = none ∧ q1.tail = none := by
  obtain ⟨q, hq, hholds⟩ := pushAll_holds vs addrs empty [] holds_empty
    (fun a _ => rfl) hnd hlen
  rw [List.nil_append] at hholds
  obtain ⟨q1, hq1, hnil⟩ := popAll_holds vs q result hholds
  exact ⟨q, q1, hq, hq1, holds_nil_null q1 hnil⟩

theorem queue_first_in_first_out_witness :
    [100, 200, 150].length = [7, 8, 9].length ∧ [100, 200, 150].Nodup
      ∧ ∃ q q1,
        pushAll empty ([7, 8, 9].zip ([100, 200, 150].map some))
          = some (q, List.replicate [7, 8, 9].length 1)
        ∧ popAll [7, 8, 9].length q 0 = some (q1, [7, 8, 9].map (fun v => (1, v)))
        ∧ q1.head = none ∧ q1.tail = none :=
  ⟨by decide, by decide,
    queue_first_in_first_out [7, 8, 9] [100, 200, 150] 0 (by decide) (by decide)⟩

/-- C14: in every state that pushes and pops lead to from the empty queue, the
queue holds a list of values and `queue_pop` returns; it returns 0 exactly when
the list is empty, and then leaves the state and `*result` as they were;
otherwise it returns 1, stores the front value and leaves the other values. -/
theorem queue_pop_on_reachable (q : State) (result : Int) (h : Reachable q) :
    ∃ values q1 stored ret, Holds q values
      ∧ queue_pop q result = some (q1, stored, ret)
      ∧ (ret = 0 ↔ values = [])
      ∧ (values = [] → q1 = q ∧ stored = result)
      ∧ (∀ v rest, values = v :: rest → ret = 1 ∧ stored = v ∧ Holds q1 rest) := by
  obtain ⟨vs, hvs⟩ := holds_of_reachable q h
  cases vs with
  | nil =>
    refine ⟨[], q, result, 0, hvs, pop_of_holds_nil q result hvs, by simp, fun _ => ⟨rfl, rfl⟩, ?_⟩
    intro v rest hv
    simp at hv
  | cons v rest =>
    obtain ⟨q1, hq1, hholds⟩ := holds_pop q v rest result hvs
    refine ⟨v :: rest, q1, v, 1, hvs, hq1, by simp, fun h0 => by simp at h0, ?_⟩
    intro v' rest' hv
    simp only [List.cons.injEq] at hv
    rw [← hv.1, ← hv.2]
    exact ⟨rfl, rfl, hholds⟩

theorem queue_pop_on_reachable_witness :
    Reachable (State.mk [(3, queue_item.mk 7 none)] (some 3) (some 3))
      ∧ ∃ values q1 stored ret,
        Holds (State.mk [(3, queue_item.mk 7 none)] (some 3) (some 3)) values
        ∧ queue_pop (State.mk [(3, queue_item.mk 7 none)] (some 3) (some 3)) 5
            = some (q1, stored, ret)
        ∧ (ret = 0 ↔ values = [])
        ∧ (values = [] →
            q1 = State.mk [(3, queue_item.mk 7 none)] (some 3) (some 3) ∧ stored = 5)
        ∧ (∀ v rest, values = v :: rest → ret = 1 ∧ stored = v ∧ Holds q1 rest) :=
  ⟨Reachable.push empty _ 7 (some 3) 1 Reachable.init (fun _ _ => rfl) rfl,
    queue_pop_on_reachable _ 5
      (Reachable.push empty _ 7 (some 3) 1 Reachable.init (fun _ _ => rfl) rfl)⟩

end FifoQueue

namespace SerializeJson

/-! ## JSON escaping -/

/-- Decoding the text written for one `char` between 0 and 127 gives the `char`
back, whatever follows. -/
theorem unescape_escapeChar (n : Nat) (hn : n < 128) (rest : List Int) :
    unescape (escapeChar (n : Int) ++ rest) = (unescape rest).map (fun t => (n : Int) :: t) := by
  rcases rest with _ | ⟨e, _ | ⟨a, _ | ⟨b, _ | ⟨c1, _ | ⟨d, rest2⟩⟩⟩⟩⟩ <;>
    interval_cases n <;> rfl

/-- On a string of `char`s between 0 and 127, decoding the output of
`escape_to_json` with the unescape rules of JSON gives the string back. -/
theorem unescape_escape_to_json (s : List Int) (hs : ∀ c ∈ s, 0 ≤ c ∧ c < 128) :
    unescape (escape_to_json s) = some s := by
  induction s with
  | nil => rfl
  | cons c s ih =>
    have hc := hs c (List.mem_cons_self _ _)
    have ih1 := ih (fun x hx => hs x (List.mem_cons_of_mem _ hx))
    obtain ⟨n, rfl⟩ := Int.eq_ofNat_of_zero_le hc.1
    have hn : n < 128 := by omega
    have := unescape_escapeChar n hn (escape_to_json s)
    simp only [escape_to_json, List.map_cons, List.flatten_cons] at this ih1 ⊢
    rw [this, ih1]
    rfl

/-- C15: the byte 0x80, the `char` -128, is written as a backslash, `u` and the
eight hexadecimal digits `ffffff80`, not four; the unescape rules of JSON read
that output as the code 0xffff followed by the four characters `ff80`, and not
as the input string. -/
theorem escape_to_json_byte_0x80 :
    escape_to_json [-128] = str "\\uffffff80"
      ∧ unescape (escape_to_json [-128]) = some [65535, 102, 102, 56, 48]
      ∧ unescape (escape_to_json [-128]) ≠ some [-128] := by
  decide

end SerializeJson

namespace SplitStr

/-! ## Argument splitting -/

theorem write_spec (argv : List (List Int)) (k i : Nat) (c : Int) (hwf : WellFormed argv)
    (hk : k < MAX_ARGC) (hi : i < MAX_ARG_LEN) :
    ∃ argv1, write argv k i c = some argv1 ∧ WellFormed argv1
      ∧ argv1.getD k [] = (argv.getD k []).set i c
      ∧ ∀ j, j ≠ k → argv1.getD j [] = argv.getD j [] := by
  have hlen := hwf.1
  have hbuf := hwf.2 k hk
  refine ⟨argv.set k ((argv.getD k []).set i c), ?_, ⟨?_, ?_⟩, ?_, ?_⟩
  · rw [write, if_pos ⟨by omega, by omega⟩]
  · simpa using hlen
  · intro j hj
    simp only [List.getD_eq_getElem?_getD, List.getElem?_set]
    by_cases hjk : k = j
    · subst hjk
      have := hwf.2 k hk
      simp only [List.getD_eq_getElem?_getD] at this
      rw [List.getElem?_eq_getElem (by omega)] at this
      simp only [Option.getD_some] at this
      simp [hlen, hk, this]
    · have := hwf.2 j hj
      simp only [List.getD_eq_getElem?_getD] at this
      simp [hjk, this]
  · simp only [List.getD_eq_getElem?_getD, List.getElem?_set]
    simp [hlen, hk]
  · intro j hj
    simp only [List.getD_eq_getElem?_getD, List.getElem?_set]
    simp [Ne.symm hj]

theorem length_skipBlank (p : List Int) : (skipBlank p).length ≤ p.length := by
  induction p with
  | nil => simp [skipBlank]
  | cons c rest ih =>
    rw [skipBlank]
    split
    · simp; omega
    · simp

/-- The copying loop never writes out of range, and a finished copy has moved
the pointer past a first `char` that is neither NUL nor blank. -/
theorem copyArg_safe (argc : Nat) (p : List Int) (argv : List (List Int)) (i : Nat)
    (hwf : WellFormed argv) (hk : argc < MAX_ARGC) (hi : i + 2 ≤ MAX_ARG_LEN) :
    (∃ argv1, copyArg argc argv p i = Copied.tooLong argv1)
      ∨ ∃ argv1 p1 i1, copyArg argc argv p i = Copied.done argv1 p1 i1 ∧ WellFormed argv1
          ∧ i1 + 2 ≤ MAX_ARG_LEN ∧ p1.length ≤ p.length
          ∧ (deref p ≠ 0 → isblank (deref p) = false → p1.length < p.length) := by
  induction p generalizing argv i with
  | nil =>
    right
    exact ⟨argv, [], i, rfl, hwf, hi, le_refl _, fun h => absurd rfl h⟩
  | cons c rest ih =>
    rw [copyArg]
    by_cases hc : c ≠ 0 ∧ isblank c = false
    · rw [if_pos hc]
      obtain ⟨argv1, hw, hwf1, _, _⟩ := write_spec argv argc i c hwf hk
        (by unfold MAX_ARG_LEN at hi ⊢; omega)
      rw [hw]
      simp only
      by_cases hlong : i + 1 + 1 ≥ MAX_ARG_LEN
      · rw [if_pos hlong]
        exact Or.inl ⟨argv1, rfl⟩
      · rw [if_neg hlong]
        rcases ih argv1 (i + 1) hwf1 (by omega) with ⟨a, ha⟩ | ⟨a, p1, i1, ha, h1, h2, h3, _⟩
        · exact Or.inl ⟨a, ha⟩
        · right
          refine ⟨a, p1, i1, ha, h1, h2, ?_, fun _ _ => ?_⟩
          · simp only [List.length_cons]; omega
          · simp only [List.length_cons]; omega
    · rw [if_neg hc]
      right
      refine ⟨argv, c :: rest, i, rfl, hwf, hi, le_refl _, ?_⟩
      intro h1 h2
      exact absurd ⟨h1, h2⟩ hc

/-- The function never writes outside the buffers and always returns. -/
theorem splitLoop_defined (fuel : Nat) (argv : List (List Int)) (argc : Nat) (p : List Int)
    (hwf : WellFormed argv) (hk : argc < MAX_ARGC) (hf : p.length < fuel) :
    ∃ r, splitLoop fuel argv argc p = some r := by
  induction fuel generalizing argv argc p with
  | zero => omega
  | succ fuel ih =>
    rw [splitLoop]
    by_cases h0 : deref p = 0
    · rw [if_pos h0]; exact ⟨_, rfl⟩
    · rw [if_neg h0]
      by_cases h1 : deref (skipBlank p) = 0
      · rw [if_pos h1]; exact ⟨_, rfl⟩
      · rw [if_neg h1]
        by_cases h2 : argc = MAX_ARGC - 1
        · rw [if_pos h2]; exact ⟨_, rfl⟩
        · rw [if_neg h2]
          have hnb : isblank (deref (skipBlank p)) = false := by
            clear ih h0 hf
            induction p with
            | nil => simp [skipBlank, deref] at h1
            | cons c rest ihp =>
              rw [skipBlank] at h1 ⊢
              by_cases hb : isblank c = true
              · rw [if_pos hb] at h1 ⊢; exact ihp h1
              · rw [if_neg hb] at h1 ⊢
                simpa [deref] using hb
          rcases copyArg_safe argc (skipBlank p) argv 0 hwf hk (by decide) with
            ⟨a, ha⟩ | ⟨a, p1, i1, ha, hwf1, hi1, _, hlt⟩
          · rw [ha]; exact ⟨_, rfl⟩
          · rw [ha]
            simp only
            obtain ⟨argv2, hw, hwf2, _, _⟩ := write_spec a argc i1 0 hwf1 hk
              (by unfold MAX_ARG_LEN at hi1 ⊢; omega)
            rw [hw]
            simp only
            have := hlt h1 hnb
            have := length_skipBlank p
            exact ih argv2 (argc + 1) p1 hwf2 (by unfold MAX_ARGC at hk h2 ⊢; omega) (by omega)

/-- On an array of `MAX_ARGC` buffers of `MAX_ARG_LEN` chars `split_str` returns for
every input: the loop ends within its fuel and no write falls outside a
buffer. -/
theorem split_str_defined (argv : List (List Int)) (buffer : List Int) (hwf : WellFormed argv) :
    ∃ r, split_str argv buffer = some r :=
  splitLoop_defined _ argv 0 buffer hwf (by decide) (Nat.lt_succ_self _)

theorem take_succ_set (buf : List Int) (i : Nat) (c : Int) (hi : i < buf.length) :
    (buf.set i c).take (i + 1) = buf.take i ++ [c] := by
  rw [List.set_eq_take_append_cons_drop, if_pos hi]
  have hlen : (buf.take i).length = i := by simp; omega
  rw [List.take_append_eq_append_take, hlen, List.take_of_length_le (by omega)]
  simp

/-- The copying loop on an argument that fits: it stores the `char`s up to the
next blank or the end of the string and stops there. -/
theorem copyArg_copy (argc : Nat) (p : List Int) (argv : List (List Int)) (i : Nat)
    (hwf : WellFormed argv) (hk : argc < MAX_ARGC) (h0 : (0 : Int) ∉ p)
    (hfit : i + (p.takeWhile (fun c => !isblank c)).length + 2 ≤ MAX_ARG_LEN) :
    ∃ argv1, copyArg argc argv p i
        = Copied.done argv1 (p.dropWhile (fun c => !isblank c))
            (i + (p.takeWhile (fun c => !isblank c)).length)
      ∧ WellFormed argv1
      ∧ (argv1.getD argc []).take (i + (p.takeWhile (fun c => !isblank c)).length)
          = (argv.getD argc []).take i ++ p.takeWhile (fun c => !isblank c)
      ∧ ∀ j, j ≠ argc → argv1.getD j [] = argv.getD j [] := by
  induction p generalizing argv i with
  | nil => exact ⟨argv, rfl, hwf, by simp, fun _ _ => rfl⟩
  | cons c rest ih =>
    have hc0 : c ≠ 0 := fun h => h0 (h ▸ List.mem_cons_self _ _)
    have hrest0 : (0 : Int) ∉ rest := fun h => h0 (List.mem_cons_of_mem _ h)
    rw [copyArg]
    by_cases hb : isblank c = true
    · rw [if_neg (by simp [hb])]
      refine ⟨argv, ?_, hwf, ?_, fun _ _ => rfl⟩
      · simp [List.takeWhile_cons, List.dropWhile_cons, hb]
      · simp [List.takeWhile_cons, hb]
    · have hb' : isblank c = false := by simpa using hb
      rw [if_pos ⟨hc0, hb'⟩]
      have htw : (c :: rest).takeWhile (fun c => !isblank c)
          = c :: rest.takeWhile (fun c => !isblank c) := by
        simp [List.takeWhile_cons, hb']
      have hdw : (c :: rest).dropWhile (fun c => !isblank c)
          = rest.dropWhile (fun c => !isblank c) := by
        simp [List.dropWhile_cons, hb']
      rw [htw] at hfit ⊢
      rw [hdw]
      simp only [List.length_cons] at hfit ⊢
      have hi32 : i < MAX_ARG_LEN := by omega
      obtain ⟨argvA, hw, hwfA, hbufA, hotherA⟩ := write_spec argv argc i c hwf hk hi32
      rw [hw]
      simp only
      rw [if_neg (by omega)]
      obtain ⟨argv1, hcopy, hwf1, hbuf1, hother1⟩ := ih argvA (i + 1) hwfA hrest0 (by omega)
      refine ⟨argv1, ?_, hwf1, ?_, ?_⟩
      · rw [hcopy]
        congr 1
        omega
      · have hlen : i < (argv.getD argc []).length := by rw [hwf.2 argc hk]; exact hi32
        have : i + ((rest.takeWhile (fun c => !isblank c)).length + 1)
            = i + 1 + (rest.takeWhile (fun c => !isblank c)).length := by omega
        rw [this, hbuf1, hbufA, take_succ_set _ _ _ hlen]
        simp
      · intro j hj
        rw [hother1 j hj, hotherA j hj]

theorem c_str_terminated (w rest : List Int) (h0 : (0 : Int) ∉ w) :
    c_str (w ++ 0 :: rest) = w := by
  unfold c_str
  rw [List.takeWhile_append_of_pos]
  · simp [List.takeWhile_cons]
  · intro a ha
    simp only [ne_eq, decide_not, Bool.not_eq_eq_eq_not, Bool.not_true, decide_eq_false_iff_not]
    intro h
    exact h0 (h ▸ ha)

theorem skipBlank_eq (p : List Int) : skipBlank p = p.dropWhile isblank := by
  induction p with
  | nil => rfl
  | cons c rest ih =>
    rw [skipBlank, List.dropWhile_cons, ih]

theorem runsFrom_sep (sep : Int → Bool) (s : List Int) :
    runsFrom sep s [] = runsFrom sep (s.dropWhile sep) [] := by
  induction s with
  | nil => rfl
  | cons c rest ih =>
    by_cases hs : sep c = true
    · rw [runsFrom, if_pos hs, if_pos rfl, List.nil_append, ih]
      simp [List.dropWhile_cons, hs]
    · simp [List.dropWhile_cons, hs]

theorem runsFrom_run (sep : Int → Bool) (t cur : List Int) :
    runsFrom sep t cur
      = (if cur ++ t.takeWhile (fun c => !sep c) = [] then []
          else [cur ++ t.takeWhile (fun c => !sep c)])
        ++ runsFrom sep (t.dropWhile (fun c => !sep c)) [] := by
  induction t generalizing cur with
  | nil => simp [runsFrom]
  | cons c rest ih =>
    by_cases hs : sep c = true
    · simp [runsFrom, List.takeWhile_cons, List.dropWhile_cons, hs]
    · have hs' : sep c = false := by simpa using hs
      rw [runsFrom, if_neg hs, ih]
      simp [List.takeWhile_cons, List.dropWhile_cons, hs']

theorem not_mem_of_sublist_zero (p q : List Int) (h : q.Sublist p) (h0 : (0 : Int) ∉ p) :
    (0 : Int) ∉ q := fun hq => h0 (h.subset hq)

/-- The loop of `split_str` on a string whose remaining arguments fit: they are
stored, NUL-terminated, in the buffers from `argc` on, and the buffers in front
are left alone. -/
theorem splitLoop_spec (fuel : Nat) (argv : List (List Int)) (argc : Nat) (p : List Int)
    (hwf : WellFormed argv) (h0 : (0 : Int) ∉ p) (hf : p.length < fuel)
    (hcount : argc + (blankRuns p).length + 1 ≤ MAX_ARGC)
    (hlen : ∀ run ∈ blankRuns p, run.length + 2 ≤ MAX_ARG_LEN) :
    ∃ argv1, splitLoop fuel argv argc p
        = some { ret := argc + (blankRuns p).length, argv := argv1, error := none }
      ∧ WellFormed argv1
      ∧ (∀ k, k < argc → argv1.getD k [] = argv.getD k [])
      ∧ ∀ j, j < (blankRuns p).length →
          c_str (argv1.getD (argc + j) []) = (blankRuns p).getD j [] := by
  induction fuel generalizing argv argc p with
  | zero => omega
  | succ fuel ih =>
    rw [splitLoop]
    cases p with
    | nil =>
      have hd : deref ([] : List Int) = 0 := rfl
      rw [if_pos hd]
      exact ⟨argv, rfl, hwf, fun _ _ => rfl, fun j hj => by simp [blankRuns, runsFrom] at hj⟩
    | cons c rest =>
      have hc0 : deref (c :: rest) ≠ 0 := fun h => h0 (by
        simp only [deref, List.headD_cons] at h
        rw [h]; exact List.mem_cons_self _ _)
      rw [if_neg hc0, skipBlank_eq]
      have hruns : blankRuns (c :: rest)
          = runsFrom isblank ((c :: rest).dropWhile isblank) [] := runsFrom_sep isblank _
      have hsub : ((c :: rest).dropWhile isblank).Sublist (c :: rest) := List.dropWhile_sublist _
      cases ht : (c :: rest).dropWhile isblank with
      | nil =>
        have hd : deref ([] : List Int) = 0 := rfl
        rw [if_pos hd]
        rw [ht] at hruns
        refine ⟨argv, by rw [hruns]; rfl, hwf, fun _ _ => rfl, fun j hj => ?_⟩
        rw [hruns] at hj
        simp [runsFrom] at hj
      | cons d t' =>
        rw [ht] at hruns hsub
        have ht0 : (0 : Int) ∉ d :: t' := not_mem_of_sublist_zero _ _ hsub h0
        have hd0 : deref (d :: t') ≠ 0 := fun h => ht0 (by
          simp only [deref, List.headD_cons] at h
          rw [h]; exact List.mem_cons_self _ _)
        have hdnb : isblank d = false := by
          have := List.head_dropWhile_not isblank (c :: rest) (by rw [ht]; simp)
          simpa [ht] using this
        rw [if_neg hd0]
        have hrun := runsFrom_run isblank (d :: t') []
        rw [List.nil_append] at hrun
        have hwne : (d :: t').takeWhile (fun c => !isblank c) ≠ [] := by
          simp [List.takeWhile_cons, hdnb]
        rw [if_neg hwne] at hrun
        rw [hrun] at hruns
        rw [hruns] at hcount hlen ⊢
        simp only [List.singleton_append, List.length_cons] at hcount
        have hwlen := hlen ((d :: t').takeWhile (fun c => !isblank c))
          (List.mem_append_left _ (List.mem_singleton_self _))
        rw [if_neg (by unfold MAX_ARGC at hcount ⊢; omega)]
        obtain ⟨argvA, hcopy, hwfA, hbufA, hotherA⟩ := copyArg_copy argc (d :: t') argv 0 hwf
          (by omega) ht0 (by omega)
        rw [hcopy]
        simp only [Nat.zero_add]
        have hkA : argc < MAX_ARGC := by omega
        obtain ⟨argvB, hw, hwfB, hbufB, hotherB⟩ := write_spec argvA argc
          ((d :: t').takeWhile (fun c => !isblank c)).length 0 hwfA hkA (by omega)
        rw [hw]
        simp only
        have hsub2 : ((d :: t').dropWhile (fun c => !isblank c)).Sublist (d :: t') :=
          List.dropWhile_sublist _
        have hlt : ((d :: t').dropWhile (fun c => !isblank c)).length < (d :: t').length := by
          have h1 := List.takeWhile_append_dropWhile (fun c => !isblank c) (d :: t')
          have h2 := congrArg List.length h1
          rw [List.length_append] at h2
          have h3 : 0 < ((d :: t').takeWhile (fun c => !isblank c)).length :=
            List.length_pos.mpr hwne
          omega
        have hlen1 := hsub.length_le
        have hbr : blankRuns ((d :: t').dropWhile (fun c => !isblank c))
            = runsFrom isblank ((d :: t').dropWhile (fun c => !isblank c)) [] := rfl
        obtain ⟨argv1, hloop, hwf1, hkeep, hargs⟩ := ih argvB (argc + 1)
          ((d :: t').dropWhile (fun c => !isblank c)) hwfB
          (not_mem_of_sublist_zero _ _ hsub2 ht0) (by omega) (by rw [hbr]; omega)
          (fun run hr => hlen run (List.mem_append_right _ hr))
        rw [hbr] at hloop hargs
        refine ⟨argv1, ?_, hwf1, ?_, ?_⟩
        · rw [hloop]
          simp only [List.singleton_append, List.length_cons]
          congr 2
          omega
        · intro k hk
          rw [hkeep k (by omega), hotherB k (by omega), hotherA k (by omega)]
        · intro j hj
          cases j with
          | zero =>
            simp only [Nat.add_zero, List.singleton_append, List.getD_cons_zero]
            rw [hkeep argc (by omega), hbufB]
            have hbl : ((d :: t').takeWhile (fun c => !isblank c)).length
                < (argvA.getD argc []).length := by rw [hwfA.2 argc hkA]; omega
            rw [List.set_eq_take_append_cons_drop, if_pos hbl]
            rw [Nat.zero_add, List.take_zero, List.nil_append] at hbufA
            rw [hbufA]
            apply c_str_terminated
            intro hz
            exact ht0 ((List.takeWhile_sublist _).subset hz)
          | succ j =>
            simp only [List.singleton_append, List.length_cons, Nat.add_lt_add_iff_right] at hj
            have := hargs j hj
            simp only [List.singleton_append, List.getD_cons_succ]
            rw [← this]
            congr 2
            omega

theorem runsFrom_nonempty (sep : Int → Bool) (s cur : List Int) :
    ∀ run ∈ runsFrom sep s cur, run ≠ [] := by
  induction s generalizing cur with
  | nil =>
    intro run hr
    rw [runsFrom] at hr
    by_cases hc : cur = []
    · rw [if_pos hc] at hr; simp at hr
    · rw [if_neg hc] at hr
      rw [List.mem_singleton.mp hr]; exact hc
  | cons c rest ih =>
    intro run hr
    rw [runsFrom] at hr
    by_cases hs : sep c = true
    · rw [if_pos hs] at hr
      rcases List.mem_append.mp hr with h | h
      · by_cases hc : cur = []
        · rw [if_pos hc] at h; simp at h
        · rw [if_neg hc] at h
          rw [List.mem_singleton.mp h]; exact hc
      · exact ih [] run h
    · rw [if_neg hs] at hr
      exact ih _ run hr

theorem wellFormed_freshArgv : WellFormed freshArgv := by
  unfold WellFormed
  decide

set_option maxRecDepth 100000 in
theorem split_str_demo :
    (split_str freshArgv
        (str " kjsf  ks  ks dhf ksdjh ksdjfh skdjf skdf skdjf sdkjf kjsdhf   ")).map
        (fun r => (r.ret, r.error, (r.argv.take 11).map c_str))
      = some (11, none, [str "kjsf", str "ks", str "ks", str "dhf", str "ksdjh", str "ksdjfh",
          str "skdjf", str "skdf", str "skdjf", str "sdkjf", str "kjsdhf"]) := by
  decide

set_option maxRecDepth 100000 in
/-- C16: a newline is white space, but `split_str` does not separate at it.
The string of `a`, newline and `b` has the two runs `a` and `b` of
non-whitespace characters, and `split_str`, whose loops test `std::isblank`,
returns 1 with the whole string as its only argument. -/
theorem newline_does_not_separate :
    (split_str freshArgv (str "a\nb")).map (fun r => (r.ret, r.error, c_str (r.argv.getD 0 [])))
        = some (1, none, str "a\nb")
      ∧ whitespaceRuns (str "a\nb") = [str "a", str "b"] := by
  decide

/-- What `split_str` does on a string without NUL that holds at most 29
arguments of at most 30 characters each: it returns the number of maximal runs
of non-blank characters (blank: space or tab) and stores these runs, in order
and NUL-terminated, in the first buffers of `argv`; no run is empty, and the
demo input yields its 11 arguments. -/
theorem split_str_blank_runs (argv : List (List Int)) (buffer : List Int)
    (hwf : WellFormed argv) (h0 : (0 : Int) ∉ buffer)
    (hcount : (blankRuns buffer).length ≤ 29)
    (hlen : ∀ run ∈ blankRuns buffer, run.length ≤ 30) :
    (∃ argv1, split_str argv buffer
        = some { ret := (blankRuns buffer).length, argv := argv1, error := none }
      ∧ ∀ j, j < (blankRuns buffer).length →
          c_str (argv1.getD j []) = (blankRuns buffer).getD j [])
    ∧ (∀ run ∈ blankRuns buffer, run ≠ [])
    ∧ (split_str freshArgv
        (str " kjsf  ks  ks dhf ksdjh ksdjfh skdjf skdf skdjf sdkjf kjsdhf   ")).map
        (fun r => (r.ret, r.error, (r.argv.take 11).map c_str))
      = some (11, none, [str "kjsf", str "ks", str "ks", str "dhf", str "ksdjh", str "ksdjfh",
          str "skdjf", str "skdf", str "skdjf", str "sdkjf", str "kjsdhf"]) := by
  refine ⟨?_, runsFrom_nonempty isblank buffer [], split_str_demo⟩
  obtain ⟨argv1, hloop, _, _, hargs⟩ := splitLoop_spec (buffer.length + 1) argv 0 buffer hwf h0
    (Nat.lt_succ_self _) (by unfold MAX_ARGC; omega)
    (fun run hr => by have := hlen run hr; unfold MAX_ARG_LEN; omega)
  refine ⟨argv1, ?_, ?_⟩
  · rw [split_str, hloop, Nat.zero_add]
  · intro j hj
    have := hargs j hj
    rw [Nat.zero_add] at this
    exact this

theorem split_str_blank_runs_witness :
    WellFormed freshArgv ∧ (0 : Int) ∉ str "ab  cd"
      ∧ (blankRuns (str "ab  cd")).length ≤ 29
      ∧ (∀ run ∈ blankRuns (str "ab  cd"), run.length ≤ 30)
      ∧ (∃ argv1, split_str freshArgv (str "ab  cd")
          = some { ret := (blankRuns (str "ab  cd")).length, argv := argv1, error := none }
        ∧ ∀ j, j < (blankRuns (str "ab  cd")).length →
            c_str (argv1.getD j []) = (blankRuns (str "ab  cd")).getD j [])
      ∧ (∀ run ∈ blankRuns (str "ab  cd"), run ≠ [])
      ∧ (split_str freshArgv
          (str " kjsf  ks  ks dhf ksdjh ksdjfh skdjf skdf skdjf sdkjf kjsdhf   ")).map
          (fun r => (r.ret, r.error, (r.argv.take 11).map c_str))
        = some (11, none, [str "kjsf", str "ks", str "ks", str "dhf", str "ksdjh", str "ksdjfh",
            str "skdjf", str "skdf", str "skdjf", str "sdkjf", str "kjsdhf"]) :=
  ⟨wellFormed_freshArgv, by decide, by decide, by decide,
    split_str_blank_runs freshArgv (str "ab  cd") wellFormed_freshArgv (by decide) (by decide)
      (by decide)⟩

set_option maxRecDepth 100000 in
/-- C17: a string of exactly 30 arguments is refused.  The test
`argc == MAX_ARGC - 1` stops the 30th argument: `split_str` prints the message
for more than 30 arguments and returns 0. -/
theorem thirty_arguments_refused :
    (blankRuns (List.replicate 30 (str "a ")).flatten).length = 30
      ∧ (split_str freshArgv (List.replicate 30 (str "a ")).flatten).map
          (fun r => (r.ret, r.error)) = some (0, some Error.moreThanMaxArguments) := by
  decide

set_option maxRecDepth 100000 in
/-- C18: an argument of 31 characters, which fills a buffer of `MAX_ARG_LEN`
chars together with its NUL, is refused.  After the 31st character the test
`i + 1 >= MAX_ARG_LEN` holds: `split_str` prints the message for an argument
longer than 32 and returns 0. -/
theorem argument_of_31_chars_refused :
    blankRuns (List.replicate 31 97) = [List.replicate 31 97]
      ∧ (List.replicate 31 97).length + 1 = MAX_ARG_LEN
      ∧ (split_str freshArgv (List.replicate 31 97)).map (fun r => (r.ret, r.error))
          = some (0, some Error.argumentLongerThanMax) := by
  decide

end SplitStr
